import Mathlib

/-!
# ParallelOthello: a shallow embedding of `src/player.c`

The C program keeps its position in global arrays (`board`, 100 cells, and
`moves`, 65 cells).  Arrays are embedded as `List Int`; every read and write
is bounds-checked and returns `none` where the C program would touch memory
outside the array.  Loops whose trip count is not syntactically bounded take a
fuel argument and return `none` when it runs out.
-/

namespace Othello

/-! ## Constants -/

/-- Modelled from the spec: `EMPTY` is declared in `comms.h`, which is not part of
the sources; the spec's design notes give the encodings 0/1/2/3, and
`nameof(piece)` indexes `piecenames = {'.', 'b', 'w', '?'}` with the cell
value, with `OUTER = 3` last. -/
def EMPTY : Int := 0

/-- Modelled from the spec: `BLACK` is declared in `comms.h` (see `EMPTY`). -/
def BLACK : Int := 1

/-- Modelled from the spec: `WHITE` is declared in `comms.h` (see `EMPTY`). -/
def WHITE : Int := 2

/-- The constant `const int OUTER = 3;`. -/
def OUTER : Int := 3

/-- The table `const int ALLDIRECTIONS[8]`. -/
def ALLDIRECTIONS : List Int := [-11, -10, -9, -1, 1, 9, 10, 11]

/-- The constant `const int BOARDSIZE = 100;`. -/
def BOARDSIZE : Nat := 100

/-- The constant `const int LEGALMOVSBUFSIZE = 65;`. -/
def LEGALMOVSBUFSIZE : Nat := 65

/-- The constant `#define MAX_DEPTH 5`. -/
def MAX_DEPTH : Int := 5

/-- The constant `#define ALPHA -1000`. -/
def ALPHA : Int := -1000

/-- The constant `#define BETA 1000`. -/
def BETA : Int := 1000

/-- The table `int weights[100]`. -/
def weights : List Int :=
  [0, 0, 0, 0, 0, 0, 0, 0, 0, 0,
   0, 20, 0, 10, 10, 10, 10, 0, 20, 0,
   0, 0, 0, 5, 5, 5, 5, 0, 0, 0,
   0, 10, 5, 3, 1, 1, 3, 5, 10, 0,
   0, 10, 5, 1, 7, 7, 1, 5, 10, 0,
   0, 10, 5, 1, 7, 7, 1, 5, 10, 0,
   0, 10, 5, 3, 1, 1, 3, 5, 10, 0,
   0, 0, 0, 5, 5, 5, 5, 0, 0, 0,
   0, 20, 0, 10, 10, 10, 10, 0, 20, 0,
   0, 0, 0, 0, 0, 0, 0, 0, 0, 0]

/-! ## Arrays -/

/-- An `int` array of the C program. -/
abbrev Board := List Int

/-- Array read `a[i]`; `none` outside the array. -/
def rd (a : List Int) (i : Int) : Option Int :=
  if 0 ≤ i then a[i.toNat]? else none

/-- Array write `a[i] = v`; `none` outside the array. -/
def wr (a : List Int) (i : Int) (v : Int) : Option (List Int) :=
  if 0 ≤ i ∧ i.toNat < a.length then some (a.set i.toNat v) else none

/-- Fuel handed to the two cell-stepping loops (`findbracketingpiece` and the
`do ... while` of `makeflips`). -/
def SCANFUEL : Nat := 100

/-! ## Rules -/

/-- The function `opponent`; the diagnostic print is not modelled. -/
def opponent (player : Int) : Int :=
  if player = BLACK then WHITE
  else if player = WHITE then BLACK
  else EMPTY

/-- The function `validp`, 1 or 0. -/
def validp (move : Int) : Int :=
  if move ≥ 11 ∧ move ≤ 88 ∧ Int.tmod move 10 ≥ 1 ∧ Int.tmod move 10 ≤ 8 then 1 else 0

/-- The function `findbracketingpiece`: the `while` loop steps over opponent
cells, then the cell reached decides the result. -/
def findbracketingpiece : Nat → Board → Int → Int → Int → Option Int
  | 0, _, _, _, _ => none
  | fuel + 1, board, square, dir, player =>
    match rd board square with
    | none => none
    | some v =>
      if v = opponent player then
        findbracketingpiece fuel board (square + dir) dir player
      else if v = player then some square
      else some 0

/-- The function `wouldflip`. -/
def wouldflip (board : Board) (move dir player : Int) : Option Int :=
  match rd board (move + dir) with
  | none => none
  | some v =>
    if v = opponent player then
      findbracketingpiece SCANFUEL board (move + dir + dir) dir player
    else some 0

/-- The `while (i <= 7 && !wouldflip(...)) i++` loop of `legalp`, over the
directions still to try; the result is `legalp`'s return value. -/
def legalpLoop (board : Board) (move player : Int) : List Int → Option Int
  | [] => some 0
  | dir :: rest =>
    match wouldflip board move dir player with
    | none => none
    | some r => if r ≠ 0 then some 1 else legalpLoop board move player rest

/-- The function `legalp`, on the global board. -/
def legalp (board : Board) (move player : Int) : Option Int :=
  if validp move = 0 then some 0
  else
    match rd board move with
    | none => none
    | some v =>
      if v = EMPTY then legalpLoop board move player ALLDIRECTIONS
      else some 0

/-- The cells `11 .. 88` visited by `for (move = 11; move <= 88; move++)`. -/
def scanCells : List Int := (List.range' 11 78).map Int.ofNat

/-- The loop of `legalmoves`: `i` is the running count and `moves` the global
array. -/
def legalmovesLoop (board : Board) (player : Int) :
    List Int → Int → List Int → Option (Int × List Int)
  | [], i, moves => some (i, moves)
  | move :: rest, i, moves =>
    match legalp board move player with
    | none => none
    | some r =>
      if r ≠ 0 then
        match wr moves (i + 1) move with
        | none => none
        | some moves1 => legalmovesLoop board player rest (i + 1) moves1
      else legalmovesLoop board player rest i moves

/-- The function `legalmoves`: rewrites the global array `moves` from the
global board and returns it. -/
def legalmoves (board : Board) (moves : List Int) (player : Int) : Option (List Int) :=
  match wr moves 0 0 with
  | none => none
  | some m0 =>
    match legalmovesLoop board player scanCells 0 m0 with
    | none => none
    | some (i, m1) => wr m1 0 i

/-- The board `initialise_board` builds. -/
def initialise_board : Board :=
  let b0 : Board := (List.range 100).map fun i =>
    if i ≤ 9 then OUTER
    else if i ≤ 89 then (if i % 10 ≥ 1 ∧ i % 10 ≤ 8 then EMPTY else OUTER)
    else OUTER
  (((b0.set 44 WHITE).set 45 BLACK).set 54 BLACK).set 55 WHITE

/-! ## Applying a move -/

/-- The `do ... while (c != bracketer)` loop of `makeflips`. -/
def flipLoop : Nat → Board → Int → Int → Int → Int → Option Board
  | 0, _, _, _, _, _ => none
  | fuel + 1, board, c, dir, player, bracketer =>
    match wr board c player with
    | none => none
    | some b1 =>
      if c + dir ≠ bracketer then flipLoop fuel b1 (c + dir) dir player bracketer
      else some b1

/-- The function `makeflips`, on the global board. -/
def makeflips (board : Board) (move dir player : Int) : Option Board :=
  match wouldflip board move dir player with
  | none => none
  | some bracketer =>
    if bracketer ≠ 0 then flipLoop SCANFUEL board (move + dir) dir player bracketer
    else some board

/-- The `for (i = 0; i <= 7; i++) makeflips(...)` loop of `makemove`. -/
def makemoveLoop (move player : Int) : List Int → Board → Option Board
  | [], board => some board
  | dir :: rest, board =>
    match makeflips board move dir player with
    | none => none
    | some b1 => makemoveLoop move player rest b1

/-- The function `makemove`, on the global board. -/
def makemove (board : Board) (move player : Int) : Option Board :=
  match wr board move player with
  | none => none
  | some b1 => makemoveLoop move player ALLDIRECTIONS b1

/-- The loop of `count` over the cells still to visit. -/
def countLoop (player : Int) (board : Board) : List Int → Int → Option Int
  | [], cnt => some cnt
  | i :: rest, cnt =>
    match rd board i with
    | none => none
    | some v => countLoop player board rest (if v = player then cnt + 1 else cnt)

/-- The function `count`: `for (i = 1; i <= 88; i++)`. -/
def count (player : Int) (board : Board) : Option Int :=
  countLoop player board ((List.range' 1 88).map Int.ofNat) 0

/-! ## Static evaluation -/

/-- The read `weights[move]`. -/
def weightAt (move : Int) : Int := (rd weights move).getD 0

/-- The loop of `evaluate_board`; `legalp` reads the global board `gboard`. -/
def evaluateLoop (gboard : Board) (player : Int) : List Int → Int → Int → Option (Int × Int)
  | [], player_moves, opp_moves => some (player_moves, opp_moves)
  | move :: rest, player_moves, opp_moves =>
    match legalp gboard move player with
    | none => none
    | some r1 =>
      match legalp gboard move (opponent player) with
      | none => none
      | some r2 =>
        evaluateLoop gboard player rest
          (if r1 ≠ 0 then weightAt move + player_moves else player_moves)
          (if r2 ≠ 0 then weightAt move + opp_moves else opp_moves)

/-- The function `evaluate_board(board, player)`.  Its parameter `board` shadows
the global of the same name but the body never reads it: `legalp` works on the
global board `gboard`. -/
def evaluate_board (gboard : Board) (_board : Board) (player : Int) : Option Int :=
  match evaluateLoop gboard player scanCells 0 0 with
  | none => none
  | some (player_moves, opp_moves) => some (player_moves - opp_moves)

/-! ## Move text -/

/-- Conversion of an `int` to `char`. -/
def toChar (x : Int) : Char := Char.ofNat (x % 256).toNat

/-- The NUL character. -/
def NUL : Char := Char.ofNat 0

/-- The string a `char` buffer holds: the characters before the first NUL. -/
def cstr (buf : List Char) : List Char := buf.takeWhile fun c => c ≠ NUL

/-- The literal `"pass\n"`. -/
def PASS : List Char := ['p', 'a', 's', 's', Char.ofNat 10]

/-- The library call `strncpy(dst, src, n)`: exactly `n` characters are written, the
characters of `src` followed by NUL padding. -/
def strncpy (dst src : List Char) (n : Nat) : Option (List Char) :=
  if n ≤ dst.length then
    some (src.take n ++ List.replicate (n - src.length) NUL ++ dst.drop n)
  else none

/-- The function `get_move_string`; `/` and `%` of C truncate towards zero. -/
def get_move_string (loc : Int) (ms : List Char) : Option (List Char) :=
  let new_loc := loc - (9 + 2 * Int.tdiv loc 10)
  let row := Int.tdiv new_loc 8
  let col := Int.tmod new_loc 8
  if 4 ≤ ms.length then
    some ((((ms.set 0 (toChar (row + 48))).set 1 (toChar (col + 48))).set 2
      (Char.ofNat 10)).set 3 NUL)
  else none

/-- The function `get_loc`. -/
def get_loc (movestring : List Char) : Option Int :=
  match movestring with
  | c0 :: c1 :: _ =>
    let row : Int := (c0.toNat : Int) - 48
    let col : Int := (c1.toNat : Int) - 48
    some (10 * (row + 1) + col + 1)
  | _ => none

/-! ## Process state -/

/-- The globals of one process.  `heap n` is what the `n`-th block handed out by
`malloc` holds before it is written, `allocs` counts the blocks handed out so
far, and `sent` logs the destination ranks of the `MPI_Bsend` calls. -/
structure State where
  board : Board
  moves : List Int
  my_colour : Int
  rank : Int
  size : Int
  send_counts : List Int
  displacements : List Int
  heap : Nat → Board
  allocs : Nat
  sent : List Int

/-- The value of an `int *board` parameter: either the block the global `board`
points to, or a private block. -/
inductive BoardPtr where
  | global : BoardPtr
  | block : Board → BoardPtr

/-- The cells a board pointer points to. -/
def deref (st : State) : BoardPtr → Board
  | BoardPtr.global => st.board
  | BoardPtr.block b => b

/-- The block `malloc(BOARDSIZE * sizeof(int))` returns: 100 cells of unspecified
content. -/
def freshBlock (st : State) : Board :=
  (List.range BOARDSIZE).map fun i => (st.heap st.allocs).getD i 0

/-- The loop of `copy_board`. -/
def copyLoop (board : Board) : List Int → Board → Option Board
  | [], temp_board => some temp_board
  | i :: rest, temp_board =>
    match rd board i with
    | none => none
    | some v =>
      match wr temp_board i v with
      | none => none
      | some t1 => copyLoop board rest t1

/-- The function `copy_board`: a fresh block, cells `0 .. 98` copied
(`for (i = 0; i < 99; i++)`). -/
def copy_board (st : State) (board : Board) : Option (State × Board) :=
  match copyLoop board ((List.range 99).map Int.ofNat) (freshBlock st) with
  | none => none
  | some t => some ({ st with allocs := st.allocs + 1 }, t)

/-! ## Work partitioning -/

/-- The ranks `1 .. size-1` of `for (int i = 1; i < size; i++)`. -/
def workerRanks (size : Int) : List Int :=
  (List.range' 1 (size - 1).toNat).map Int.ofNat

/-- First loop of `divide_moves`: `counts[i] = moves[0] / (size - 1)`. -/
def baseLoop (size n : Int) : List Int → List Int → Option (List Int)
  | [], counts => some counts
  | i :: rest, counts =>
    if size - 1 = 0 then none
    else
      match wr counts i (Int.tdiv n (size - 1)) with
      | none => none
      | some c1 => baseLoop size n rest c1

/-- Second loop of `divide_moves`: `while (remainder >= 0)`. -/
def remainderLoop (size : Int) : Nat → List Int → Int → Int → Option (List Int)
  | 0, counts, _, remainder => if remainder ≥ 0 then none else some counts
  | fuel + 1, counts, curr_worker, remainder =>
    if remainder ≥ 0 then
      match rd counts curr_worker with
      | none => none
      | some v =>
        match wr counts curr_worker (v + 1) with
        | none => none
        | some c1 =>
          remainderLoop size fuel c1 (Int.tmod (curr_worker + 1) (size - 1)) (remainder - 1)
    else some counts

/-- Third loop of `divide_moves`: `displacements[i] = sum; sum += counts[i]`. -/
def displacementLoop (counts : List Int) : List Int → List Int → Int → Option (List Int)
  | [], displs, _ => some displs
  | i :: rest, displs, sum =>
    match wr displs i sum with
    | none => none
    | some d1 =>
      match rd counts i with
      | none => none
      | some c => displacementLoop counts rest d1 (sum + c)

/-- The partition computed by `divide_moves` (and, on local arrays, by
`run_worker`) for `n = moves[0]`: the new counts and displacements. -/
def partition (size n : Int) (counts displs : List Int) :
    Option (List Int × List Int) :=
  match baseLoop size n (workerRanks size) counts with
  | none => none
  | some c1 =>
    if size - 1 = 0 then none
    else
      let remainder := Int.tmod n (size - 1)
      match remainderLoop size (remainder + 1).toNat c1 0 remainder with
      | none => none
      | some c2 =>
        match wr displs 1 0 with
        | none => none
        | some d1 =>
          match displacementLoop c2 (workerRanks size) d1 0 with
          | none => none
          | some d2 => some (c2, d2)

/-- The function `divide_moves`, on the globals `send_counts` and
`displacements`. -/
def divide_moves (st : State) : Option State :=
  match rd st.moves 0 with
  | none => none
  | some n =>
    match partition st.size n st.send_counts st.displacements with
    | none => none
    | some (c, d) => some { st with send_counts := c, displacements := d }

/-- The values `j` takes in the move loop of `run_worker` on rank `rank`, for
`n = moves[0]` legal moves; `counts0`, `displs0` are the freshly allocated
`process_counts` and `process_displacements`. -/
def run_worker_indices (size rank n : Int) (counts0 displs0 : List Int) :
    Option (List Int) :=
  match partition size n counts0 displs0 with
  | none => none
  | some (process_counts, process_displacements) =>
    match rd process_displacements rank, rd process_counts rank with
    | some d, some c =>
      let i := if rank = 1 then d + 1 else d
      some ((List.range (d + c - i).toNat).map fun (k : Nat) => i + (k : Int))
    | _, _ => none

/-! ## Bound sharing and search -/

/-- What the `MPI_Iprobe`/`MPI_Recv`/`MPI_Unpack` calls of one
`alpha_beta_sharing` call deliver: for each peer rank, the pair `(a, b)` read
when a message was available. -/
abbrev PeerInput := Int → Option (Int × Int)

/-- The ranks `0 .. size-1` of `for (int i = 0; i < size; i++)`. -/
def allRanks (size : Int) : List Int := (List.range size.toNat).map Int.ofNat

/-- The receiving loop of `alpha_beta_sharing`, on its own copies of `alpha`
and `beta`. -/
def sharingRecvLoop (rank : Int) (avail : PeerInput) : List Int → Int → Int → Int × Int
  | [], alpha, beta => (alpha, beta)
  | i :: rest, alpha, beta =>
    if i ≠ rank then
      match avail i with
      | some (a, b) =>
        sharingRecvLoop rank avail rest (if a > alpha then a else alpha)
          (if b < beta then b else beta)
      | none => sharingRecvLoop rank avail rest alpha beta
    else sharingRecvLoop rank avail rest alpha beta

/-- The function `alpha_beta_sharing(alpha, beta)`.  It returns `void`: the
window folded from the peers lives in its own parameters.  The embedding
returns that local window next to the state, whose `sent` log gains the
destinations of the `MPI_Bsend` loop. -/
def alpha_beta_sharing (st : State) (alpha beta : Int) (avail : PeerInput) :
    State × (Int × Int) :=
  ({ st with sent := st.sent ++ (allRanks st.size).filter fun i => st.rank ≠ i },
   sharingRecvLoop st.rank avail (allRanks st.size) alpha beta)

/-- Result of a search call: the state, the score, the peer input not yet
consumed. -/
abbrev SearchResult := State × Int × List PeerInput

/-- The `for (int i = 1; i < num_moves; i++)` loop of `minimax` over the values of
`i` still to run; `child` is the recursive call
`minimax(board, current_depth + 1, max_depth, opponent(player), alpha, beta)`.
The result carries the final `alpha` and `beta`. -/
def minimaxLoop
    (child : State → BoardPtr → Int → Int → List PeerInput → Option SearchResult)
    (current_depth player : Int) :
    List Int → State → BoardPtr → Int → Int → List PeerInput →
      Option (State × Int × Int × List PeerInput)
  | [], st, _, alpha, beta, inbox => some (st, alpha, beta, inbox)
  | i :: rest, st, board, alpha, beta, inbox =>
    -- temp_board = copy_board(board);
    match copy_board st (deref st board) with
    | none => none
    | some (st1, temp_board) =>
      -- makemove(legal_moves[i], player);  legal_moves is the global array moves
      match rd st1.moves i with
      | none => none
      | some mv =>
        match makemove st1.board mv player with
        | none => none
        | some b2 =>
          match child { st1 with board := b2 } board alpha beta inbox with
          | none => none
          | some (st3, score, inbox3) =>
            let alpha1 := if player = st3.my_colour ∧ score > alpha then score else alpha
            let beta1 :=
              if player = opponent st3.my_colour ∧ score < beta then score else beta
            -- board = copy_board(temp_board);
            match copy_board st3 temp_board with
            | none => none
            | some (st4, board4) =>
              if alpha1 > beta1 then
                if current_depth < 2 then
                  let shared := alpha_beta_sharing st4 alpha1 beta1
                    (inbox3.headD fun _ => none)
                  some (shared.1, alpha1, beta1, inbox3.tail)
                else some (st4, alpha1, beta1, inbox3)
              else
                minimaxLoop child current_depth player rest st4 (BoardPtr.block board4)
                  alpha1 beta1 inbox3

/-- The result of `evaluate_board(board, player)` as a search result. -/
def evalResult (st : State) (board : BoardPtr) (player : Int) (inbox : List PeerInput) :
    Option SearchResult :=
  match evaluate_board st.board (deref st board) player with
  | none => none
  | some v => some (st, v, inbox)

/-- The body of `minimax` below the depth test. -/
def minimaxBody
    (child : State → BoardPtr → Int → Int → List PeerInput → Option SearchResult)
    (st : State) (board : BoardPtr) (current_depth player alpha beta : Int)
    (inbox : List PeerInput) : Option SearchResult :=
  -- legal_moves = legalmoves(my_colour);
  match legalmoves st.board st.moves st.my_colour with
  | none => none
  | some moves1 =>
    let st1 := { st with moves := moves1 }
    match rd moves1 0 with
    | none => none
    | some num_moves =>
      if num_moves = 0 then evalResult st1 board player inbox
      else
        match minimaxLoop child current_depth player
            ((List.range' 1 (num_moves - 1).toNat).map Int.ofNat) st1 board alpha beta
            inbox with
        | none => none
        | some (st2, alpha2, beta2, inbox2) =>
          if player = st2.my_colour then some (st2, alpha2, inbox2)
          else some (st2, beta2, inbox2)

/-- The function `minimax` with the recursion depth as fuel. -/
def minimaxFuel : Nat → State → BoardPtr → Int → Int → Int → Int → Int →
    List PeerInput → Option SearchResult
  | 0, st, board, current_depth, max_depth, player, _, _, inbox =>
    if current_depth ≥ max_depth then evalResult st board player inbox else none
  | fuel + 1, st, board, current_depth, max_depth, player, alpha, beta, inbox =>
    if current_depth ≥ max_depth then evalResult st board player inbox
    else
      minimaxBody
        (fun s b a be ib =>
          minimaxFuel fuel s b (current_depth + 1) max_depth (opponent player) a be ib)
        st board current_depth player alpha beta inbox

/-- The function `minimax`; the recursion is at most `max_depth - current_depth`
deep. -/
def minimax (st : State) (board : BoardPtr) (current_depth max_depth player alpha beta : Int)
    (inbox : List PeerInput) : Option SearchResult :=
  minimaxFuel (max_depth - current_depth).toNat st board current_depth max_depth player
    alpha beta inbox

/-! ## Generating a move on rank 0 -/

/-- The function `gen_move(move)`; `r` is the value `rand()` returns and
`bufsize` the constant `MOVEBUFSIZE` of `comms.h`. -/
def gen_move (bufsize : Nat) (st : State) (move : List Char) (r : Int) :
    Option (State × List Char) :=
  let st0 := if st.my_colour = EMPTY then { st with my_colour := BLACK } else st
  match legalmoves st0.board st0.moves st0.my_colour with
  | none => none
  | some moves1 =>
    let st1 := { st0 with moves := moves1 }
    match rd moves1 0 with
    | none => none
    | some n =>
      if n = 0 then
        match strncpy move PASS bufsize with
        | none => none
        | some move1 => some (st1, move1)
      else
        match rd moves1 (Int.tmod r n + 1) with
        | none => none
        | some loc =>
          match get_move_string loc move with
          | none => none
          | some move1 =>
            match makemove st1.board loc st1.my_colour with
            | none => none
            | some b1 => some ({ st1 with board := b1 }, move1)

/-- The receiving loop of the `gen_move` branch of `main`: one report
`(move, score)` per worker, in rank order.  The state is
`(best_move, temp_move, score)`. -/
def collectLoop : List (Int × Int) → Int → Int → Int → Int × Int × Int
  | [], best_move, temp_move, score => (best_move, temp_move, score)
  | (mv, temp_score) :: rest, _, temp_move, score =>
    -- MPI_Recv(&best_move, ...); MPI_Recv(&temp_score, ...);
    if temp_score > score then collectLoop rest mv mv temp_score
    else collectLoop rest mv temp_move score

/-- The move the coordinator passes to `get_move_string` and `makemove` after
the receiving loop: the variable `best_move`. -/
def chosen_move (reports : List (Int × Int)) : Int :=
  (collectLoop reports 0 0 (-1000)).1

/-- The `gen_move` branch of `main` on rank 0, from the `memset` of `my_move` to
`makemove`; `reports` holds the workers' reports in rank order.  The result is
the state and the text handed to `comms_send_move`. -/
def coordinator_turn (bufsize : Nat) (st : State) (my_move : List Char)
    (reports : List (Int × Int)) : Option (State × List Char) :=
  if reports.length ≠ (st.size - 1).toNat then none
  else
    -- memset(my_move, 0, MOVEBUFSIZE); strncpy(my_move, "pass\n", MOVEBUFSIZE);
    match strncpy my_move PASS bufsize with
    | none => none
    | some move1 =>
      match legalmoves st.board st.moves st.my_colour with
      | none => none
      | some moves1 =>
        match divide_moves { st with moves := moves1 } with
        | none => none
        | some st2 =>
          let best_move := chosen_move reports
          match get_move_string best_move move1 with
          | none => none
          | some move2 =>
            match makemove st2.board best_move st2.my_colour with
            | none => none
            | some b1 => some ({ st2 with board := b1 }, move2)

/-! ## Well-formed boards and bracketing -/

/-- Border cells: row or column 0 or 9. -/
def isBorder (i : Nat) : Prop := i / 10 = 0 ∨ i / 10 = 9 ∨ i % 10 = 0 ∨ i % 10 = 9

instance (i : Nat) : Decidable (isBorder i) := by
  unfold isBorder; infer_instance

/-- A well-formed board: 100 cells, border cells `OUTER`, playable cells
`EMPTY`, `BLACK` or `WHITE`. -/
def WellFormed (b : Board) : Prop :=
  b.length = 100 ∧
  ∀ i, i < 100 →
    if isBorder i then b[i]? = some OUTER
    else (b[i]? = some EMPTY ∨ b[i]? = some BLACK ∨ b[i]? = some WHITE)

instance (b : Board) : Decidable (WellFormed b) := by
  unfold WellFormed; infer_instance

/-- A side: `BLACK` or `WHITE`. -/
def IsSide (p : Int) : Prop := p = BLACK ∨ p = WHITE

instance (p : Int) : Decidable (IsSide p) := by
  unfold IsSide; infer_instance

/-- From `sq`, stepping by `d`, the `n` cells `sq, sq+d, ..` hold the opponent of
`p` and the next one holds `p`. -/
def Run (b : Board) (sq d p : Int) (n : Nat) : Prop :=
  (∀ j : Nat, j < n → rd b (sq + j * d) = some (opponent p)) ∧
  rd b (sq + n * d) = some p

/-- The move `move` brackets in direction `d`: for some `k ≥ 1` the cells
`move+d, .., move+k*d` hold the opponent of `p` and `move+(k+1)*d` holds `p`. -/
def Bracket (b : Board) (move d p : Int) : Prop :=
  ∃ k : Nat, 1 ≤ k ∧
    (∀ j : Nat, 1 ≤ j → j ≤ k → rd b (move + j * d) = some (opponent p)) ∧
    rd b (move + (k + 1 : Nat) * d) = some p

/-- Playable cells: row and column in `1 .. 8`. -/
def Playable (move : Int) : Prop :=
  11 ≤ move ∧ move ≤ 88 ∧ 1 ≤ move % 10 ∧ move % 10 ≤ 8

instance (move : Int) : Decidable (Playable move) := by
  unfold Playable; infer_instance

/-- The board `b1` differs from `b` only in cells that held the opponent of `p`
and now hold `p`. -/
def Painted (p : Int) (b b1 : Board) : Prop :=
  b1.length = b.length ∧
  ∀ i : Int, rd b1 i = rd b i ∨ (rd b1 i = some p ∧ rd b i = some (opponent p))

/-- The cells of `cells` that `legalp` accepts, in order. -/
def legalCells (board : Board) (player : Int) : List Int → Option (List Int)
  | [] => some []
  | move :: rest =>
    match legalp board move player with
    | none => none
    | some r =>
      match legalCells board player rest with
      | none => none
      | some found => some (if r ≠ 0 then move :: found else found)

/-- The writes `i++; moves[i] = move` for the cells of `found`, in order. -/
def storeMoves : List Int → Int → List Int → Option (Int × List Int)
  | [], i, moves => some (i, moves)
  | m :: rest, i, moves =>
    match wr moves (i + 1) m with
    | none => none
    | some moves1 => storeMoves rest (i + 1) moves1

/-- The size the partition gives worker `i` of `w` workers for `n` moves: the
base size `n / w`, one more for the first `n % w` workers. -/
def shareSize (n w i : Int) : Int := n / w + if i ≤ n % w then 1 else 0

/-- The displacement the partition gives worker `i` of `w` workers for `n`
moves. -/
def shareStart (n w i : Int) : Int := (i - 1) * (n / w) + min (i - 1) (n % w)

/-- A process state with 5 legal moves listed and 3 workers (`size = 4`). -/
def partitionSample : State :=
  { board := initialise_board
    moves := 5 :: List.replicate 64 0
    my_colour := BLACK
    rank := 0
    size := 4
    send_counts := [0, 0, 0, 0]
    displacements := [0, 0, 0, 0]
    heap := fun _ => []
    allocs := 0
    sent := [] }

/-- A process state on whose board `BLACK` holds the four center cells, so that
`BLACK` has no legal move. -/
def passSample : State :=
  { board := (initialise_board.set 44 BLACK).set 55 BLACK
    moves := List.replicate 65 0
    my_colour := BLACK
    rank := 0
    size := 2
    send_counts := [0, 0]
    displacements := [0, 0]
    heap := fun _ => []
    allocs := 0
    sent := [] }

/-- What a caller observes of a search result: the process state and the
score. -/
def searchObs (r : SearchResult) : State × Int := (r.1, r.2.1)

/-- What the rest of `minimax` observes of its loop: the process state, `alpha`
and `beta`. -/
def loopObs (r : State × Int × Int × List PeerInput) : State × Int × Int :=
  (r.1, r.2.1, r.2.2.1)

/-- Cell `j` of the array `ms` holds a playable cell. -/
def HoldsMove (ms : List Int) (j : Int) : Prop := ∃ m, rd ms j = some m ∧ Playable m

/-- A process state the search starts from: a well-formed board, a `moves`
array of 65 cells, a side as `my_colour`. -/
def GoodState (st : State) : Prop :=
  WellFormed st.board ∧ st.moves.length = 65 ∧ IsSide st.my_colour

/-- A board pointer that points to a board of 100 cells. -/
def GoodPtr : BoardPtr → Prop
  | BoardPtr.global => True
  | BoardPtr.block b => b.length = 100

/-- Boards reached from the board of `initialise_board` by `makemove` calls, each
with a side as mover and a move that `legalp` accepts for it. -/
inductive Reachable : Board → Prop where
  | init : Reachable initialise_board
  | step {b b1 : Board} {m p r : Int} : Reachable b → IsSide p →
      legalp b m p = some r → r ≠ 0 → makemove b m p = some b1 → Reachable b1

/-- The board after `makemove(34, BLACK)` on the starting position. -/
def afterFirstMove : Board :=
  ((initialise_board.set 34 BLACK).set 44 BLACK)

/-- The digit character of `n`: `'0' + n`. -/
def digitChar (n : Int) : Char := Char.ofNat (48 + n.toNat)

/-- The literal `"pass"` that `play_move` compares the move with. -/
def passText : List Char := ['p', 'a', 's', 's']

/-- The function `play_move(move)`: `strcmp` compares the string in the buffer
with `"pass"`, `get_loc` reads the first two characters. -/
def play_move (st : State) (move : List Char) : Option State :=
  let st0 := if st.my_colour = EMPTY then { st with my_colour := WHITE } else st
  if cstr move = passText then some st0
  else
    match get_loc move with
    | none => none
    | some loc =>
      match makemove st0.board loc (opponent st0.my_colour) with
      | none => none
      | some b1 => some { st0 with board := b1 }

/-- The weighted mobility the spec describes: the sum of `weights[c]` over the
playable cells `c` at which `legalp` accepts a move of `p` on the board `b`. -/
def mobility (b : Board) (p : Int) : Int :=
  ((scanCells.filter fun c => decide (Playable c) && decide (legalp b c p = some 1)).map
    weightAt).sum

/-- The board after `BLACK` plays 34 and `WHITE` plays 53 from the starting
position. -/
def afterSecondMove : Board :=
  ((afterFirstMove.set 53 WHITE).set 54 WHITE)

/-- A well-formed board with `WHITE` on 12 and `BLACK` on 13 only: `BLACK` has
exactly one legal move, cell 11. -/
def edgeBoard : Board :=
  (((((initialise_board.set 44 EMPTY).set 45 EMPTY).set 54 EMPTY).set 55 EMPTY).set 12
    WHITE).set 13 BLACK

/-- A worker's process state on the starting position, searching for `BLACK`,
with one worker (`size = 2`). -/
def searchSample : State :=
  { board := initialise_board
    moves := List.replicate 65 0
    my_colour := BLACK
    rank := 1
    size := 2
    send_counts := [0, 0]
    displacements := [0, 0]
    heap := fun _ => []
    allocs := 0
    sent := [] }

/-- A worker's process state after `BLACK` played 34, searching for `WHITE`. -/
def whiteSample : State :=
  { searchSample with board := afterFirstMove, my_colour := WHITE }

/-- The board after `BLACK` plays 34 and `WHITE` plays 33 from the starting
position. -/
def afterMove33 : Board := (afterFirstMove.set 33 WHITE).set 44 WHITE

/-- The move `move` brackets exactly `k ≥ 1` opponent cells in direction `d`:
the cells `move+d, .., move+k*d` hold the opponent of `p` and `move+(k+1)*d` holds
`p`. -/
def BracketAt (b : Board) (move d p : Int) (k : Nat) : Prop :=
  1 ≤ k ∧
  (∀ j : Nat, 1 ≤ j → j ≤ k → rd b (move + j * d) = some (opponent p)) ∧
  rd b (move + (k + 1 : Nat) * d) = some p

/-- Cell `i` lies in the run of opponent cells that `move` brackets in direction
`d` on the board `b`. -/
def InRun (b : Board) (move d p i : Int) : Prop :=
  ∃ k : Nat, BracketAt b move d p k ∧ ∃ j : Nat, 1 ≤ j ∧ j ≤ k ∧ i = move + j * d

/-- The board `c` is the board `b` with `move` placed for `p` and the runs
bracketed in the directions of `D` flipped. -/
def FlippedIn (b : Board) (move p : Int) (D : Int → Prop) (c : Board) : Prop :=
  rd c move = some p ∧
  ∀ i : Int, i ≠ move →
    ((∃ d, D d ∧ InRun b move d p i) → rd c i = some p) ∧
    ((¬ ∃ d, D d ∧ InRun b move d p i) → rd c i = rd b i)

/-- The recursive call of `minimax` made one ply above the depth limit, for the
side `q` to move below: the callee is at the limit and returns
`evaluate_board(board, q)`. -/
def leafChild (q : Int) :
    State → BoardPtr → Int → Int → List PeerInput → Option SearchResult :=
  fun s b _ _ ib => evalResult s b q ib

/-- The moves of `ms` applied one after another, by `makemove` for `player`, each
to the board the previous one left. -/
def playAll (player : Int) : Board → List Int → Option Board
  | board, [] => some board
  | board, m :: rest =>
    match makemove board m player with
    | none => none
    | some b1 => playAll player b1 rest

/-- The board after `makemove` placed `BLACK` on 34, 43 and 56 in turn, starting
from the starting position. -/
def afterSiblings : Board := ((afterFirstMove.set 43 BLACK).set 56 BLACK).set 55 BLACK

/-- The array `moves` after `legalmoves(BLACK)` on the starting position, called
with the array of `searchSample`. -/
def startMoves : List Int :=
  ((((((searchSample.moves.set 0 0).set 1 34).set 2 43).set 3 56).set 4 65).set 0 4)

/-- The array `moves` after `legalmoves(WHITE)` on the board `afterFirstMove`,
called with the array of `whiteSample`. -/
def whiteMoves : List Int :=
  (((((whiteSample.moves.set 0 0).set 1 33).set 2 35).set 3 53).set 0 3)

/-- The array `moves` after `legalmoves(BLACK)` on the board `edgeBoard`, called
with the array of `searchSample`. -/
def edgeMoves : List Int := (((searchSample.moves.set 0 0).set 1 11).set 0 1)

/-! ## The worker -/

/-- The constant `COMPUTE = 1`, the tag of a board sent for searching. -/
def COMPUTE : Int := 1

/-- The constant `STOP = 2`, the tag of the closing message. -/
def STOP : Int := 2

/-- The loop of `iterative_minimax` over the values of `depth` still to run:
`best_score = minimax(board, current_depth, depth, player, alpha, beta)`. -/
def iterativeLoop (board : BoardPtr) (current_depth player alpha beta : Int) :
    List Int → State → Int → List PeerInput → Option SearchResult
  | [], st, best_score, inbox => some (st, best_score, inbox)
  | depth :: rest, st, _, inbox =>
    match minimax st board current_depth depth player alpha beta inbox with
    | none => none
    | some (st1, best_score, inbox1) =>
      iterativeLoop board current_depth player alpha beta rest st1 best_score inbox1

/-- The function `iterative_minimax`: `best_score = -ALPHA`, then one `minimax`
call per `depth` in `0 .. MAX_DEPTH-1`.  Its parameter `max_depth` is not
read. -/
def iterative_minimax (st : State) (board : BoardPtr)
    (current_depth _max_depth player alpha beta : Int) (inbox : List PeerInput) :
    Option SearchResult :=
  iterativeLoop board current_depth player alpha beta
    ((List.range MAX_DEPTH.toNat).map Int.ofNat) st (-ALPHA) inbox

/-- The locals of `run_worker` that live across the passes of its `while` loop.
`temp_score` is assigned at the top of every pass and `best_move` before it is
sent, so that neither carries a value from one pass to the next. -/
structure Worker where
  temp_move : Int
  my_move : List Char
  process_counts : List Int
  process_displacements : List Int

/-- The call `MPI_Recv(buf, BOARDSIZE, MPI_INT, ..)` for a message of `msg.length`
integers: the message overwrites the first cells of the buffer; a message
longer than `BOARDSIZE` or than the buffer is an error. -/
def mpiRecv (buf msg : List Int) : Option (List Int) :=
  if msg.length ≤ BOARDSIZE ∧ msg.length ≤ buf.length then
    some (msg ++ buf.drop msg.length)
  else none

/-- The `for (int j = i; j < ...; j++)` loop of `run_worker` over the values of
`j` still to run; the state carries `temp_score` and `temp_move`.  The array
`legal_moves` is the global `moves`, and `board` is the global board, which
the last statement of the body re-points to a fresh copy. -/
def workerLoop : List Int → State → Int → Int → List PeerInput →
    Option (State × Int × Int × List PeerInput)
  | [], st, temp_score, temp_move, inbox => some (st, temp_score, temp_move, inbox)
  | j :: rest, st, temp_score, temp_move, inbox =>
    -- current_move = legal_moves[j];
    match rd st.moves j with
    | none => none
    | some current_move =>
      -- temp_board = copy_board(board);
      match copy_board st st.board with
      | none => none
      | some (st1, temp_board) =>
        -- my_score = iterative_minimax(board, depth, MAX_DEPTH, my_colour, ALPHA, BETA);
        match iterative_minimax st1 BoardPtr.global 0 MAX_DEPTH st1.my_colour ALPHA BETA
            inbox with
        | none => none
        | some (st2, my_score, inbox2) =>
          let temp_score1 := if my_score > temp_score then my_score else temp_score
          let temp_move1 := if my_score > temp_score then current_move else temp_move
          -- board = copy_board(temp_board); free(temp_board);
          match copy_board st2 temp_board with
          | none => none
          | some (st3, board3) =>
            workerLoop rest { st3 with board := board3 } temp_score1 temp_move1 inbox2

/-- One pass of the `while (flag == 1)` loop of `run_worker`: `msg` is the
message `MPI_Recv` delivers into the board and `tag` its `status.MPI_TAG`.  The
result is the state, the locals, and the report `(best_move, temp_score)` sent
to rank 0 when the tag is `COMPUTE`; without a report `flag` is 0 and the loop
ends.  `bufsize` is the constant `MOVEBUFSIZE` of `comms.h`. -/
def run_worker_round (bufsize : Nat) (st : State) (w : Worker) (msg : List Int) (tag : Int)
    (inbox : List PeerInput) :
    Option (State × Worker × Option (Int × Int) × List PeerInput) :=
  -- temp_score = -10000;  MPI_Recv(board, BOARDSIZE, ..);
  match mpiRecv st.board msg with
  | none => none
  | some board0 =>
    -- legal_moves = legalmoves(my_colour);
    match legalmoves board0 st.moves st.my_colour with
    | none => none
    | some moves1 =>
      let st1 := { st with board := board0, moves := moves1 }
      match rd moves1 0 with
      | none => none
      | some n =>
        match partition st1.size n w.process_counts w.process_displacements with
        | none => none
        | some (process_counts, process_displacements) =>
          match rd process_displacements st1.rank, rd process_counts st1.rank with
          | some d, some c =>
            let i := if st1.rank = 1 then d + 1 else d
            match workerLoop ((List.range (d + c - i).toNat).map fun (k : Nat) => i + (k : Int))
                st1 (-10000) w.temp_move inbox with
            | none => none
            | some (st2, temp_score, temp_move, inbox2) =>
              match (if temp_move > -1 then get_move_string temp_move w.my_move
                  else strncpy w.my_move PASS bufsize) with
              | none => none
              | some my_move1 =>
                some (st2,
                  { temp_move := temp_move
                    my_move := my_move1
                    process_counts := process_counts
                    process_displacements := process_displacements },
                  (if tag = COMPUTE then some (temp_move, temp_score) else none), inbox2)
          | _, _ => none

/-- The `while (flag == 1)` loop of `run_worker` over the messages rank 0 sends,
in order; the result lists the reports sent to rank 0.  After the last message
of the list the worker waits in `MPI_Recv`. -/
def workerRounds (bufsize : Nat) : List (List Int × Int) → State → Worker →
    List PeerInput → Option (State × Worker × List (Int × Int))
  | [], st, w, _ => some (st, w, [])
  | (msg, tag) :: rest, st, w, inbox =>
    match run_worker_round bufsize st w msg tag inbox with
    | none => none
    | some (st1, w1, none, _) => some (st1, w1, [])
    | some (st1, w1, some report, inbox1) =>
      match workerRounds bufsize rest st1 w1 inbox1 with
      | none => none
      | some (st2, w2, reports) => some (st2, w2, report :: reports)

/-- The function `run_worker(rank)`: `temp_move = -1`, `initialise_board()`, the
zeroed `my_move`, the two arrays from `malloc` (their content is `counts0` and
`displs0`), the default colour, then the loop.  The result is the final state
and the reports sent to rank 0. -/
def run_worker (bufsize : Nat) (st : State) (counts0 displs0 : List Int)
    (msgs : List (List Int × Int)) (inbox : List PeerInput) :
    Option (State × List (Int × Int)) :=
  let st0 := { st with
    board := initialise_board
    my_colour := if st.my_colour = EMPTY then BLACK else st.my_colour }
  let w0 : Worker :=
    { temp_move := -1
      my_move := List.replicate bufsize NUL
      process_counts := counts0
      process_displacements := displs0 }
  (workerRounds bufsize msgs st0 w0 inbox).map fun r => (r.1, r.2.2)

/-- A worker process as `main` leaves it before `run_worker`: rank 1 of 3
processes, `my_colour = EMPTY`, a zeroed `moves` array. -/
def workerSample : State :=
  { searchSample with my_colour := EMPTY, size := 3 }

/-- A board with the sentinel border: 100 cells, the 36 border cells `OUTER`;
nothing is asked of the playable cells. -/
def Bordered (b : Board) : Prop :=
  b.length = 100 ∧ ∀ i, i < 100 → isBorder i → b[i]? = some OUTER

end Othello

namespace Othello

/-! ## Array lemmas -/

theorem rd_eq_some_bounds {a : List Int} {i v : Int} (h : rd a i = some v) :
    0 ≤ i ∧ i.toNat < a.length := by
  unfold rd at h
  split at h
  · rename_i h0
    exact ⟨h0, (List.getElem?_eq_some.mp h).1⟩
  · simp at h

theorem rd_of_bounds {a : List Int} {i : Int} (h0 : 0 ≤ i) (h1 : i.toNat < a.length) :
    ∃ v, rd a i = some v := by
  unfold rd
  rw [if_pos h0]
  exact ⟨a[i.toNat], List.getElem?_eq_getElem h1⟩

theorem wr_of_bounds {a : List Int} {i : Int} (v : Int) (h0 : 0 ≤ i)
    (h1 : i.toNat < a.length) : wr a i v = some (a.set i.toNat v) := by
  unfold wr
  rw [if_pos ⟨h0, h1⟩]

theorem wr_eq_some {a a1 : List Int} {i v : Int} (h : wr a i v = some a1) :
    0 ≤ i ∧ i.toNat < a.length ∧ a1 = a.set i.toNat v := by
  unfold wr at h
  split at h
  · rename_i hb
    exact ⟨hb.1, hb.2, (Option.some.inj h).symm⟩
  · simp at h

theorem wr_length {a a1 : List Int} {i v : Int} (h : wr a i v = some a1) :
    a1.length = a.length := by
  obtain ⟨_, _, rfl⟩ := wr_eq_some h
  simp

theorem rd_wr_same {a a1 : List Int} {i v : Int} (h : wr a i v = some a1) :
    rd a1 i = some v := by
  obtain ⟨h0, h1, rfl⟩ := wr_eq_some h
  unfold rd
  rw [if_pos h0]
  simp [List.getElem?_set, h1]

theorem rd_wr_other {a a1 : List Int} {i j v : Int} (h : wr a i v = some a1) (hij : i ≠ j) :
    rd a1 j = rd a j := by
  obtain ⟨h0, h1, rfl⟩ := wr_eq_some h
  unfold rd
  by_cases hj : 0 ≤ j
  · rw [if_pos hj, if_pos hj]
    apply List.getElem?_set_ne
    omega
  · rw [if_neg hj, if_neg hj]

/-! ## Sides -/

theorem opponent_side {p : Int} (hp : IsSide p) : IsSide (opponent p) := by
  rcases hp with rfl | rfl
  · right; decide
  · left; decide

theorem opponent_ne {p : Int} (hp : IsSide p) : opponent p ≠ p := by
  rcases hp with rfl | rfl <;> decide

theorem opponent_opponent {p : Int} (hp : IsSide p) : opponent (opponent p) = p := by
  rcases hp with rfl | rfl <;> decide

theorem side_ne_empty {p : Int} (hp : IsSide p) : p ≠ EMPTY := by
  rcases hp with rfl | rfl <;> decide

theorem side_ne_outer {p : Int} (hp : IsSide p) : p ≠ OUTER := by
  rcases hp with rfl | rfl <;> decide

/-! ## Geometry of the sentinel border -/

theorem dir_bounds {d : Int} (hd : d ∈ ALLDIRECTIONS) : -11 ≤ d ∧ d ≤ 11 ∧ d ≠ 0 := by
  simp [ALLDIRECTIONS] at hd
  omega

theorem wf_rd {b : Board} (hb : WellFormed b) {i : Int} (h0 : 0 ≤ i) (h1 : i < 100) :
    ∃ v, rd b i = some v := by
  apply rd_of_bounds h0
  rw [hb.1]; omega

/-- On a well-formed board a cell holding a piece is a playable cell. -/
theorem wf_side_cell {b : Board} (hb : WellFormed b) {i p : Int} (hp : IsSide p)
    (h : rd b i = some p) : 11 ≤ i ∧ i ≤ 88 ∧ 1 ≤ i % 10 ∧ i % 10 ≤ 8 := by
  obtain ⟨h0, h1⟩ := rd_eq_some_bounds h
  rw [hb.1] at h1
  have hc := hb.2 i.toNat h1
  unfold rd at h
  rw [if_pos h0] at h
  by_cases hbd : isBorder i.toNat
  · rw [if_pos hbd, h] at hc
    exact absurd (Option.some.inj hc) (side_ne_outer hp)
  · unfold isBorder at hbd
    omega

/-- One step from a cell holding a piece stays inside the array. -/
theorem wf_step {b : Board} (hb : WellFormed b) {i p d : Int} (hp : IsSide p)
    (h : rd b i = some p) (hd : d ∈ ALLDIRECTIONS) : 0 ≤ i + d ∧ i + d < 100 := by
  have := wf_side_cell hb hp h
  have := dir_bounds hd
  omega

/-! ## The bracket scan -/

theorem run_zero {b : Board} {sq d p : Int} : Run b sq d p 0 ↔ rd b sq = some p := by
  unfold Run
  simp

theorem run_succ {b : Board} {sq d p : Int} {n : Nat} :
    Run b sq d p (n + 1) ↔ rd b sq = some (opponent p) ∧ Run b (sq + d) d p n := by
  unfold Run
  constructor
  · rintro ⟨h1, h2⟩
    refine ⟨?_, ?_, ?_⟩
    · have := h1 0 (by omega)
      simpa using this
    · intro j hj
      have := h1 (j + 1) (by omega)
      rw [← this]; congr 1; push_cast; ring
    · rw [← h2]; congr 1; push_cast; ring
  · rintro ⟨h0, h1, h2⟩
    refine ⟨?_, ?_⟩
    · intro j hj
      cases j with
      | zero => simpa using h0
      | succ k =>
        have := h1 k (by omega)
        rw [← this]; congr 1; push_cast; ring
    · rw [← h2]; congr 1; push_cast; ring

/-- On a well-formed board `findbracketingpiece` returns: a nonzero result is
the end of a run, zero means there is no run. -/
theorem fbp_spec {b : Board} (hb : WellFormed b) {p : Int} (hp : IsSide p) {d : Int}
    (hd : d ∈ ALLDIRECTIONS) :
    ∀ (fuel : Nat) (sq : Int), 0 ≤ sq → sq < 100 →
      (0 < d → 100 - sq ≤ fuel) → (d < 0 → sq + 1 ≤ fuel) →
      ∃ r, findbracketingpiece fuel b sq d p = some r ∧
        ((r ≠ 0 ∧ ∃ n : Nat, r = sq + n * d ∧ Run b sq d p n) ∨
          (r = 0 ∧ ∀ n : Nat, ¬ Run b sq d p n)) := by
  have hdb := dir_bounds hd
  intro fuel
  induction fuel with
  | zero =>
    intro sq h0 h1 hpos hneg
    exfalso
    rcases lt_or_gt_of_ne hdb.2.2 with h | h
    · have := hneg h; omega
    · have := hpos h; omega
  | succ fuel ih =>
    intro sq h0 h1 hpos hneg
    obtain ⟨v, hv⟩ := wf_rd hb h0 h1
    unfold findbracketingpiece
    rw [hv]
    simp only
    by_cases hvo : v = opponent p
    · rw [if_pos hvo]
      subst hvo
      have hstep := wf_step hb (opponent_side hp) hv hd
      obtain ⟨r, hr, hcase⟩ := ih (sq + d) hstep.1 hstep.2
        (fun h => by have := hpos h; omega) (fun h => by have := hneg h; omega)
      refine ⟨r, hr, ?_⟩
      rcases hcase with ⟨hne, n, hrn, hrun⟩ | ⟨hz, hno⟩
      · left
        refine ⟨hne, n + 1, ?_, run_succ.mpr ⟨hv, hrun⟩⟩
        rw [hrn]; push_cast; ring
      · right
        refine ⟨hz, ?_⟩
        intro n hn
        cases n with
        | zero =>
          rw [run_zero, hv] at hn
          exact opponent_ne hp (Option.some.inj hn)
        | succ k => exact hno k (run_succ.mp hn).2
    · rw [if_neg hvo]
      by_cases hvp : v = p
      · rw [if_pos hvp]
        subst hvp
        refine ⟨sq, rfl, Or.inl ⟨?_, 0, by simp, run_zero.mpr hv⟩⟩
        have := wf_side_cell hb hp hv
        omega
      · rw [if_neg hvp]
        refine ⟨0, rfl, Or.inr ⟨rfl, ?_⟩⟩
        intro n hn
        cases n with
        | zero =>
          rw [run_zero, hv] at hn
          exact hvp (Option.some.inj hn)
        | succ k =>
          have := (run_succ.mp hn).1
          rw [hv] at this
          exact hvo (Option.some.inj this)

theorem bracket_iff {b : Board} {move d p : Int} :
    Bracket b move d p ↔
      rd b (move + d) = some (opponent p) ∧ ∃ n : Nat, Run b (move + d + d) d p n := by
  unfold Bracket Run
  constructor
  · rintro ⟨k, hk, hrun, hend⟩
    refine ⟨by simpa using hrun 1 (le_refl 1) hk, k - 1, ?_, ?_⟩
    · intro j hj
      have := hrun (j + 2) (by omega) (by omega)
      rw [← this]; congr 1; push_cast; ring
    · rw [← hend]; congr 1
      have : ((k - 1 : Nat) : Int) = (k : Int) - 1 := by omega
      rw [this]; push_cast; ring
  · rintro ⟨h1, n, hrun, hend⟩
    refine ⟨n + 1, by omega, ?_, ?_⟩
    · intro j hj1 hj2
      by_cases hj : j = 1
      · subst hj; simpa using h1
      · have := hrun (j - 2) (by omega)
        rw [← this]; congr 1
        have : ((j - 2 : Nat) : Int) = (j : Int) - 2 := by omega
        rw [this]; ring
    · rw [← hend]; congr 1; push_cast; ring

/-- On a well-formed board, from a playable cell, `wouldflip` returns: nonzero
exactly when the move brackets in the direction, and then the result is the
bracketing cell. -/
theorem wouldflip_spec {b : Board} (hb : WellFormed b) {p : Int} (hp : IsSide p) {d : Int}
    (hd : d ∈ ALLDIRECTIONS) {move : Int} (hm0 : 11 ≤ move) (hm1 : move ≤ 88) :
    ∃ r, wouldflip b move d p = some r ∧
      ((r ≠ 0 ∧ Bracket b move d p ∧
          ∃ n : Nat, r = move + d + d + n * d ∧ Run b (move + d + d) d p n) ∨
        (r = 0 ∧ ¬ Bracket b move d p)) := by
  have hdb := dir_bounds hd
  obtain ⟨v, hv⟩ := wf_rd hb (i := move + d) (by omega) (by omega)
  unfold wouldflip
  rw [hv]
  simp only
  by_cases hvo : v = opponent p
  · rw [if_pos hvo]
    subst hvo
    have hstep := wf_step hb (opponent_side hp) hv hd
    obtain ⟨r, hr, hcase⟩ := fbp_spec hb hp hd SCANFUEL (move + d + d) hstep.1 hstep.2
      (fun _ => by unfold SCANFUEL; omega) (fun _ => by unfold SCANFUEL; omega)
    refine ⟨r, hr, ?_⟩
    rcases hcase with ⟨hne, n, hrn, hrun⟩ | ⟨hz, hno⟩
    · exact Or.inl ⟨hne, bracket_iff.mpr ⟨hv, n, hrun⟩, n, hrn, hrun⟩
    · right
      refine ⟨hz, ?_⟩
      intro hbr
      obtain ⟨_, n, hn⟩ := bracket_iff.mp hbr
      exact hno n hn
  · rw [if_neg hvo]
    refine ⟨0, rfl, Or.inr ⟨rfl, ?_⟩⟩
    intro hbr
    have := (bracket_iff.mp hbr).1
    rw [hv] at this
    exact hvo (Option.some.inj this)

/-! ## Legality -/

theorem validp_cases (move : Int) :
    (validp move = 1 ∧ Playable move) ∨ (validp move = 0 ∧ ¬ Playable move) := by
  unfold validp Playable
  by_cases h : 11 ≤ move
  · have ht : Int.tmod move 10 = move % 10 := Int.tmod_eq_emod (by omega) (by omega)
    rw [ht]
    by_cases h2 : move ≥ 11 ∧ move ≤ 88 ∧ move % 10 ≥ 1 ∧ move % 10 ≤ 8
    · left; rw [if_pos h2]; exact ⟨rfl, by omega⟩
    · right; rw [if_neg h2]; exact ⟨rfl, by omega⟩
  · right
    rw [if_neg (by omega)]
    exact ⟨rfl, by omega⟩

theorem legalpLoop_spec {b : Board} (hb : WellFormed b) {p : Int} (hp : IsSide p)
    {move : Int} (hm0 : 11 ≤ move) (hm1 : move ≤ 88) :
    ∀ ds : List Int, (∀ d ∈ ds, d ∈ ALLDIRECTIONS) →
      ∃ r, legalpLoop b move p ds = some r ∧ (r = 0 ∨ r = 1) ∧
        (r ≠ 0 ↔ ∃ d ∈ ds, Bracket b move d p) := by
  intro ds
  induction ds with
  | nil =>
    intro _
    exact ⟨0, rfl, Or.inl rfl, by simp⟩
  | cons d rest ih =>
    intro hds
    obtain ⟨r, hr, hcase⟩ := wouldflip_spec hb hp (hds d (List.mem_cons_self d rest)) hm0 hm1
    unfold legalpLoop
    rw [hr]
    simp only
    rcases hcase with ⟨hne, hbr, _⟩ | ⟨hz, hno⟩
    · rw [if_pos hne]
      exact ⟨1, rfl, Or.inr rfl, by
        constructor
        · intro _; exact ⟨d, List.mem_cons_self d rest, hbr⟩
        · intro _; decide⟩
    · rw [if_neg (by simpa using hz)]
      obtain ⟨r2, hr2, h01, hiff⟩ := ih (fun x hx => hds x (List.mem_cons_of_mem d hx))
      refine ⟨r2, hr2, h01, ?_⟩
      rw [hiff]
      constructor
      · rintro ⟨x, hx, hbx⟩
        exact ⟨x, List.mem_cons_of_mem d hx, hbx⟩
      · rintro ⟨x, hx, hbx⟩
        rcases List.mem_cons.mp hx with rfl | hx
        · exact absurd hbx hno
        · exact ⟨x, hx, hbx⟩

/-- On a well-formed board `legalp` returns 0 or 1, and 1 exactly for an empty
playable cell that brackets in some direction. -/
theorem legalp_spec {b : Board} (hb : WellFormed b) {p : Int} (hp : IsSide p) (move : Int) :
    ∃ r, legalp b move p = some r ∧ (r = 0 ∨ r = 1) ∧
      (r ≠ 0 ↔ Playable move ∧ rd b move = some EMPTY ∧
        ∃ d ∈ ALLDIRECTIONS, Bracket b move d p) := by
  unfold legalp
  rcases validp_cases move with ⟨hv, hpl⟩ | ⟨hv, hpl⟩
  · rw [hv]
    simp only [one_ne_zero, if_false]
    obtain ⟨v, hrd⟩ := wf_rd hb (i := move) (by unfold Playable at hpl; omega)
      (by unfold Playable at hpl; omega)
    rw [hrd]
    simp only
    by_cases he : v = EMPTY
    · rw [if_pos he]
      subst he
      obtain ⟨r, hr, h01, hiff⟩ := legalpLoop_spec hb hp hpl.1 hpl.2.1 ALLDIRECTIONS
        (fun d hd => hd)
      refine ⟨r, hr, h01, ?_⟩
      rw [hiff]
      constructor
      · intro h; exact ⟨hpl, rfl, h⟩
      · intro h; exact h.2.2
    · rw [if_neg he]
      refine ⟨0, rfl, Or.inl rfl, ?_⟩
      constructor
      · intro h; exact absurd rfl h
      · rintro ⟨_, h, _⟩
        exact absurd (Option.some.inj h) he
  · rw [hv]
    simp only [if_true]
    refine ⟨0, rfl, Or.inl rfl, ?_⟩
    constructor
    · intro h; exact absurd rfl h
    · rintro ⟨h, _⟩
      exact absurd h hpl

/-! ## Applying a move -/

theorem painted_refl (p : Int) (b : Board) : Painted p b b :=
  ⟨rfl, fun _ => Or.inl rfl⟩

theorem painted_trans {p : Int} {b b1 b2 : Board} (h1 : Painted p b b1)
    (h2 : Painted p b1 b2) : Painted p b b2 := by
  refine ⟨h2.1.trans h1.1, ?_⟩
  intro i
  rcases h2.2 i with h | ⟨h, _⟩
  · rw [h]; exact h1.2 i
  · rcases h1.2 i with h3 | ⟨_, h3⟩
    · right; exact ⟨h, by rw [← h3]; assumption⟩
    · right; exact ⟨h, h3⟩

theorem painted_write {p c : Int} {b b1 : Board} (hw : wr b c p = some b1)
    (hc : rd b c = some (opponent p)) : Painted p b b1 := by
  refine ⟨wr_length hw, ?_⟩
  intro i
  by_cases hi : c = i
  · subst hi
    exact Or.inr ⟨rd_wr_same hw, hc⟩
  · exact Or.inl (rd_wr_other hw hi)

theorem wf_of_cells {b : Board} (hl : b.length = 100)
    (h : ∀ i : Int, 0 ≤ i → i < 100 →
      if isBorder i.toNat then rd b i = some OUTER
      else (rd b i = some EMPTY ∨ rd b i = some BLACK ∨ rd b i = some WHITE)) :
    WellFormed b := by
  refine ⟨hl, ?_⟩
  intro i hi
  have := h (i : Int) (by omega) (by omega)
  unfold rd at this
  simpa using this

theorem wf_cells {b : Board} (hb : WellFormed b) (i : Int) (h0 : 0 ≤ i) (h1 : i < 100) :
    if isBorder i.toNat then rd b i = some OUTER
    else (rd b i = some EMPTY ∨ rd b i = some BLACK ∨ rd b i = some WHITE) := by
  have := hb.2 i.toNat (by omega)
  unfold rd
  rw [if_pos h0]
  exact this

theorem painted_wf {p : Int} (hp : IsSide p) {b b1 : Board} (hb : WellFormed b)
    (h : Painted p b b1) : WellFormed b1 := by
  apply wf_of_cells (h.1.trans hb.1)
  intro i h0 h1
  have hc := wf_cells hb i h0 h1
  rcases h.2 i with he | ⟨he, ho⟩
  · rw [he]; exact hc
  · by_cases hbd : isBorder i.toNat
    · rw [if_pos hbd, ho] at hc
      exact absurd (Option.some.inj hc) (side_ne_outer (opponent_side hp))
    · rw [if_neg hbd, he]
      rcases hp with rfl | rfl
      · exact Or.inr (Or.inl rfl)
      · exact Or.inr (Or.inr rfl)

theorem flipLoop_spec {p d : Int} (hd0 : d ≠ 0) :
    ∀ (n fuel : Nat) (b : Board) (c : Int), n + 1 ≤ fuel →
      (∀ j : Nat, j ≤ n → rd b (c + j * d) = some (opponent p)) →
      ∃ b1, flipLoop fuel b c d p (c + (n + 1 : Nat) * d) = some b1 ∧ Painted p b b1 := by
  intro n
  induction n with
  | zero =>
    intro fuel b c hf hcells
    obtain ⟨f, rfl⟩ : ∃ f, fuel = f + 1 := ⟨fuel - 1, by omega⟩
    have hc : rd b c = some (opponent p) := by simpa using hcells 0 (le_refl 0)
    obtain ⟨h0, h1⟩ := rd_eq_some_bounds hc
    have hw := wr_of_bounds p h0 h1
    unfold flipLoop
    rw [hw]
    simp only
    rw [if_neg (by simp)]
    exact ⟨_, rfl, painted_write hw hc⟩
  | succ n ih =>
    intro fuel b c hf hcells
    obtain ⟨f, rfl⟩ : ∃ f, fuel = f + 1 := ⟨fuel - 1, by omega⟩
    have hc : rd b c = some (opponent p) := by simpa using hcells 0 (by omega)
    obtain ⟨h0, h1⟩ := rd_eq_some_bounds hc
    have hw := wr_of_bounds p h0 h1
    unfold flipLoop
    rw [hw]
    simp only
    have hne : c + d ≠ c + ((n + 1 + 1 : Nat) : Int) * d := by
      intro heq
      have h2 : ((n + 1 : Nat) : Int) * d = 0 := by
        push_cast at heq ⊢
        linarith
      rcases mul_eq_zero.mp h2 with h3 | h3
      · omega
      · exact hd0 h3
    rw [if_pos hne]
    have hcells1 : ∀ j : Nat, j ≤ n →
        rd (b.set c.toNat p) (c + d + j * d) = some (opponent p) := by
      intro j hj
      have hne2 : c ≠ c + d + j * d := by
        intro heq
        have h2 : ((j + 1 : Nat) : Int) * d = 0 := by
          push_cast at heq ⊢
          linarith
        rcases mul_eq_zero.mp h2 with h3 | h3
        · omega
        · exact hd0 h3
      rw [rd_wr_other hw hne2]
      have := hcells (j + 1) (by omega)
      rw [← this]; congr 1; push_cast; ring
    obtain ⟨b2, hb2, hp2⟩ := ih f (b.set c.toNat p) (c + d) (by omega) hcells1
    have hbr : c + ((n + 1 + 1 : Nat) : Int) * d = c + d + ((n + 1 : Nat) : Int) * d := by
      push_cast; ring
    rw [hbr]
    exact ⟨b2, hb2, painted_trans (painted_write hw hc) hp2⟩

theorem run_length_bound {b : Board} {move d p : Int} {n : Nat} (hd : d ∈ ALLDIRECTIONS)
    (hm0 : 11 ≤ move) (hm1 : move ≤ 88) (hl : b.length = 100)
    (hrun : Run b (move + d + d) d p n) : n + 1 ≤ SCANFUEL := by
  obtain ⟨h0, h1⟩ := rd_eq_some_bounds hrun.2
  rw [hl] at h1
  unfold SCANFUEL
  simp [ALLDIRECTIONS] at hd
  rcases hd with rfl | rfl | rfl | rfl | rfl | rfl | rfl | rfl <;> omega

theorem makeflips_spec {b : Board} (hb : WellFormed b) {p : Int} (hp : IsSide p) {d : Int}
    (hd : d ∈ ALLDIRECTIONS) {move : Int} (hm0 : 11 ≤ move) (hm1 : move ≤ 88) :
    ∃ b1, makeflips b move d p = some b1 ∧ Painted p b b1 := by
  obtain ⟨r, hr, hcase⟩ := wouldflip_spec hb hp hd hm0 hm1
  unfold makeflips
  rw [hr]
  simp only
  rcases hcase with ⟨hne, hbr, n, hrn, hrun⟩ | ⟨hz, _⟩
  · rw [if_pos hne]
    have hfirst := (bracket_iff.mp hbr).1
    have hcells : ∀ j : Nat, j ≤ n → rd b (move + d + j * d) = some (opponent p) := by
      intro j hj
      cases j with
      | zero => simpa using hfirst
      | succ k =>
        have := hrun.1 k (by omega)
        rw [← this]; congr 1; push_cast; ring
    obtain ⟨b1, hb1, hp1⟩ := flipLoop_spec (dir_bounds hd).2.2 n SCANFUEL b (move + d)
      (run_length_bound hd hm0 hm1 hb.1 hrun) hcells
    have hbr2 : r = move + d + ((n + 1 : Nat) : Int) * d := by
      rw [hrn]; push_cast; ring
    rw [hbr2]
    exact ⟨b1, hb1, hp1⟩
  · rw [if_neg (by simpa using hz)]
    exact ⟨b, rfl, painted_refl p b⟩

theorem makemoveLoop_spec {p : Int} (hp : IsSide p) {move : Int} (hm0 : 11 ≤ move)
    (hm1 : move ≤ 88) :
    ∀ (ds : List Int) (b : Board), (∀ d ∈ ds, d ∈ ALLDIRECTIONS) → WellFormed b →
      ∃ b1, makemoveLoop move p ds b = some b1 ∧ Painted p b b1 := by
  intro ds
  induction ds with
  | nil =>
    intro b _ _
    exact ⟨b, rfl, painted_refl p b⟩
  | cons d rest ih =>
    intro b hds hb
    obtain ⟨b1, hb1, hp1⟩ := makeflips_spec hb hp (hds d (List.mem_cons_self d rest)) hm0 hm1
    obtain ⟨b2, hb2, hp2⟩ := ih b1 (fun x hx => hds x (List.mem_cons_of_mem d hx))
      (painted_wf hp hb hp1)
    unfold makemoveLoop
    rw [hb1]
    exact ⟨b2, hb2, painted_trans hp1 hp2⟩

theorem playable_not_border {move : Int} (hm : Playable move) : ¬ isBorder move.toNat := by
  unfold Playable at hm
  unfold isBorder
  omega

/-- On a well-formed board `makemove` at a playable cell returns: the cell holds
the mover, every other cell is unchanged or flipped from the opponent to the
mover, and the board stays well-formed. -/
theorem makemove_spec {b : Board} (hb : WellFormed b) {p : Int} (hp : IsSide p)
    {move : Int} (hm : Playable move) :
    ∃ b1, makemove b move p = some b1 ∧ WellFormed b1 ∧ rd b1 move = some p ∧
      ∀ i, i ≠ move →
        rd b1 i = rd b i ∨ (rd b1 i = some p ∧ rd b i = some (opponent p)) := by
  have h0 : 0 ≤ move := by unfold Playable at hm; omega
  have h1 : move.toNat < b.length := by rw [hb.1]; unfold Playable at hm; omega
  have hw := wr_of_bounds p h0 h1
  have hwf : WellFormed (b.set move.toNat p) := by
    apply wf_of_cells (by rw [List.length_set]; exact hb.1)
    intro i hi0 hi1
    by_cases hi : move = i
    · subst hi
      rw [if_neg (playable_not_border hm), rd_wr_same hw]
      rcases hp with rfl | rfl
      · exact Or.inr (Or.inl rfl)
      · exact Or.inr (Or.inr rfl)
    · rw [rd_wr_other hw hi]
      exact wf_cells hb i hi0 hi1
  obtain ⟨b1, hb1, hp1⟩ := makemoveLoop_spec hp hm.1 hm.2.1 ALLDIRECTIONS (b.set move.toNat p)
    (fun d hd => hd) hwf
  unfold makemove
  rw [hw]
  refine ⟨b1, hb1, painted_wf hp hwf hp1, ?_, ?_⟩
  · rcases hp1.2 move with h | ⟨h, _⟩
    · rw [h]; exact rd_wr_same hw
    · exact h
  · intro i hi
    rcases hp1.2 i with h | ⟨h, h2⟩
    · left; rw [h]; exact rd_wr_other hw (Ne.symm hi)
    · right
      rw [rd_wr_other hw (Ne.symm hi)] at h2
      exact ⟨h, h2⟩

/-! ## Counting -/

theorem countLoop_mono (q : Int) (b b1 : Board) (δ : Int) :
    ∀ (cells : List Int) (cnt cnt1 : Int),
      (∀ i ∈ cells, ∃ v v1, rd b i = some v ∧ rd b1 i = some v1 ∧ (v = q → v1 = q)) →
      cnt + δ ≤ cnt1 →
      ∃ x x1, countLoop q b cells cnt = some x ∧ countLoop q b1 cells cnt1 = some x1 ∧
        x + δ ≤ x1 := by
  intro cells
  induction cells with
  | nil =>
    intro cnt cnt1 _ h
    exact ⟨cnt, cnt1, rfl, rfl, h⟩
  | cons i rest ih =>
    intro cnt cnt1 hc h
    obtain ⟨v, v1, hv, hv1, himp⟩ := hc i (List.mem_cons_self i rest)
    unfold countLoop
    rw [hv, hv1]
    simp only
    apply ih _ _ (fun x hx => hc x (List.mem_cons_of_mem i hx))
    by_cases hq : v = q
    · rw [if_pos hq, if_pos (himp hq)]; omega
    · rw [if_neg hq]
      split <;> omega

theorem countLoop_strict (q : Int) (b b1 : Board) (m : Int) {v : Int}
    (hm : rd b m = some v) (hvq : v ≠ q) (hm1 : rd b1 m = some q) :
    ∀ (cells : List Int) (cnt cnt1 : Int), m ∈ cells →
      (∀ i ∈ cells, ∃ v v1, rd b i = some v ∧ rd b1 i = some v1 ∧ (v = q → v1 = q)) →
      cnt ≤ cnt1 →
      ∃ x x1, countLoop q b cells cnt = some x ∧ countLoop q b1 cells cnt1 = some x1 ∧
        x + 1 ≤ x1 := by
  intro cells
  induction cells with
  | nil =>
    intro cnt cnt1 hmem
    exact absurd hmem (List.not_mem_nil m)
  | cons i rest ih =>
    intro cnt cnt1 hmem hc h
    by_cases hi : i = m
    · subst hi
      unfold countLoop
      rw [hm, hm1]
      simp only [if_neg hvq, if_true]
      exact countLoop_mono q b b1 1 rest cnt (cnt1 + 1)
        (fun x hx => hc x (List.mem_cons_of_mem i hx)) (by omega)
    · obtain ⟨w, w1, hw, hw1, himp⟩ := hc i (List.mem_cons_self i rest)
      unfold countLoop
      rw [hw, hw1]
      simp only
      have hmem2 : m ∈ rest := by
        rcases List.mem_cons.mp hmem with h2 | h2
        · exact absurd h2.symm hi
        · exact h2
      apply ih _ _ hmem2 (fun x hx => hc x (List.mem_cons_of_mem i hx))
      by_cases hq : w = q
      · rw [if_pos hq, if_pos (himp hq)]; omega
      · rw [if_neg hq]
        split <;> omega

theorem mem_countCells {i : Int} (h0 : 1 ≤ i) (h1 : i ≤ 88) :
    i ∈ (List.range' 1 88).map Int.ofNat := by
  rw [List.mem_map]
  refine ⟨i.toNat, ?_, ?_⟩
  · rw [List.mem_range']
    exact ⟨i.toNat - 1, by omega, by omega⟩
  · simp only [Int.ofNat_eq_coe]; omega

theorem countCells_bounds {i : Int} (h : i ∈ (List.range' 1 88).map Int.ofNat) :
    0 ≤ i ∧ i < 100 := by
  rw [List.mem_map] at h
  obtain ⟨k, hk, rfl⟩ := h
  rw [List.mem_range'] at hk
  obtain ⟨j, hj, rfl⟩ := hk
  simp only [Int.ofNat_eq_coe]; omega

/-! ## The move generator -/

theorem legalmovesLoop_eq (b : Board) (p : Int) :
    ∀ (cells : List Int) (i : Int) (ms : List Int),
      legalmovesLoop b p cells i ms =
        match legalCells b p cells with
        | none => none
        | some found => storeMoves found i ms := by
  intro cells
  induction cells with
  | nil => intro i ms; rfl
  | cons move rest ih =>
    intro i ms
    unfold legalmovesLoop legalCells
    cases hl : legalp b move p with
    | none => rfl
    | some r =>
      simp only
      by_cases hr : r ≠ 0
      · rw [if_pos hr]
        cases hc : legalCells b p rest with
        | none =>
          simp only
          cases hw : wr ms (i + 1) move with
          | none => rfl
          | some m1 => simp only; rw [ih, hc]
        | some found =>
          simp only [if_pos hr]
          unfold storeMoves
          cases hw : wr ms (i + 1) move with
          | none => rfl
          | some m1 => simp only; rw [ih, hc]
      · rw [if_neg hr, ih]
        cases hc : legalCells b p rest with
        | none => rfl
        | some found => simp only [if_neg hr]

theorem scanCells_playable :
    scanCells.countP (fun c => decide (Playable c)) = 64 := by decide

theorem legalmovesLoop_spec {b : Board} (hb : WellFormed b) {p : Int} (hp : IsSide p) :
    ∀ (cells : List Int) (i : Int) (ms : List Int), 0 ≤ i →
      i + (cells.countP (fun c => decide (Playable c)) : Nat) ≤ 64 → ms.length = 65 →
      (∀ j m, 1 ≤ j → j ≤ i → rd ms j = some m → legalp b m p = some 1) →
      ∃ i1 ms1, legalmovesLoop b p cells i ms = some (i1, ms1) ∧ ms1.length = 65 ∧
        0 ≤ i1 ∧ i1 ≤ 64 ∧
        (∀ j m, 1 ≤ j → j ≤ i1 → rd ms1 j = some m → legalp b m p = some 1) := by
  intro cells
  induction cells with
  | nil =>
    intro i ms h0 h64 hl hinv
    exact ⟨i, ms, rfl, hl, h0, by simpa using h64, hinv⟩
  | cons move rest ih =>
    intro i ms h0 h64 hl hinv
    obtain ⟨r, hr, h01, hiff⟩ := legalp_spec hb hp move
    unfold legalmovesLoop
    rw [hr]
    simp only
    rcases h01 with rfl | rfl
    · simp only [ne_eq, not_true_eq_false, if_false]
      apply ih i ms h0 _ hl hinv
      have := List.countP_le_length (fun c => decide (Playable c)) (l := rest)
      have h2 : rest.countP (fun c => decide (Playable c)) ≤
          (move :: rest).countP (fun c => decide (Playable c)) := by
        rw [List.countP_cons]; omega
      omega
    · have hpl : Playable move := (hiff.mp (by decide)).1
      have hcnt : (move :: rest).countP (fun c => decide (Playable c)) =
          rest.countP (fun c => decide (Playable c)) + 1 := by
        rw [List.countP_cons_of_pos]; simpa using hpl
      rw [hcnt] at h64
      have hw := wr_of_bounds (a := ms) (i := i + 1) move (by omega) (by rw [hl]; omega)
      simp only [ne_eq, one_ne_zero, not_false_eq_true, if_true]
      rw [hw]
      simp only
      apply ih (i + 1) _ (by omega) (by push_cast at h64 ⊢; omega)
        (by rw [List.length_set]; exact hl)
      intro j m hj1 hj2 hjm
      by_cases hj : i + 1 = j
      · subst hj
        rw [rd_wr_same hw] at hjm
        rw [← Option.some.inj hjm]; exact hr
      · rw [rd_wr_other hw hj] at hjm
        exact hinv j m hj1 (by omega) hjm

/-- On a well-formed board `legalmoves` returns the array with the count in cell
0 and, in cells `1 .. count`, cells that `legalp` accepts. -/
theorem legalmoves_spec {b : Board} (hb : WellFormed b) {p : Int} (hp : IsSide p)
    {ms : List Int} (hl : ms.length = 65) :
    ∃ ms1 n, legalmoves b ms p = some ms1 ∧ ms1.length = 65 ∧ rd ms1 0 = some n ∧
      0 ≤ n ∧ n ≤ 64 ∧
      (∀ j m, 1 ≤ j → j ≤ n → rd ms1 j = some m → legalp b m p = some 1) := by
  have hw0 := wr_of_bounds (a := ms) (i := 0) 0 (le_refl 0) (by rw [hl]; decide)
  obtain ⟨i1, ms1, hloop, hl1, h0, h64, hinv⟩ :=
    legalmovesLoop_spec hb hp scanCells 0 (ms.set (0 : Int).toNat 0) (le_refl 0)
      (by rw [scanCells_playable]; decide) (by rw [List.length_set]; exact hl)
      (fun j m hj1 hj2 _ => by omega)
  have hw1 := wr_of_bounds (a := ms1) (i := 0) i1 (le_refl 0) (by rw [hl1]; decide)
  unfold legalmoves
  rw [hw0]
  simp only
  rw [hloop]
  simp only
  refine ⟨_, i1, hw1, by rw [List.length_set]; exact hl1, rd_wr_same hw1, h0, h64, ?_⟩
  intro j m hj1 hj2 hjm
  rw [rd_wr_other hw1 (by omega)] at hjm
  exact hinv j m hj1 hj2 hjm

/-! ## Claims -/

/-- C1 (legality round trip): on a well-formed board, for a side `p` and a `moves`
array of 65 cells, `legalmoves` returns, and for every move `m` it lists (cells
`1 .. moves[0]` of the result) `makemove(m, p)` returns a board on which `count`
of `p` is strictly greater than before and `count` of the opponent is not
greater than before. -/
theorem makemove_count_round_trip (b : Board) (moves : List Int) (p : Int)
    (hb : WellFormed b) (hp : IsSide p) (hl : moves.length = 65) :
    ∃ ms, legalmoves b moves p = some ms ∧
      ∀ n j m : Int, rd ms 0 = some n → 1 ≤ j → j ≤ n → rd ms j = some m →
        ∃ b1 c0 c1 o0 o1, makemove b m p = some b1 ∧
          count p b = some c0 ∧ count p b1 = some c1 ∧ c0 < c1 ∧
          count (opponent p) b = some o0 ∧ count (opponent p) b1 = some o1 ∧ o1 ≤ o0 := by
  obtain ⟨ms, n0, hms, _, hn0, _, _, hinv⟩ := legalmoves_spec hb hp hl
  refine ⟨ms, hms, ?_⟩
  intro n j m hn hj1 hj2 hjm
  rw [hn0] at hn
  have hnn : n0 = n := Option.some.inj hn
  subst hnn
  have hlegal := hinv j m hj1 hj2 hjm
  obtain ⟨r, hr, _, hiff⟩ := legalp_spec hb hp m
  rw [hlegal] at hr
  have hr1 : r = 1 := (Option.some.inj hr).symm
  subst hr1
  obtain ⟨hpl, hempty, _⟩ := hiff.mp (by decide)
  obtain ⟨b1, hb1, hwf1, hcell, hrest⟩ := makemove_spec hb hp hpl
  have hcells : ∀ i ∈ (List.range' 1 88).map Int.ofNat, ∃ v v1,
      rd b i = some v ∧ rd b1 i = some v1 ∧ (v = p → v1 = p) := by
    intro i hi
    obtain ⟨h0, h1⟩ := countCells_bounds hi
    obtain ⟨v, hv⟩ := wf_rd hb h0 h1
    obtain ⟨v1, hv1⟩ := wf_rd hwf1 h0 h1
    refine ⟨v, v1, hv, hv1, ?_⟩
    intro hvp
    by_cases him : i = m
    · subst him
      rw [hcell] at hv1
      exact (Option.some.inj hv1).symm
    · rcases hrest i him with h | ⟨h, _⟩
      · rw [h, hv] at hv1
        rw [← Option.some.inj hv1]; exact hvp
      · rw [h] at hv1
        exact (Option.some.inj hv1).symm
  have hcells2 : ∀ i ∈ (List.range' 1 88).map Int.ofNat, ∃ v v1,
      rd b1 i = some v ∧ rd b i = some v1 ∧ (v = opponent p → v1 = opponent p) := by
    intro i hi
    obtain ⟨h0, h1⟩ := countCells_bounds hi
    obtain ⟨v, hv⟩ := wf_rd hb h0 h1
    obtain ⟨v1, hv1⟩ := wf_rd hwf1 h0 h1
    refine ⟨v1, v, hv1, hv, ?_⟩
    intro hvp
    by_cases him : i = m
    · subst him
      rw [hcell] at hv1
      exact absurd ((Option.some.inj hv1).trans hvp) (Ne.symm (opponent_ne hp))
    · rcases hrest i him with h | ⟨h, _⟩
      · rw [h, hv] at hv1
        rw [Option.some.inj hv1]; exact hvp
      · rw [h] at hv1
        exact absurd ((Option.some.inj hv1).trans hvp) (Ne.symm (opponent_ne hp))
  obtain ⟨c0, c1, hc0, hc1, hlt⟩ := countLoop_strict p b b1 m hempty
    (Ne.symm (side_ne_empty hp)) hcell _ 0 0
    (mem_countCells (by unfold Playable at hpl; omega) (by unfold Playable at hpl; omega))
    hcells (le_refl 0)
  obtain ⟨o1, o0, ho1, ho0, hle⟩ := countLoop_mono (opponent p) b1 b 0 _ 0 0 hcells2
    (by omega)
  exact ⟨b1, c0, c1, o0, o1, hb1, hc0, hc1, by omega, ho0, ho1, by omega⟩

set_option maxRecDepth 100000 in
/-- Witness of C1 on the starting position, for `BLACK`. -/
theorem makemove_count_round_trip_witness :
    WellFormed initialise_board ∧ IsSide BLACK ∧ (List.replicate 65 (0 : Int)).length = 65 ∧
    ∃ ms, legalmoves initialise_board (List.replicate 65 0) BLACK = some ms ∧
      ∀ n j m : Int, rd ms 0 = some n → 1 ≤ j → j ≤ n → rd ms j = some m →
        ∃ b1 c0 c1 o0 o1, makemove initialise_board m BLACK = some b1 ∧
          count BLACK initialise_board = some c0 ∧ count BLACK b1 = some c1 ∧ c0 < c1 ∧
          count (opponent BLACK) initialise_board = some o0 ∧
          count (opponent BLACK) b1 = some o1 ∧ o1 ≤ o0 :=
  ⟨by decide, by decide, by decide,
    makemove_count_round_trip initialise_board (List.replicate 65 0) BLACK
      (by decide) (by decide) (by decide)⟩

/-- C10 (legality characterisation): on a well-formed board, for every integer
`move` and side `p`, `legalp(move, p)` returns, and its result is nonzero exactly
when `move` has row and column in `1 .. 8`, the cell is `EMPTY`, and in one of the
8 directions `d` some `k ≥ 1` cells `move+d .. move+k*d` hold the opponent and
cell `move+(k+1)*d` holds `p`. -/
theorem legalp_characterisation (b : Board) (move p : Int)
    (hb : WellFormed b) (hp : IsSide p) :
    ∃ r, legalp b move p = some r ∧
      (r ≠ 0 ↔
        (1 ≤ move / 10 ∧ move / 10 ≤ 8 ∧ 1 ≤ move % 10 ∧ move % 10 ≤ 8) ∧
        rd b move = some EMPTY ∧
        ∃ d ∈ ALLDIRECTIONS, ∃ k : Nat, 1 ≤ k ∧
          (∀ j : Nat, 1 ≤ j → j ≤ k → rd b (move + j * d) = some (opponent p)) ∧
          rd b (move + (k + 1 : Nat) * d) = some p) := by
  obtain ⟨r, hr, _, hiff⟩ := legalp_spec hb hp move
  refine ⟨r, hr, ?_⟩
  rw [hiff]
  unfold Playable Bracket
  constructor
  · rintro ⟨h1, h2, h3⟩
    exact ⟨by omega, h2, h3⟩
  · rintro ⟨h1, h2, h3⟩
    exact ⟨by omega, h2, h3⟩

set_option maxRecDepth 100000 in
/-- Witness of C10 on the starting position: cell 34 for `BLACK`. -/
theorem legalp_characterisation_witness :
    WellFormed initialise_board ∧ IsSide BLACK ∧
    ∃ r, legalp initialise_board 34 BLACK = some r ∧
      (r ≠ 0 ↔
        (1 ≤ (34 : Int) / 10 ∧ (34 : Int) / 10 ≤ 8 ∧ 1 ≤ (34 : Int) % 10 ∧
          (34 : Int) % 10 ≤ 8) ∧
        rd initialise_board 34 = some EMPTY ∧
        ∃ d ∈ ALLDIRECTIONS, ∃ k : Nat, 1 ≤ k ∧
          (∀ j : Nat, 1 ≤ j → j ≤ k →
            rd initialise_board (34 + j * d) = some (opponent BLACK)) ∧
          rd initialise_board (34 + (k + 1 : Nat) * d) = some BLACK) :=
  ⟨by decide, by decide, legalp_characterisation initialise_board 34 BLACK
    (by decide) (by decide)⟩

set_option maxRecDepth 100000 in
theorem legalCells_start :
    legalCells initialise_board BLACK scanCells = some [34, 43, 56, 65] := by decide

theorem legalmoves_start {moves : List Int} (hl : moves.length = 65) :
    legalmoves initialise_board moves BLACK =
      some (((((moves.set 0 0).set 1 34).set 2 43).set 3 56).set 4 65 |>.set 0 4) := by
  unfold legalmoves
  rw [wr_of_bounds 0 (le_refl 0) (by rw [hl]; decide)]
  simp only
  rw [legalmovesLoop_eq, legalCells_start]
  simp [storeMoves, wr, hl]

set_option maxRecDepth 100000 in
/-- C7 (starting position): `initialise_board` builds the board with `WHITE` on 44
and 55, `BLACK` on 45 and 54, every other playable cell `EMPTY` and every border
cell `OUTER`; on it `legalmoves(BLACK)` returns, reports exactly 4 moves
(34, 43, 56, 65), and each is diagonally adjacent to a center cell. -/
theorem starting_position (moves : List Int) (hl : moves.length = 65) :
    (∀ i, i < 100 → initialise_board[i]? = some
      (if isBorder i then OUTER else if i = 44 ∨ i = 55 then WHITE
        else if i = 45 ∨ i = 54 then BLACK else EMPTY)) ∧
    ∃ ms, legalmoves initialise_board moves BLACK = some ms ∧
      rd ms 0 = some 4 ∧ rd ms 1 = some 34 ∧ rd ms 2 = some 43 ∧ rd ms 3 = some 56 ∧
      rd ms 4 = some 65 ∧
      ∀ j : Int, 1 ≤ j → j ≤ 4 → ∃ m c d, rd ms j = some m ∧
        c ∈ [(44 : Int), 45, 54, 55] ∧ d ∈ [(-11 : Int), -9, 9, 11] ∧ m = c + d := by
  refine ⟨by decide, _, legalmoves_start hl, ?_⟩
  have h0 : rd (((((moves.set 0 0).set 1 34).set 2 43).set 3 56).set 4 65 |>.set 0 4) 0
      = some 4 := by
    simp [rd, List.getElem?_set, hl]
  have h1 : rd (((((moves.set 0 0).set 1 34).set 2 43).set 3 56).set 4 65 |>.set 0 4) 1
      = some 34 := by
    simp [rd, List.getElem?_set, hl]
  have h2 : rd (((((moves.set 0 0).set 1 34).set 2 43).set 3 56).set 4 65 |>.set 0 4) 2
      = some 43 := by
    simp [rd, List.getElem?_set, hl]
  have h3 : rd (((((moves.set 0 0).set 1 34).set 2 43).set 3 56).set 4 65 |>.set 0 4) 3
      = some 56 := by
    simp [rd, List.getElem?_set, hl]
  have h4 : rd (((((moves.set 0 0).set 1 34).set 2 43).set 3 56).set 4 65 |>.set 0 4) 4
      = some 65 := by
    simp [rd, List.getElem?_set, hl]
  refine ⟨h0, h1, h2, h3, h4, ?_⟩
  intro j hj1 hj4
  have hj : j = 1 ∨ j = 2 ∨ j = 3 ∨ j = 4 := by omega
  rcases hj with rfl | rfl | rfl | rfl
  · exact ⟨34, 45, -11, h1, by decide, by decide, by decide⟩
  · exact ⟨43, 54, -11, h2, by decide, by decide, by decide⟩
  · exact ⟨56, 45, 11, h3, by decide, by decide, by decide⟩
  · exact ⟨65, 54, 11, h4, by decide, by decide, by decide⟩

/-- Witness of C7 for a `moves` array of 65 zero cells. -/
theorem starting_position_witness :
    (List.replicate 65 (0 : Int)).length = 65 ∧
    ((∀ i, i < 100 → initialise_board[i]? = some
      (if isBorder i then OUTER else if i = 44 ∨ i = 55 then WHITE
        else if i = 45 ∨ i = 54 then BLACK else EMPTY)) ∧
    ∃ ms, legalmoves initialise_board (List.replicate 65 0) BLACK = some ms ∧
      rd ms 0 = some 4 ∧ rd ms 1 = some 34 ∧ rd ms 2 = some 43 ∧ rd ms 3 = some 56 ∧
      rd ms 4 = some 65 ∧
      ∀ j : Int, 1 ≤ j → j ≤ 4 → ∃ m c d, rd ms j = some m ∧
        c ∈ [(44 : Int), 45, 54, 55] ∧ d ∈ [(-11 : Int), -9, 9, 11] ∧ m = c + d) :=
  ⟨by decide, starting_position (List.replicate 65 0) (by decide)⟩

/-! ## The evaluator -/

theorem evaluateLoop_swap (b : Board) :
    ∀ (cells : List Int) (x y : Int),
      evaluateLoop b WHITE cells y x = (evaluateLoop b BLACK cells x y).map Prod.swap := by
  intro cells
  induction cells with
  | nil => intro x y; rfl
  | cons move rest ih =>
    intro x y
    unfold evaluateLoop
    have hB : opponent BLACK = WHITE := by decide
    have hW : opponent WHITE = BLACK := by decide
    rw [hB, hW]
    cases h1 : legalp b move BLACK with
    | none =>
      cases h2 : legalp b move WHITE with
      | none => rfl
      | some r2 => rfl
    | some r1 =>
      cases h2 : legalp b move WHITE with
      | none => rfl
      | some r2 => simp only; rw [ih]

theorem evaluateLoop_total {b : Board} (hb : WellFormed b) {p : Int} (hp : IsSide p) :
    ∀ (cells : List Int) (x y : Int), ∃ r, evaluateLoop b p cells x y = some r := by
  intro cells
  induction cells with
  | nil => intro x y; exact ⟨(x, y), rfl⟩
  | cons move rest ih =>
    intro x y
    obtain ⟨r1, h1, _⟩ := legalp_spec hb hp move
    obtain ⟨r2, h2, _⟩ := legalp_spec hb (opponent_side hp) move
    unfold evaluateLoop
    rw [h1, h2]
    exact ih _ _

theorem evaluate_board_total {b : Board} (hb : WellFormed b) {p : Int} (hp : IsSide p)
    (board : Board) : ∃ v, evaluate_board b board p = some v := by
  obtain ⟨r, hr⟩ := evaluateLoop_total hb hp scanCells 0 0
  unfold evaluate_board
  rw [hr]
  exact ⟨_, rfl⟩

theorem evaluate_board_neg (gboard board : Board) :
    evaluate_board gboard board BLACK =
      (evaluate_board gboard board WHITE).map fun v => -v := by
  unfold evaluate_board
  rw [evaluateLoop_swap]
  cases evaluateLoop gboard BLACK scanCells 0 0 with
  | none => rfl
  | some r =>
    obtain ⟨x, y⟩ := r
    simp [Prod.swap]

/-- C2 (evaluator antisymmetry): for every global board and board argument,
`evaluate_board(board, BLACK)` is the negation of `evaluate_board(board, WHITE)`
(both fail together on a board whose scans leave the array); on a well-formed
board both return. -/
theorem evaluate_board_antisymmetric (gboard board : Board) :
    evaluate_board gboard board BLACK =
        (evaluate_board gboard board WHITE).map (fun v => -v) ∧
      (WellFormed gboard →
        ∃ v, evaluate_board gboard board WHITE = some v ∧
          evaluate_board gboard board BLACK = some (-v)) := by
  refine ⟨evaluate_board_neg gboard board, ?_⟩
  intro hb
  obtain ⟨v, hv⟩ := evaluate_board_total hb (Or.inr rfl : IsSide WHITE) board
  refine ⟨v, hv, ?_⟩
  rw [evaluate_board_neg, hv]
  rfl

/-! ## Work partitioning -/

theorem baseLoop_spec {size n : Int} (hs : 2 ≤ size) :
    ∀ (m a : Nat) (counts : List Int), a + m ≤ counts.length →
      ∃ c1, baseLoop size n ((List.range' a m).map Int.ofNat) counts = some c1 ∧
        c1.length = counts.length ∧
        ∀ i : Int, rd c1 i =
          if (a : Int) ≤ i ∧ i < a + m then some (Int.tdiv n (size - 1)) else rd counts i := by
  intro m
  induction m with
  | zero =>
    intro a counts _
    refine ⟨counts, rfl, rfl, ?_⟩
    intro i
    rw [if_neg (by push_cast; omega)]
  | succ m ih =>
    intro a counts hlen
    rw [List.range'_succ, List.map_cons]
    unfold baseLoop
    rw [if_neg (by omega)]
    have hw := wr_of_bounds (a := counts) (i := Int.ofNat a) (Int.tdiv n (size - 1))
      (by simp) (by simp; omega)
    rw [hw]
    simp only
    obtain ⟨c1, hc1, hl1, hrd⟩ := ih (a + 1)
      (counts.set (Int.ofNat a).toNat (Int.tdiv n (size - 1)))
      (by rw [List.length_set]; omega)
    refine ⟨c1, hc1, by rw [hl1, List.length_set], ?_⟩
    intro i
    rw [hrd i]
    by_cases hi : (a : Int) = i
    · subst hi
      rw [if_neg (by push_cast; omega), if_pos (by push_cast; omega)]
      exact rd_wr_same hw
    · have hi2 : Int.ofNat a ≠ i := by simpa using hi
      rw [rd_wr_other hw hi2]
      by_cases h2 : ((a + 1 : Nat) : Int) ≤ i ∧ i < ((a + 1 : Nat) : Int) + m
      · rw [if_pos h2, if_pos (by push_cast at h2 ⊢; omega)]
      · rw [if_neg h2, if_neg (by push_cast at h2 ⊢; omega)]

theorem remainderLoop_spec {size : Int} (hs : 2 ≤ size) :
    ∀ (fuel : Nat) (counts : List Int) (curr rem : Int), rem + 1 = fuel →
      (0 ≤ rem → 0 ≤ curr ∧ curr + rem < size - 1) → size.toNat ≤ counts.length →
      ∃ c1, remainderLoop size fuel counts curr rem = some c1 ∧
        c1.length = counts.length ∧
        ∀ i : Int, rd c1 i =
          if curr ≤ i ∧ i ≤ curr + rem then (rd counts i).map (fun v => v + 1)
          else rd counts i := by
  intro fuel
  induction fuel with
  | zero =>
    intro counts curr rem hf _ _
    unfold remainderLoop
    rw [if_neg (by omega)]
    refine ⟨counts, rfl, rfl, ?_⟩
    intro i
    rw [if_neg (by omega)]
  | succ fuel ih =>
    intro counts curr rem hf hcurr hlen
    have hrem : 0 ≤ rem := by omega
    obtain ⟨hc0, hc1⟩ := hcurr hrem
    unfold remainderLoop
    rw [if_pos hrem]
    obtain ⟨v, hv⟩ := rd_of_bounds (a := counts) hc0 (by omega)
    have hw := wr_of_bounds (a := counts) (i := curr) (v + 1) hc0 (by omega)
    rw [hv]
    simp only
    rw [hw]
    simp only
    obtain ⟨c1, hc1eq, hl1, hrd⟩ := ih (counts.set curr.toNat (v + 1))
      (Int.tmod (curr + 1) (size - 1)) (rem - 1) (by push_cast at hf; omega)
      (by
        intro h
        rw [Int.tmod_eq_emod (by omega) (by omega), Int.emod_eq_of_lt (by omega) (by omega)]
        omega)
      (by rw [List.length_set]; exact hlen)
    refine ⟨c1, hc1eq, by rw [hl1, List.length_set], ?_⟩
    intro i
    rw [hrd i]
    by_cases hr0 : rem = 0
    · subst hr0
      rw [if_neg (by omega)]
      by_cases hi : curr = i
      · subst hi
        rw [if_pos (by omega), rd_wr_same hw, hv]; rfl
      · rw [if_neg (by omega), rd_wr_other hw hi]
    · have hnext : Int.tmod (curr + 1) (size - 1) = curr + 1 := by
        rw [Int.tmod_eq_emod (by omega) (by omega), Int.emod_eq_of_lt (by omega) (by omega)]
      rw [hnext]
      by_cases hi : curr = i
      · subst hi
        rw [if_neg (by omega), if_pos (by omega), rd_wr_same hw, hv]; rfl
      · rw [rd_wr_other hw hi]
        by_cases h2 : curr + 1 ≤ i ∧ i ≤ curr + 1 + (rem - 1)
        · rw [if_pos h2, if_pos (by omega)]
        · rw [if_neg h2, if_neg (by omega)]

theorem displacementLoop_spec {c : List Int} {q r w : Int}
    (hc : ∀ i : Int, 1 ≤ i → i ≤ w → rd c i = some (q + if i ≤ r then 1 else 0)) :
    ∀ (m a : Nat) (displs : List Int) (sum : Int), 1 ≤ a → (a : Int) + m ≤ w + 1 →
      a + m ≤ displs.length → sum = ((a : Int) - 1) * q + min ((a : Int) - 1) r →
      ∃ d1, displacementLoop c ((List.range' a m).map Int.ofNat) displs sum = some d1 ∧
        d1.length = displs.length ∧
        ∀ i : Int, rd d1 i =
          if (a : Int) ≤ i ∧ i < a + m then some ((i - 1) * q + min (i - 1) r)
          else rd displs i := by
  intro m
  induction m with
  | zero =>
    intro a displs sum _ _ _ _
    refine ⟨displs, rfl, rfl, ?_⟩
    intro i
    rw [if_neg (by push_cast; omega)]
  | succ m ih =>
    intro a displs sum ha hw hlen hsum
    rw [List.range'_succ, List.map_cons]
    unfold displacementLoop
    have hwr := wr_of_bounds (a := displs) (i := Int.ofNat a) sum (by simp) (by simp; omega)
    rw [hwr]
    simp only
    have hca := hc (Int.ofNat a) (by simp; omega) (by simp; push_cast at hw; omega)
    rw [hca]
    simp only
    obtain ⟨d1, hd1, hl1, hrd⟩ := ih (a + 1) (displs.set (Int.ofNat a).toNat sum)
      (sum + (q + if Int.ofNat a ≤ r then 1 else 0)) (by omega) (by push_cast at hw ⊢; omega)
      (by rw [List.length_set]; omega)
      (by
        have e : (((a + 1 : Nat) : Int) - 1) * q = ((a : Int) - 1) * q + q := by
          push_cast; ring
        rw [e, hsum]
        simp only [Int.ofNat_eq_coe]
        push_cast
        split <;> omega)
    refine ⟨d1, hd1, by rw [hl1, List.length_set], ?_⟩
    intro i
    rw [hrd i]
    by_cases hi : (a : Int) = i
    · subst hi
      rw [if_neg (by push_cast; omega), if_pos (by push_cast; omega)]
      have := rd_wr_same hwr
      rw [← hsum]
      simpa using this
    · have hi2 : Int.ofNat a ≠ i := by simpa using hi
      rw [rd_wr_other hwr hi2]
      by_cases h2 : ((a + 1 : Nat) : Int) ≤ i ∧ i < ((a + 1 : Nat) : Int) + m
      · rw [if_pos h2, if_pos (by push_cast at h2 ⊢; omega)]
      · rw [if_neg h2, if_neg (by push_cast at h2 ⊢; omega)]

/-- For at least one worker and `n ≥ 0` moves the partition returns, with
closed forms for the count and the displacement of every worker. -/
theorem partition_spec {size n : Int} (hs : 2 ≤ size) (hn : 0 ≤ n) {counts displs : List Int}
    (hlc : size.toNat ≤ counts.length) (hld : size.toNat ≤ displs.length) :
    ∃ c d, partition size n counts displs = some (c, d) ∧
      ∀ i : Int, 1 ≤ i → i < size →
        rd c i = some (n / (size - 1) + if i ≤ n % (size - 1) then 1 else 0) ∧
        rd d i = some ((i - 1) * (n / (size - 1)) + min (i - 1) (n % (size - 1))) := by
  have hq : Int.tdiv n (size - 1) = n / (size - 1) := Int.tdiv_eq_ediv hn (by omega)
  have hr : Int.tmod n (size - 1) = n % (size - 1) := Int.tmod_eq_emod hn (by omega)
  have hr0 : 0 ≤ n % (size - 1) := Int.emod_nonneg n (by omega)
  have hr1 : n % (size - 1) < size - 1 := Int.emod_lt_of_pos n (by omega)
  obtain ⟨c1, hc1, hl1, hrd1⟩ := baseLoop_spec (n := n) hs (size - 1).toNat 1 counts (by omega)
  obtain ⟨c2, hc2, hl2, hrd2⟩ := remainderLoop_spec hs (n % (size - 1) + 1).toNat c1 0
    (n % (size - 1)) (by omega) (fun _ => ⟨le_refl 0, by omega⟩) (by omega)
  have hcounts : ∀ i : Int, 1 ≤ i → i ≤ size - 1 →
      rd c2 i = some (n / (size - 1) + if i ≤ n % (size - 1) then 1 else 0) := by
    intro i hi1 hi2
    have h1 : ((1 : Nat) : Int) ≤ i ∧ i < ((1 : Nat) : Int) + ((size - 1).toNat : Int) := by
      push_cast; omega
    rw [hrd2 i, hrd1 i, if_pos h1, hq]
    by_cases h : i ≤ n % (size - 1)
    · have h2 : 0 ≤ i ∧ i ≤ 0 + n % (size - 1) := by omega
      rw [if_pos h2, if_pos h]; rfl
    · have h2 : ¬ (0 ≤ i ∧ i ≤ 0 + n % (size - 1)) := by omega
      rw [if_neg h2, if_neg h]; simp
  have hw := wr_of_bounds (a := displs) (i := 1) 0 (by decide) (by simp; omega)
  obtain ⟨d2, hd2, _, hrdd⟩ := displacementLoop_spec hcounts (size - 1).toNat 1
    (displs.set (1 : Int).toNat 0) 0 (le_refl 1) (by omega)
    (by rw [List.length_set]; omega) (by simp; omega)
  unfold partition workerRanks
  rw [hc1]
  simp only
  rw [if_neg (by omega), hr, hc2]
  simp only
  rw [hw]
  simp only
  rw [hd2]
  refine ⟨c2, d2, rfl, ?_⟩
  intro i hi1 hi2
  refine ⟨hcounts i hi1 (by omega), ?_⟩
  rw [hrdd i, if_pos (by push_cast; omega)]

theorem shareStart_one {n w : Int} (hw : 1 ≤ w) : shareStart n w 1 = 0 := by
  unfold shareStart
  have := Int.emod_nonneg n (show w ≠ 0 by omega)
  simp
  omega

theorem shareStart_succ (n w i : Int) :
    shareStart n w (i + 1) = shareStart n w i + shareSize n w i := by
  unfold shareStart shareSize
  have e : (i + 1 - 1) * (n / w) = (i - 1) * (n / w) + n / w := by ring
  rw [e]
  split <;> omega

theorem shareStart_last {n w : Int} (hw : 1 ≤ w) :
    shareStart n w w + shareSize n w w = n := by
  unfold shareStart shareSize
  have h0 := Int.emod_nonneg n (show w ≠ 0 by omega)
  have h1 := Int.emod_lt_of_pos n (show 0 < w by omega)
  have h2 := Int.ediv_add_emod n w
  have e : (w - 1) * (n / w) = w * (n / w) - n / w := by ring
  rw [e, if_neg (by omega)]
  omega

theorem shareSize_cases (n w i : Int) :
    (shareSize n w i = n / w ∨ shareSize n w i = n / w + 1) ∧
      (shareSize n w i = n / w + 1 ↔ i ≤ n % w) := by
  unfold shareSize
  split <;> omega

theorem shareStart_mono {n w : Int} (hw : 1 ≤ w) (hn : 0 ≤ n) {i j : Int} (hij : i ≤ j) :
    shareStart n w i ≤ shareStart n w j := by
  unfold shareStart
  have hq : 0 ≤ n / w := Int.ediv_nonneg hn (by omega)
  have hmul : (i - 1) * (n / w) ≤ (j - 1) * (n / w) :=
    mul_le_mul_of_nonneg_right (by omega) hq
  omega

theorem share_exists {n w : Int} (hw : 1 ≤ w) {k : Int} (hk0 : 0 ≤ k) :
    ∀ m : Nat, 1 ≤ m → k < shareStart n w m + shareSize n w m →
      ∃ i : Int, 1 ≤ i ∧ i ≤ m ∧ shareStart n w i ≤ k ∧ k < shareStart n w i + shareSize n w i := by
  intro m
  induction m with
  | zero => intro h; omega
  | succ m ih =>
    intro _ hk
    by_cases hm : m = 0
    · subst hm
      refine ⟨1, le_refl 1, by simp, ?_, by simpa using hk⟩
      rw [shareStart_one hw]; exact hk0
    · by_cases hlt : k < shareStart n w ((m : Int) + 1)
      · rw [shareStart_succ] at hlt
        obtain ⟨i, hi1, hi2, hi3, hi4⟩ := ih (by omega) hlt
        exact ⟨i, hi1, by push_cast; omega, hi3, hi4⟩
      · exact ⟨((m + 1 : Nat) : Int), by push_cast; omega, le_refl _, by push_cast; omega, hk⟩

/-- C3 (partition completeness): for at least one worker (`size ≥ 2`) and
`n = moves[0] ≥ 0`, `divide_moves` returns; worker `i` in `1 .. size-1` gets
count `shareSize` and displacement `shareStart`; the ranges are contiguous in
worker order from 0 to `n`, ordered (hence pairwise disjoint), every index of
`[0, n)` lies in exactly one range, each size is `n / (size-1)` or one more, and
exactly the workers `i ≤ n % (size-1)` have the larger size. -/
theorem divide_moves_partition (st : State) (n : Int) (hs : 2 ≤ st.size)
    (hm : rd st.moves 0 = some n) (hn : 0 ≤ n)
    (hlc : st.send_counts.length = st.size.toNat)
    (hld : st.displacements.length = st.size.toNat) :
    ∃ st1, divide_moves st = some st1 ∧
      (∀ i : Int, 1 ≤ i → i < st.size →
        rd st1.send_counts i = some (shareSize n (st.size - 1) i) ∧
        rd st1.displacements i = some (shareStart n (st.size - 1) i)) ∧
      shareStart n (st.size - 1) 1 = 0 ∧
      (∀ i : Int, 1 ≤ i → i + 1 < st.size →
        shareStart n (st.size - 1) (i + 1) =
          shareStart n (st.size - 1) i + shareSize n (st.size - 1) i) ∧
      shareStart n (st.size - 1) (st.size - 1) + shareSize n (st.size - 1) (st.size - 1) = n ∧
      (∀ i j : Int, 1 ≤ i → i < j → j < st.size →
        shareStart n (st.size - 1) i + shareSize n (st.size - 1) i ≤
          shareStart n (st.size - 1) j) ∧
      (∀ k : Int, 0 ≤ k → k < n →
        ∃! i : Int, 1 ≤ i ∧ i < st.size ∧ shareStart n (st.size - 1) i ≤ k ∧
          k < shareStart n (st.size - 1) i + shareSize n (st.size - 1) i) ∧
      (∀ i : Int, 1 ≤ i → i < st.size →
        (shareSize n (st.size - 1) i = n / (st.size - 1) ∨
          shareSize n (st.size - 1) i = n / (st.size - 1) + 1) ∧
        (shareSize n (st.size - 1) i = n / (st.size - 1) + 1 ↔ i ≤ n % (st.size - 1))) := by
  have hw : 1 ≤ st.size - 1 := by omega
  obtain ⟨c, d, hpart, hcd⟩ := partition_spec hs hn (le_of_eq hlc.symm) (le_of_eq hld.symm)
  have hord : ∀ i j : Int, 1 ≤ i → i < j → j < st.size →
      shareStart n (st.size - 1) i + shareSize n (st.size - 1) i ≤
        shareStart n (st.size - 1) j := by
    intro i j _ hij _
    rw [← shareStart_succ]
    exact shareStart_mono hw hn (by omega)
  refine ⟨{ st with send_counts := c, displacements := d }, ?_, ?_, shareStart_one hw,
    fun i _ _ => shareStart_succ n _ i, shareStart_last hw, hord, ?_,
    fun i _ _ => shareSize_cases n _ i⟩
  · unfold divide_moves
    rw [hm]
    simp only
    rw [hpart]
  · intro i hi1 hi2
    exact hcd i hi1 hi2
  · intro k hk0 hk1
    have hlast := shareStart_last (n := n) hw
    obtain ⟨i, hi1, hi2, hi3, hi4⟩ := share_exists (n := n) hw hk0 (st.size - 1).toNat
      (by omega) (by
        have e : (((st.size - 1).toNat : Nat) : Int) = st.size - 1 := by omega
        rw [e, hlast]; exact hk1)
    refine ⟨i, ⟨hi1, by omega, hi3, hi4⟩, ?_⟩
    rintro j ⟨hj1, hj2, hj3, hj4⟩
    rcases lt_trichotomy i j with h | h | h
    · have := hord i j hi1 h hj2
      omega
    · exact h.symm
    · have := hord j i hj1 h (by omega)
      omega

/-- Witness of C3: 5 moves, 3 workers (`size = 4`). -/
theorem divide_moves_partition_witness :
    (2 : Int) ≤ partitionSample.size ∧ rd partitionSample.moves 0 = some 5 ∧ (0 : Int) ≤ 5 ∧
    partitionSample.send_counts.length = partitionSample.size.toNat ∧
    partitionSample.displacements.length = partitionSample.size.toNat ∧
    ∃ st1, divide_moves partitionSample = some st1 ∧
      (∀ i : Int, 1 ≤ i → i < partitionSample.size →
        rd st1.send_counts i = some (shareSize 5 (partitionSample.size - 1) i) ∧
        rd st1.displacements i = some (shareStart 5 (partitionSample.size - 1) i)) ∧
      shareStart 5 (partitionSample.size - 1) 1 = 0 ∧
      (∀ i : Int, 1 ≤ i → i + 1 < partitionSample.size →
        shareStart 5 (partitionSample.size - 1) (i + 1) =
          shareStart 5 (partitionSample.size - 1) i +
            shareSize 5 (partitionSample.size - 1) i) ∧
      shareStart 5 (partitionSample.size - 1) (partitionSample.size - 1) +
        shareSize 5 (partitionSample.size - 1) (partitionSample.size - 1) = 5 ∧
      (∀ i j : Int, 1 ≤ i → i < j → j < partitionSample.size →
        shareStart 5 (partitionSample.size - 1) i + shareSize 5 (partitionSample.size - 1) i ≤
          shareStart 5 (partitionSample.size - 1) j) ∧
      (∀ k : Int, 0 ≤ k → k < 5 →
        ∃! i : Int, 1 ≤ i ∧ i < partitionSample.size ∧
          shareStart 5 (partitionSample.size - 1) i ≤ k ∧
          k < shareStart 5 (partitionSample.size - 1) i +
            shareSize 5 (partitionSample.size - 1) i) ∧
      (∀ i : Int, 1 ≤ i → i < partitionSample.size →
        (shareSize 5 (partitionSample.size - 1) i = 5 / (partitionSample.size - 1) ∨
          shareSize 5 (partitionSample.size - 1) i = 5 / (partitionSample.size - 1) + 1) ∧
        (shareSize 5 (partitionSample.size - 1) i = 5 / (partitionSample.size - 1) + 1 ↔
          i ≤ 5 % (partitionSample.size - 1))) :=
  ⟨by decide, by decide, by decide, by decide, by decide,
    divide_moves_partition partitionSample 5 (by decide) (by decide) (by decide) (by decide)
      (by decide)⟩

/-- In every configuration with at least one worker the move loop of
`run_worker` visits only list indices `j` with `1 ≤ j < n`: index `n`, the last
legal move, is visited by no worker. -/
theorem run_worker_indices_lt {size rank n : Int} (hs : 2 ≤ size) (hn : 0 ≤ n)
    (hr1 : 1 ≤ rank) (hr2 : rank < size) {counts0 displs0 : List Int}
    (hlc : counts0.length = (size + 1).toNat) (hld : displs0.length = (size + 1).toNat) :
    ∃ js, run_worker_indices size rank n counts0 displs0 = some js ∧
      ∀ j ∈ js, 1 ≤ j ∧ j < n := by
  have hw : 1 ≤ size - 1 := by omega
  have hlc2 : size.toNat ≤ counts0.length := by omega
  have hld2 : size.toNat ≤ displs0.length := by omega
  obtain ⟨c, d, hpart, hcd⟩ := partition_spec (n := n) hs hn hlc2 hld2
  obtain ⟨hc, hd⟩ := hcd rank hr1 hr2
  unfold run_worker_indices
  rw [hpart]
  simp only
  rw [hd, hc]
  simp only
  refine ⟨_, rfl, ?_⟩
  intro j hj
  rw [List.mem_map] at hj
  obtain ⟨k, hk, rfl⟩ := hj
  rw [List.mem_range] at hk
  have h1 : shareStart n (size - 1) rank + shareSize n (size - 1) rank ≤ n := by
    have e1 := shareStart_succ n (size - 1) rank
    have e2 := shareStart_last (n := n) hw
    have e3 := shareStart_succ n (size - 1) (size - 1)
    have e4 := shareStart_mono hw hn (i := rank + 1) (j := size - 1 + 1) (by omega)
    omega
  have h2 : 0 ≤ shareStart n (size - 1) rank := by
    rw [← shareStart_one (n := n) hw]
    exact shareStart_mono hw hn hr1
  have h3 : rank = 1 → shareStart n (size - 1) rank = 0 := by
    intro h; rw [h]; exact shareStart_one hw
  simp only [shareStart, shareSize] at h1 h2 h3
  have hq : 0 ≤ n / (size - 1) := Int.ediv_nonneg hn (by omega)
  have hr0 := Int.emod_nonneg n (show size - 1 ≠ 0 by omega)
  by_cases hrk : rank = 1
  · rw [if_pos hrk] at hk ⊢
    have := h3 hrk
    omega
  · rw [if_neg hrk] at hk ⊢
    have hmul : 1 * (n / (size - 1)) ≤ (rank - 1) * (n / (size - 1)) :=
      mul_le_mul_of_nonneg_right (by omega) hq
    omega

/-- C4 (code evaluated at the failing input): on the starting position `BLACK`
has 4 legal moves, held at list indices 1 to 4 (index 4 holds cell 65).  With
one worker (`size = 2`) the move loop visits the indices 1, 2, 3; with two
workers (`size = 3`) rank 1 visits index 1 and rank 2 visits 2 and 3.  Index 4
is visited by no worker. -/
theorem run_worker_skips_last_move :
    ((legalmoves initialise_board (List.replicate 65 0) BLACK).bind fun ms => rd ms 0)
      = some 4 ∧
    ((legalmoves initialise_board (List.replicate 65 0) BLACK).bind fun ms => rd ms 4)
      = some 65 ∧
    run_worker_indices 2 1 4 [0, 0, 0] [0, 0, 0] = some [1, 2, 3] ∧
    run_worker_indices 3 1 4 [0, 0, 0, 0] [0, 0, 0, 0] = some [1] ∧
    run_worker_indices 3 2 4 [0, 0, 0, 0] [0, 0, 0, 0] = some [2, 3] := by
  rw [legalmoves_start (by decide)]
  decide

/-- C5 (code evaluated at the failing input): worker 1 reports move 34 with
score 5 and worker 2 move 43 with score 3.  The receiving loop leaves the
greatest score's move 34 in `temp_move`, but the move handed to
`get_move_string` and `makemove` is `best_move`, the last report's move 43. -/
theorem coordinator_takes_last_report :
    chosen_move [(34, 5), (43, 3)] = 43 ∧
    (collectLoop [(34, 5), (43, 3)] 0 0 (-1000)).2 = (34, 5) := by decide

/-! ## Boards of one colour -/

theorem rd_mem {a : List Int} {i v : Int} (h : rd a i = some v) : v ∈ a := by
  unfold rd at h
  split at h
  · exact List.getElem?_mem h
  · exact absurd h (by simp)

theorem legalmoves_of_cells {b : Board} {p : Int} {moves found : List Int}
    (hl : 0 < moves.length) (hc : legalCells b p scanCells = some found) :
    legalmoves b moves p =
      match storeMoves found 0 (moves.set 0 0) with
      | none => none
      | some (i, m1) => wr m1 0 i := by
  unfold legalmoves
  rw [wr_of_bounds 0 (le_refl 0) (by simpa using hl)]
  simp only
  rw [legalmovesLoop_eq, hc]
  rfl

/-- On a board without `WHITE` pieces `legalp` accepts no cell for either side. -/
theorem legalp_one_colour {b : Board} (hb : WellFormed b) {p : Int} (hp : IsSide p)
    (h : ∀ v ∈ b, v ≠ WHITE) (c : Int) : legalp b c p = some 0 := by
  obtain ⟨r, hr, h01, hiff⟩ := legalp_spec hb hp c
  rcases h01 with rfl | rfl
  · exact hr
  · exfalso
    obtain ⟨_, _, d, _, k, hk, hrun, hend⟩ := hiff.mp (by decide)
    rcases hp with rfl | rfl
    · exact h _ (rd_mem (hrun 1 (le_refl 1) hk)) rfl
    · exact h _ (rd_mem hend) rfl

theorem legalCells_one_colour {b : Board} (hb : WellFormed b) {p : Int} (hp : IsSide p)
    (h : ∀ v ∈ b, v ≠ WHITE) : ∀ cells : List Int, legalCells b p cells = some [] := by
  intro cells
  induction cells with
  | nil => rfl
  | cons c rest ih =>
    unfold legalCells
    rw [legalp_one_colour hb hp h c, ih]
    rfl

theorem legalmoves_one_colour {b : Board} (hb : WellFormed b) {p : Int} (hp : IsSide p)
    (h : ∀ v ∈ b, v ≠ WHITE) {moves : List Int} (hl : 0 < moves.length) :
    legalmoves b moves p = some ((moves.set 0 0).set 0 0) := by
  rw [legalmoves_of_cells hl (legalCells_one_colour hb hp h scanCells)]
  simp only [storeMoves]
  exact wr_of_bounds 0 (le_refl 0) (by simpa using hl)

theorem divide_moves_frame {st st2 : State} (h : divide_moves st = some st2) :
    st2.board = st.board ∧ st2.my_colour = st.my_colour := by
  unfold divide_moves at h
  split at h
  · exact absurd h (by simp)
  · split at h
    · exact absurd h (by simp)
    · simp only [Option.some.injEq] at h
      subst h
      exact ⟨rfl, rfl⟩

/-- When `makemove` fails on the move the coordinator hands it, the coordinator's
turn has no result. -/
theorem coordinator_turn_makemove (bufsize : Nat) (st : State) (my_move : List Char)
    (reports : List (Int × Int))
    (h : makemove st.board (chosen_move reports) st.my_colour = none) :
    coordinator_turn bufsize st my_move reports = none := by
  unfold coordinator_turn
  split
  · rfl
  · split
    · rfl
    · split
      · rfl
      · split
        · rfl
        · rename_i st2 hdiv
          obtain ⟨hb, hc⟩ := divide_moves_frame hdiv
          simp only [hb, hc, h]
          split <;> rfl

theorem passSample_wf : WellFormed passSample.board := by decide

theorem passSample_one_colour : ∀ v ∈ passSample.board, v ≠ WHITE := by decide

set_option maxRecDepth 100000 in
/-- C9 (code evaluated at the failing input): when the only worker reports the
pass sentinel `(-1, -10000)`, the coordinator's move is `-1`; `get_move_string`
overwrites the prepared pass token with the text `"/."` and a newline, and
`makemove(-1, ..)` writes `board[-1]`, outside the board, so that the turn has
no defined result (on a board where `BLACK`, the side to move, has no move). -/
theorem coordinator_pass_not_recorded :
    chosen_move [(-1, -10000)] = -1 ∧
    ((strncpy (List.replicate 6 NUL) PASS 6).bind fun buf =>
      (get_move_string (-1) buf).map cstr) = some ['/', '.', Char.ofNat 10] ∧
    makemove passSample.board (-1) passSample.my_colour = none ∧
    (coordinator_turn 6 passSample (List.replicate 6 NUL) [(-1, -10000)]).isNone = true := by
  refine ⟨by decide, by decide, by decide, ?_⟩
  rw [coordinator_turn_makemove 6 passSample _ _ (by decide)]
  rfl

/-! ## Passing -/

theorem cstr_pass {bufsize : Nat} (hbuf : 6 ≤ bufsize) {move : List Char}
    (hlen : bufsize ≤ move.length) :
    ∃ move1, strncpy move PASS bufsize = some move1 ∧ cstr move1 = PASS := by
  unfold strncpy
  rw [if_pos hlen]
  refine ⟨_, rfl, ?_⟩
  obtain ⟨k, rfl⟩ : ∃ k, bufsize = k + 6 := ⟨bufsize - 6, by omega⟩
  have h5 : PASS.length = 5 := by decide
  rw [List.take_of_length_le (by rw [h5]; omega), h5]
  have hk : k + 6 - 5 = k + 1 := by omega
  rw [hk, List.replicate_succ]
  unfold cstr PASS
  simp [List.takeWhile, NUL]

/-- C8 (no-move pass): when `legalmoves(my_colour)` returns an empty list (count 0),
`gen_move` returns with the pass token `"pass\n"` in the move buffer and the board
unchanged; the buffer has `MOVEBUFSIZE ≥ 6` cells. -/
theorem gen_move_pass (bufsize : Nat) (st : State) (move : List Char) (r : Int)
    (hbuf : 6 ≤ bufsize) (hlen : bufsize ≤ move.length)
    (hempty : ((legalmoves st.board st.moves
        (if st.my_colour = EMPTY then BLACK else st.my_colour)).bind fun ms => rd ms 0)
      = some 0) :
    ∃ st1 move1, gen_move bufsize st move r = some (st1, move1) ∧ cstr move1 = PASS ∧
      st1.board = st.board := by
  obtain ⟨move1, hcopy, hpass⟩ := cstr_pass hbuf hlen
  unfold gen_move
  by_cases hc : st.my_colour = EMPTY
  · rw [if_pos hc] at hempty
    simp only [if_pos hc]
    cases hl : legalmoves st.board st.moves BLACK with
    | none => rw [hl] at hempty; simp at hempty
    | some ms =>
      rw [hl] at hempty
      simp only [Option.bind] at hempty
      simp only [hempty, if_true, hcopy]
      exact ⟨_, _, rfl, hpass, rfl⟩
  · rw [if_neg hc] at hempty
    simp only [if_neg hc]
    cases hl : legalmoves st.board st.moves st.my_colour with
    | none => rw [hl] at hempty; simp at hempty
    | some ms =>
      rw [hl] at hempty
      simp only [Option.bind] at hempty
      simp only [hempty, if_true, hcopy]
      exact ⟨_, _, rfl, hpass, rfl⟩

set_option maxRecDepth 100000 in
/-- Witness of C8: a board on which `BLACK` has no legal move. -/
theorem gen_move_pass_witness :
    6 ≤ 6 ∧ 6 ≤ (List.replicate 6 NUL).length ∧
    ((legalmoves passSample.board passSample.moves
        (if passSample.my_colour = EMPTY then BLACK else passSample.my_colour)).bind
      fun ms => rd ms 0) = some 0 ∧
    ∃ st1 move1, gen_move 6 passSample (List.replicate 6 NUL) 0 = some (st1, move1) ∧
      cstr move1 = PASS ∧ st1.board = passSample.board :=
  have hleg : legalmoves passSample.board passSample.moves
      (if passSample.my_colour = EMPTY then BLACK else passSample.my_colour) =
      some ((passSample.moves.set 0 0).set 0 0) :=
    legalmoves_one_colour passSample_wf (by decide) passSample_one_colour (by decide)
  have h : ((legalmoves passSample.board passSample.moves
        (if passSample.my_colour = EMPTY then BLACK else passSample.my_colour)).bind
      fun ms => rd ms 0) = some 0 := by
    rw [hleg]
    decide
  ⟨by decide, by decide, h,
    gen_move_pass 6 passSample (List.replicate 6 NUL) 0 (by decide) (by decide) h⟩

/-! ## Bound sharing -/

theorem alpha_beta_sharing_state (st : State) (alpha beta : Int) (a1 a2 : PeerInput) :
    (alpha_beta_sharing st alpha beta a1).1 = (alpha_beta_sharing st alpha beta a2).1 := rfl

theorem evalResult_inbox (st : State) (board : BoardPtr) (player : Int)
    (i1 i2 : List PeerInput) :
    (evalResult st board player i1).map searchObs =
      (evalResult st board player i2).map searchObs := by
  unfold evalResult
  cases evaluate_board st.board (deref st board) player with
  | none => rfl
  | some v => rfl

theorem minimaxLoop_inbox
    (child : State → BoardPtr → Int → Int → List PeerInput → Option SearchResult)
    (hchild : ∀ s b a be i1 i2,
      (child s b a be i1).map searchObs = (child s b a be i2).map searchObs)
    (current_depth player : Int) :
    ∀ (is : List Int) (st : State) (board : BoardPtr) (alpha beta : Int)
      (i1 i2 : List PeerInput),
      (minimaxLoop child current_depth player is st board alpha beta i1).map loopObs =
        (minimaxLoop child current_depth player is st board alpha beta i2).map loopObs := by
  intro is
  induction is with
  | nil => intro st board alpha beta i1 i2; rfl
  | cons i rest ih =>
    intro st board alpha beta i1 i2
    unfold minimaxLoop
    cases h1 : copy_board st (deref st board) with
    | none => rfl
    | some p1 =>
      obtain ⟨st1, temp_board⟩ := p1
      simp only
      cases h2 : rd st1.moves i with
      | none => rfl
      | some mv =>
        simp only
        cases h3 : makemove st1.board mv player with
        | none => rfl
        | some b2 =>
          simp only
          have hc := hchild { st1 with board := b2 } board alpha beta i1 i2
          cases hx : child { st1 with board := b2 } board alpha beta i1 with
          | none =>
            cases hy : child { st1 with board := b2 } board alpha beta i2 with
            | none => rfl
            | some r2 => rw [hx, hy] at hc; simp at hc
          | some r1 =>
            cases hy : child { st1 with board := b2 } board alpha beta i2 with
            | none => rw [hx, hy] at hc; simp at hc
            | some r2 =>
              obtain ⟨s3, score, ib1⟩ := r1
              obtain ⟨s3b, scoreb, ib2⟩ := r2
              rw [hx, hy] at hc
              simp only [Option.map, searchObs, Option.some.injEq, Prod.mk.injEq] at hc
              obtain ⟨hs, hsc⟩ := hc
              subst hs hsc
              simp only
              cases h4 : copy_board s3 temp_board with
              | none => rfl
              | some p4 =>
                obtain ⟨st4, board4⟩ := p4
                simp only
                generalize (if player = s3.my_colour ∧ score > alpha then score else alpha)
                  = alpha1
                generalize (if player = opponent s3.my_colour ∧ score < beta then score
                  else beta) = beta1
                by_cases hp : alpha1 > beta1
                · simp only [if_pos hp]
                  by_cases hd : current_depth < 2
                  · simp only [if_pos hd]; rfl
                  · simp only [if_neg hd]; rfl
                · simp only [if_neg hp]
                  exact ih _ _ _ _ _ _

theorem minimaxBody_inbox
    (child : State → BoardPtr → Int → Int → List PeerInput → Option SearchResult)
    (hchild : ∀ s b a be i1 i2,
      (child s b a be i1).map searchObs = (child s b a be i2).map searchObs)
    (st : State) (board : BoardPtr) (current_depth player alpha beta : Int)
    (i1 i2 : List PeerInput) :
    (minimaxBody child st board current_depth player alpha beta i1).map searchObs =
      (minimaxBody child st board current_depth player alpha beta i2).map searchObs := by
  unfold minimaxBody
  cases h1 : legalmoves st.board st.moves st.my_colour with
  | none => rfl
  | some moves1 =>
    simp only
    cases h2 : rd moves1 0 with
    | none => rfl
    | some num_moves =>
      simp only
      split
      · exact evalResult_inbox _ _ _ _ _
      · have hl := minimaxLoop_inbox child hchild current_depth player
          ((List.range' 1 (num_moves - 1).toNat).map Int.ofNat)
          { st with moves := moves1 } board alpha beta i1 i2
        cases hx : minimaxLoop child current_depth player
            ((List.range' 1 (num_moves - 1).toNat).map Int.ofNat)
            { st with moves := moves1 } board alpha beta i1 with
        | none =>
          cases hy : minimaxLoop child current_depth player
              ((List.range' 1 (num_moves - 1).toNat).map Int.ofNat)
              { st with moves := moves1 } board alpha beta i2 with
          | none => rfl
          | some r2 => rw [hx, hy] at hl; simp at hl
        | some r1 =>
          cases hy : minimaxLoop child current_depth player
              ((List.range' 1 (num_moves - 1).toNat).map Int.ofNat)
              { st with moves := moves1 } board alpha beta i2 with
          | none => rw [hx, hy] at hl; simp at hl
          | some r2 =>
            obtain ⟨s2, a2, b2, ib1⟩ := r1
            obtain ⟨s2b, a2b, b2b, ib2⟩ := r2
            rw [hx, hy] at hl
            simp only [Option.map, loopObs, Option.some.injEq, Prod.mk.injEq] at hl
            obtain ⟨hs, ha, hb⟩ := hl
            subst hs ha hb
            simp only
            split <;> rfl

theorem minimaxFuel_inbox :
    ∀ (fuel : Nat) (st : State) (board : BoardPtr)
      (current_depth max_depth player alpha beta : Int) (i1 i2 : List PeerInput),
      (minimaxFuel fuel st board current_depth max_depth player alpha beta i1).map searchObs =
        (minimaxFuel fuel st board current_depth max_depth player alpha beta i2).map
          searchObs := by
  intro fuel
  induction fuel with
  | zero =>
    intro st board cd md player alpha beta i1 i2
    unfold minimaxFuel
    split
    · exact evalResult_inbox _ _ _ _ _
    · rfl
  | succ fuel ih =>
    intro st board cd md player alpha beta i1 i2
    unfold minimaxFuel
    split
    · exact evalResult_inbox _ _ _ _ _
    · exact minimaxBody_inbox _
        (fun s b a be j1 j2 => ih s b (cd + 1) md (opponent player) a be j1 j2) _ _ _ _ _ _ _ _


/-! ## The search returns -/

theorem copyLoop_total (board : Board) (hb : board.length = 100) :
    ∀ (cells : List Int) (t : Board), (∀ i ∈ cells, 0 ≤ i ∧ i < 100) → t.length = 100 →
      ∃ t1, copyLoop board cells t = some t1 ∧ t1.length = 100 := by
  intro cells
  induction cells with
  | nil => intro t _ ht; exact ⟨t, rfl, ht⟩
  | cons i rest ih =>
    intro t hc ht
    obtain ⟨h0, h1⟩ := hc i (List.mem_cons_self i rest)
    obtain ⟨v, hv⟩ := rd_of_bounds (a := board) h0 (by omega)
    have hw := wr_of_bounds (a := t) v h0 (by omega)
    unfold copyLoop
    rw [hv]
    simp only
    rw [hw]
    exact ih _ (fun x hx => hc x (List.mem_cons_of_mem i hx))
      (by rw [List.length_set]; exact ht)

theorem copy_board_total (st : State) {board : Board} (hb : board.length = 100) :
    ∃ t, copy_board st board = some ({ st with allocs := st.allocs + 1 }, t) ∧
      t.length = 100 := by
  obtain ⟨t, ht, hl⟩ := copyLoop_total board hb ((List.range 99).map Int.ofNat)
    (freshBlock st)
    (by
      intro i hi
      rw [List.mem_map] at hi
      obtain ⟨k, hk, rfl⟩ := hi
      rw [List.mem_range] at hk
      simp only [Int.ofNat_eq_coe]; omega)
    (by simp [freshBlock, BOARDSIZE])
  unfold copy_board
  rw [ht]
  exact ⟨t, rfl, hl⟩

theorem storeMoves_stamped :
    ∀ (found : List Int) (i : Int) (ms : List Int) (i1 : Int) (ms1 : List Int),
      0 ≤ i → (∀ m ∈ found, Playable m) → storeMoves found i ms = some (i1, ms1) →
      ∀ j : Int, 1 ≤ j → HoldsMove ms j → HoldsMove ms1 j := by
  intro found
  induction found with
  | nil =>
    intro i ms i1 ms1 _ _ h j _ hj
    unfold storeMoves at h
    obtain ⟨_, rfl⟩ := Prod.mk.inj (Option.some.inj h)
    exact hj
  | cons m rest ih =>
    intro i ms i1 ms1 h0 hpl h j hj1 hj
    unfold storeMoves at h
    cases hw : wr ms (i + 1) m with
    | none => rw [hw] at h; simp at h
    | some ms2 =>
      rw [hw] at h
      simp only at h
      apply ih (i + 1) ms2 i1 ms1 (by omega) (fun x hx => hpl x (List.mem_cons_of_mem m hx)) h
        j hj1
      by_cases hij : i + 1 = j
      · subst hij
        exact ⟨m, rd_wr_same hw, hpl m (List.mem_cons_self m rest)⟩
      · obtain ⟨x, hx, hxp⟩ := hj
        exact ⟨x, by rw [rd_wr_other hw hij]; exact hx, hxp⟩

theorem legalCells_playable {b : Board} (hb : WellFormed b) {p : Int} (hp : IsSide p) :
    ∀ (cells found : List Int), legalCells b p cells = some found →
      ∀ m ∈ found, Playable m := by
  intro cells
  induction cells with
  | nil =>
    intro found h m hm
    unfold legalCells at h
    rw [← Option.some.inj h] at hm
    exact absurd hm (List.not_mem_nil m)
  | cons move rest ih =>
    intro found h m hm
    obtain ⟨r, hr, _, hiff⟩ := legalp_spec hb hp move
    unfold legalCells at h
    rw [hr] at h
    simp only at h
    cases hc : legalCells b p rest with
    | none => rw [hc] at h; simp at h
    | some f2 =>
      rw [hc] at h
      simp only at h
      have hf := Option.some.inj h
      by_cases hr0 : r ≠ 0
      · rw [if_pos hr0] at hf
        rw [← hf] at hm
        rcases List.mem_cons.mp hm with rfl | hm2
        · exact (hiff.mp hr0).1
        · exact ih f2 hc m hm2
      · rw [if_neg hr0] at hf
        rw [← hf] at hm
        exact ih f2 hc m hm

/-- On a well-formed board `legalmoves` returns, lists playable cells in cells
`1 .. count`, and keeps every cell from index 1 on that held a playable cell
holding one. -/
theorem legalmoves_stamped {b : Board} (hb : WellFormed b) {p : Int} (hp : IsSide p)
    {ms : List Int} (hl : ms.length = 65) :
    ∃ ms1 n, legalmoves b ms p = some ms1 ∧ ms1.length = 65 ∧ rd ms1 0 = some n ∧
      (∀ j : Int, 1 ≤ j → j ≤ n → HoldsMove ms1 j) ∧
      (∀ j : Int, 1 ≤ j → HoldsMove ms j → HoldsMove ms1 j) := by
  obtain ⟨ms1, n, hms1, hl1, hn, _, _, hinv⟩ := legalmoves_spec hb hp hl
  refine ⟨ms1, n, hms1, hl1, hn, ?_, ?_⟩
  · intro j hj1 hj2
    have h65 : ∃ m, rd ms1 j = some m := by
      have hn64 : n ≤ 64 := by
        obtain ⟨_, n2, h2, _, hn2, _, h64, _⟩ := legalmoves_spec hb hp hl
        rw [hms1] at h2
        rw [← Option.some.inj h2, hn] at hn2
        rw [Option.some.inj hn2]; exact h64
      exact rd_of_bounds (by omega) (by rw [hl1]; omega)
    obtain ⟨m, hm⟩ := h65
    obtain ⟨r, hr, _, hiff⟩ := legalp_spec hb hp m
    have := hinv j m hj1 hj2 hm
    rw [this] at hr
    have hr1 : r = 1 := (Option.some.inj hr).symm
    subst hr1
    exact ⟨m, hm, (hiff.mp (by decide)).1⟩
  · intro j hj1 hj
    unfold legalmoves at hms1
    have hw0 := wr_of_bounds (a := ms) (i := 0) 0 (le_refl 0) (by rw [hl]; decide)
    rw [hw0] at hms1
    simp only at hms1
    rw [legalmovesLoop_eq] at hms1
    cases hc : legalCells b p scanCells with
    | none => rw [hc] at hms1; simp at hms1
    | some found =>
      rw [hc] at hms1
      simp only at hms1
      cases hs : storeMoves found 0 (ms.set (0 : Int).toNat 0) with
      | none => rw [hs] at hms1; simp at hms1
      | some res =>
        obtain ⟨i1, m1⟩ := res
        rw [hs] at hms1
        simp only at hms1
        have h1 : HoldsMove (ms.set (0 : Int).toNat 0) j := by
          obtain ⟨x, hx, hxp⟩ := hj
          exact ⟨x, by rw [rd_wr_other hw0 (by omega)]; exact hx, hxp⟩
        obtain ⟨x, hx, hxp⟩ := storeMoves_stamped found 0 _ i1 m1 (le_refl 0)
          (legalCells_playable hb hp scanCells found hc) hs j hj1 h1
        exact ⟨x, by rw [rd_wr_other hms1 (by omega)]; exact hx, hxp⟩

theorem evalResult_total {st : State} (hg : GoodState st) (board : BoardPtr) {player : Int}
    (hp : IsSide player) (inbox : List PeerInput) :
    ∃ v, evalResult st board player inbox = some (st, v, inbox) := by
  obtain ⟨v, hv⟩ := evaluate_board_total hg.1 hp (deref st board)
  unfold evalResult
  rw [hv]
  exact ⟨v, rfl⟩

theorem deref_length {st : State} (hg : GoodState st) {board : BoardPtr} (hptr : GoodPtr board) :
    (deref st board).length = 100 := by
  cases board with
  | global => exact hg.1.1
  | block b => exact hptr

theorem minimaxLoop_total
    (child : State → BoardPtr → Int → Int → List PeerInput → Option SearchResult)
    (hchild : ∀ s b a be ib, GoodState s → GoodPtr b →
      ∃ s1 v ib1, child s b a be ib = some (s1, v, ib1) ∧ GoodState s1 ∧
        s1.my_colour = s.my_colour ∧
        ∀ j : Int, 1 ≤ j → HoldsMove s.moves j → HoldsMove s1.moves j)
    (current_depth : Int) {player : Int} (hp : IsSide player) :
    ∀ (is : List Int) (st : State) (board : BoardPtr) (alpha beta : Int)
      (inbox : List PeerInput), GoodState st → GoodPtr board →
      (∀ i ∈ is, 1 ≤ i ∧ HoldsMove st.moves i) →
      ∃ s1 a1 b1 ib1,
        minimaxLoop child current_depth player is st board alpha beta inbox
          = some (s1, a1, b1, ib1) ∧
        GoodState s1 ∧ s1.my_colour = st.my_colour ∧
        ∀ j : Int, 1 ≤ j → HoldsMove st.moves j → HoldsMove s1.moves j := by
  intro is
  induction is with
  | nil =>
    intro st board alpha beta inbox hg _ _
    exact ⟨st, alpha, beta, inbox, rfl, hg, rfl, fun _ _ h => h⟩
  | cons i rest ih =>
    intro st board alpha beta inbox hg hptr his
    obtain ⟨t, hcopy, tlen⟩ := copy_board_total st (deref_length hg hptr)
    obtain ⟨hi1, mv, hmv, hpl⟩ := his i (List.mem_cons_self i rest)
    obtain ⟨b2, hb2, wf2, _, _⟩ := makemove_spec hg.1 hp hpl
    have hg2 : GoodState { st with allocs := st.allocs + 1, board := b2 } :=
      ⟨wf2, hg.2.1, hg.2.2⟩
    obtain ⟨s3, score, ib3, hc, hg3, hcol3, hmono3⟩ :=
      hchild { st with allocs := st.allocs + 1, board := b2 } board alpha beta inbox hg2 hptr
    obtain ⟨board4, hcopy4, len4⟩ := copy_board_total s3 tlen
    unfold minimaxLoop
    rw [hcopy]
    simp only
    rw [hmv]
    simp only
    rw [hb2]
    simp only
    rw [hc]
    simp only
    rw [hcopy4]
    simp only
    generalize (if player = s3.my_colour ∧ score > alpha then score else alpha) = alpha1
    generalize (if player = opponent s3.my_colour ∧ score < beta then score else beta)
      = beta1
    by_cases hprune : alpha1 > beta1
    · simp only [if_pos hprune]
      by_cases hd : current_depth < 2
      · simp only [if_pos hd]
        exact ⟨_, _, _, _, rfl, ⟨hg3.1, hg3.2.1, hg3.2.2⟩, hcol3, hmono3⟩
      · simp only [if_neg hd]
        exact ⟨_, _, _, _, rfl, ⟨hg3.1, hg3.2.1, hg3.2.2⟩, hcol3, hmono3⟩
    · simp only [if_neg hprune]
      obtain ⟨s5, a5, b5, ib5, h5, hg5, hcol5, hmono5⟩ :=
        ih { s3 with allocs := s3.allocs + 1 } (BoardPtr.block board4) alpha1 beta1 ib3
          ⟨hg3.1, hg3.2.1, hg3.2.2⟩ len4
          (fun x hx =>
            ⟨(his x (List.mem_cons_of_mem i hx)).1,
              hmono3 x (his x (List.mem_cons_of_mem i hx)).1
                (his x (List.mem_cons_of_mem i hx)).2⟩)
      exact ⟨s5, a5, b5, ib5, h5, hg5, hcol5.trans hcol3,
        fun j hj h => hmono5 j hj (hmono3 j hj h)⟩

theorem minimaxBody_total
    (child : State → BoardPtr → Int → Int → List PeerInput → Option SearchResult)
    (hchild : ∀ s b a be ib, GoodState s → GoodPtr b →
      ∃ s1 v ib1, child s b a be ib = some (s1, v, ib1) ∧ GoodState s1 ∧
        s1.my_colour = s.my_colour ∧
        ∀ j : Int, 1 ≤ j → HoldsMove s.moves j → HoldsMove s1.moves j)
    {st : State} (hg : GoodState st) {board : BoardPtr} (hptr : GoodPtr board)
    (current_depth : Int) {player : Int} (hp : IsSide player) (alpha beta : Int)
    (inbox : List PeerInput) :
    ∃ s1 v ib1,
      minimaxBody child st board current_depth player alpha beta inbox = some (s1, v, ib1) ∧
      GoodState s1 ∧ s1.my_colour = st.my_colour ∧
      ∀ j : Int, 1 ≤ j → HoldsMove st.moves j → HoldsMove s1.moves j := by
  obtain ⟨ms1, n, hms1, hl1, hn, hstamp, hmono⟩ := legalmoves_stamped hg.1 hg.2.2 hg.2.1
  have hg1 : GoodState { st with moves := ms1 } := ⟨hg.1, hl1, hg.2.2⟩
  unfold minimaxBody
  rw [hms1]
  simp only
  rw [hn]
  simp only
  by_cases hn0 : n = 0
  · rw [if_pos hn0]
    obtain ⟨v, hv⟩ := evalResult_total hg1 board hp inbox
    exact ⟨_, v, inbox, hv, hg1, rfl, hmono⟩
  · rw [if_neg hn0]
    obtain ⟨s2, a2, b2, ib2, h2, hg2, hcol2, hmono2⟩ :=
      minimaxLoop_total child hchild current_depth hp
        ((List.range' 1 (n - 1).toNat).map Int.ofNat) { st with moves := ms1 } board alpha
        beta inbox hg1 hptr
        (by
          intro i hi
          rw [List.mem_map] at hi
          obtain ⟨k, hk, rfl⟩ := hi
          rw [List.mem_range'] at hk
          obtain ⟨x, hx, rfl⟩ := hk
          have h1 : (1 : Int) ≤ Int.ofNat (1 + 1 * x) := by
            simp only [Int.ofNat_eq_coe]; omega
          exact ⟨h1, hstamp _ h1 (by simp only [Int.ofNat_eq_coe]; omega)⟩)
    rw [h2]
    simp only
    by_cases hpc : player = s2.my_colour
    · rw [if_pos hpc]
      exact ⟨s2, a2, ib2, rfl, hg2, hcol2, fun j hj h => hmono2 j hj (hmono j hj h)⟩
    · rw [if_neg hpc]
      exact ⟨s2, b2, ib2, rfl, hg2, hcol2, fun j hj h => hmono2 j hj (hmono j hj h)⟩

theorem minimaxFuel_total :
    ∀ (fuel : Nat) (st : State) (board : BoardPtr)
      (current_depth max_depth player alpha beta : Int) (inbox : List PeerInput),
      GoodState st → GoodPtr board → IsSide player → max_depth - current_depth ≤ fuel →
      ∃ s1 v ib1,
        minimaxFuel fuel st board current_depth max_depth player alpha beta inbox
          = some (s1, v, ib1) ∧
        GoodState s1 ∧ s1.my_colour = st.my_colour ∧
        ∀ j : Int, 1 ≤ j → HoldsMove st.moves j → HoldsMove s1.moves j := by
  intro fuel
  induction fuel with
  | zero =>
    intro st board cd md player alpha beta inbox hg hptr hp hf
    unfold minimaxFuel
    rw [if_pos (by simp at hf; omega)]
    obtain ⟨v, hv⟩ := evalResult_total hg board hp inbox
    exact ⟨st, v, inbox, hv, hg, rfl, fun _ _ h => h⟩
  | succ fuel ih =>
    intro st board cd md player alpha beta inbox hg hptr hp hf
    unfold minimaxFuel
    by_cases hd : cd ≥ md
    · rw [if_pos hd]
      obtain ⟨v, hv⟩ := evalResult_total hg board hp inbox
      exact ⟨st, v, inbox, hv, hg, rfl, fun _ _ h => h⟩
    · rw [if_neg hd]
      exact minimaxBody_total _
        (fun s b a be ib hs hb =>
          ih s b (cd + 1) md (opponent player) a be ib hs hb (opponent_side hp)
            (by push_cast at hf; omega))
        hg hptr cd hp alpha beta inbox

/-- C6 (bound-sharing safety): for every state, board argument, depth, side and
initial window, `minimax` returns the same score and leaves the same process
state whatever pairs `alpha_beta_sharing` receives from the peers during the
search (any two inputs `inbox1`, `inbox2`, the empty one included), and it
fails on one input exactly when it fails on the other.  From a well-formed
board, a 65-cell `moves` array and sides as `my_colour` and `player`, it
returns: one state and one score serve every peer input. -/
theorem minimax_ignores_peer_bounds (st : State) (board : BoardPtr)
    (current_depth max_depth player alpha beta : Int) :
    (∀ inbox1 inbox2 : List PeerInput,
      (minimax st board current_depth max_depth player alpha beta inbox1).map searchObs =
        (minimax st board current_depth max_depth player alpha beta inbox2).map searchObs) ∧
    (GoodState st → GoodPtr board → IsSide player →
      ∃ st1 score, ∀ inbox : List PeerInput, ∃ rest,
        minimax st board current_depth max_depth player alpha beta inbox
          = some (st1, score, rest)) := by
  have hind : ∀ inbox1 inbox2 : List PeerInput,
      (minimax st board current_depth max_depth player alpha beta inbox1).map searchObs =
        (minimax st board current_depth max_depth player alpha beta inbox2).map searchObs :=
    fun inbox1 inbox2 =>
      minimaxFuel_inbox _ st board current_depth max_depth player alpha beta inbox1 inbox2
  refine ⟨hind, ?_⟩
  intro hg hptr hp
  have htot : ∀ inbox : List PeerInput, ∃ s1 v ib1,
      minimax st board current_depth max_depth player alpha beta inbox = some (s1, v, ib1) := by
    intro inbox
    obtain ⟨s1, v, ib1, h, _⟩ := minimaxFuel_total (max_depth - current_depth).toNat st board
      current_depth max_depth player alpha beta inbox hg hptr hp (by omega)
    exact ⟨s1, v, ib1, h⟩
  obtain ⟨s0, v0, ib0, h0⟩ := htot []
  refine ⟨s0, v0, ?_⟩
  intro inbox
  obtain ⟨s1, v1, ib1, h1⟩ := htot inbox
  have := hind [] inbox
  rw [h0, h1] at this
  simp only [Option.map, searchObs, Option.some.injEq, Prod.mk.injEq] at this
  obtain ⟨hs, hv⟩ := this
  subst hs hv
  exact ⟨ib1, h1⟩

/-! ## The board invariant -/

theorem reachable_wf {b : Board} (h : Reachable b) : WellFormed b := by
  induction h with
  | init => decide
  | @step b0 b1 m p r _ hp hl hr hm ih =>
    obtain ⟨r2, hr2, _, hiff⟩ := legalp_spec ih hp m
    rw [hl] at hr2
    have hrr : r = r2 := Option.some.inj hr2
    subst hrr
    obtain ⟨b2, hb2, hwf, _⟩ := makemove_spec ih hp (hiff.mp hr).1
    rw [hm] at hb2
    rw [Option.some.inj hb2]
    exact hwf

/-- C12 (board invariant): every board reached from the board of
`initialise_board` by `makemove` calls, each with a move `legalp` accepts for
the moving side, is well-formed (border cells `OUTER`, playable cells `EMPTY`,
`BLACK` or `WHITE`), and on it `makemove` returns for every such move, again
with a reached board. -/
theorem board_invariant (b : Board) (h : Reachable b) :
    (b.length = 100 ∧
      ∀ i, i < 100 →
        if isBorder i then b[i]? = some OUTER
        else (b[i]? = some EMPTY ∨ b[i]? = some BLACK ∨ b[i]? = some WHITE)) ∧
    ∀ m p r : Int, IsSide p → legalp b m p = some r → r ≠ 0 →
      ∃ b1, makemove b m p = some b1 ∧ Reachable b1 := by
  have hwf := reachable_wf h
  refine ⟨hwf, ?_⟩
  intro m p r hp hl hr
  obtain ⟨r2, hr2, _, hiff⟩ := legalp_spec hwf hp m
  rw [hl] at hr2
  have hrr : r = r2 := Option.some.inj hr2
  subst hrr
  obtain ⟨b1, hb1, _⟩ := makemove_spec hwf hp (hiff.mp hr).1
  exact ⟨b1, hb1, Reachable.step h hp hl hr hb1⟩

set_option maxRecDepth 100000 in
theorem afterFirstMove_reachable : Reachable afterFirstMove :=
  Reachable.step (m := 34) (p := BLACK) (r := 1) Reachable.init (by decide) (by decide)
    (by decide) (by decide)

/-- Witness of C12: the board after `BLACK` plays 34 on the starting position. -/
theorem board_invariant_witness :
    Reachable afterFirstMove ∧
    ((afterFirstMove.length = 100 ∧
      ∀ i, i < 100 →
        if isBorder i then afterFirstMove[i]? = some OUTER
        else (afterFirstMove[i]? = some EMPTY ∨ afterFirstMove[i]? = some BLACK ∨
          afterFirstMove[i]? = some WHITE)) ∧
    ∀ m p r : Int, IsSide p → legalp afterFirstMove m p = some r → r ≠ 0 →
      ∃ b1, makemove afterFirstMove m p = some b1 ∧ Reachable b1) :=
  ⟨afterFirstMove_reachable, board_invariant afterFirstMove afterFirstMove_reachable⟩

/-! ## Move text -/

theorem get_move_string_cons (loc : Int) (a b c d : Char) (rest : List Char) :
    get_move_string loc (a :: b :: c :: d :: rest) =
      some (toChar (Int.tdiv (loc - (9 + 2 * Int.tdiv loc 10)) 8 + 48) ::
        toChar (Int.tmod (loc - (9 + 2 * Int.tdiv loc 10)) 8 + 48) ::
        Char.ofNat 10 :: NUL :: rest) := by
  unfold get_move_string
  simp

theorem move_text_cell (r c : Int) (hr0 : 0 ≤ r) (hr7 : r ≤ 7) (hc0 : 0 ≤ c) (hc7 : c ≤ 7) :
    toChar (Int.tdiv (10 * (r + 1) + c + 1 - (9 + 2 * Int.tdiv (10 * (r + 1) + c + 1) 10)) 8
        + 48) = digitChar r ∧
    toChar (Int.tmod (10 * (r + 1) + c + 1 - (9 + 2 * Int.tdiv (10 * (r + 1) + c + 1) 10)) 8
        + 48) = digitChar c ∧
    10 * (((digitChar r).toNat : Int) - 48 + 1) + (((digitChar c).toNat : Int) - 48) + 1
      = 10 * (r + 1) + c + 1 ∧
    digitChar r ≠ NUL ∧ digitChar c ≠ NUL := by
  interval_cases r <;> interval_cases c <;> decide

/-- C13 (move text round trip): for row `r` and column `c` in `0 .. 7` and the
cell `loc = 10*(r+1) + c + 1`, `get_move_string(loc)` writes the digit of `r`,
the digit of `c`, a newline and a NUL into a buffer of at least 4 characters, and
`get_loc` of that buffer returns `loc`. -/
theorem move_text_round_trip (r c : Int) (ms : List Char)
    (hr0 : 0 ≤ r) (hr7 : r ≤ 7) (hc0 : 0 ≤ c) (hc7 : c ≤ 7) (hlen : 4 ≤ ms.length) :
    ∃ ms1, get_move_string (10 * (r + 1) + c + 1) ms = some ms1 ∧
      ms1[0]? = some (digitChar r) ∧ ms1[1]? = some (digitChar c) ∧
      cstr ms1 = [digitChar r, digitChar c, Char.ofNat 10] ∧
      get_loc ms1 = some (10 * (r + 1) + c + 1) := by
  obtain ⟨a, b, c1, d, rest, rfl⟩ : ∃ a b c1 d rest, ms = a :: b :: c1 :: d :: rest := by
    match ms, hlen with
    | a :: b :: c1 :: d :: rest, _ => exact ⟨a, b, c1, d, rest, rfl⟩
  obtain ⟨h1, h2, h3, h4, h5⟩ := move_text_cell r c hr0 hr7 hc0 hc7
  rw [get_move_string_cons, h1, h2]
  have h10 : Char.ofNat 10 ≠ NUL := by decide
  have hc : cstr (digitChar r :: digitChar c :: Char.ofNat 10 :: NUL :: rest) =
      [digitChar r, digitChar c, Char.ofNat 10] := by
    simp [cstr, List.takeWhile, h4, h5, h10]
  have hg : get_loc (digitChar r :: digitChar c :: Char.ofNat 10 :: NUL :: rest) =
      some (10 * (r + 1) + c + 1) := by
    unfold get_loc
    simp only
    rw [← h3]
  exact ⟨_, rfl, rfl, rfl, hc, hg⟩

/-- Witness of C13: the top-left cell 11 is written as `"00"` and read back. -/
theorem move_text_round_trip_witness :
    (0 : Int) ≤ 0 ∧ (0 : Int) ≤ 7 ∧ (0 : Int) ≤ 0 ∧ (0 : Int) ≤ 7 ∧
    4 ≤ (List.replicate 6 NUL).length ∧
    ∃ ms1, get_move_string (10 * (0 + 1) + 0 + 1) (List.replicate 6 NUL) = some ms1 ∧
      ms1[0]? = some (digitChar 0) ∧ ms1[1]? = some (digitChar 0) ∧
      cstr ms1 = [digitChar 0, digitChar 0, Char.ofNat 10] ∧
      get_loc ms1 = some (10 * (0 + 1) + 0 + 1) :=
  ⟨by decide, by decide, by decide, by decide, by decide,
    move_text_round_trip 0 0 (List.replicate 6 NUL) (by decide) (by decide) (by decide)
      (by decide) (by decide)⟩

/-! ## Opponent moves -/

set_option maxRecDepth 100000 in
/-- C14 (counterexample): on the starting position with `my_colour = BLACK`, the
move string `"00"` denotes cell 11, which `legalp` rejects for `WHITE`; it is not
the pass text, and `play_move` writes `WHITE` into cell 11: the board is not left
unchanged. -/
theorem play_move_applies_illegal_move :
    legalp searchSample.board 11 (opponent searchSample.my_colour) = some 0 ∧
    cstr ['0', '0', NUL] ≠ passText ∧ cstr ['0', '0', NUL] ≠ PASS ∧
    get_loc ['0', '0', NUL] = some 11 ∧
    (play_move searchSample ['0', '0', NUL]).map (fun s => s.board)
      = some (searchSample.board.set 11 WHITE) ∧
    (play_move searchSample ['0', '0', NUL]).map (fun s => s.board)
      ≠ some searchSample.board := by decide

/-- C14 (amended): for the string `"pass"`, `play_move` returns and leaves the
board unchanged.  For every other string it applies `makemove` to the cell
`get_loc` reads, for the opponent of `my_colour` (`WHITE` taken as `my_colour`
when it was unset), with no legality test: the board afterwards is the one
`makemove` returns, and on a well-formed board a string denoting a playable
cell leaves that cell holding the opponent, whatever `legalp` says of it. -/
theorem play_move_applies (st : State) (move : List Char) :
    (cstr move = passText → ∃ st1, play_move st move = some st1 ∧ st1.board = st.board) ∧
    (cstr move ≠ passText → ∀ loc, get_loc move = some loc →
      (play_move st move).map (fun s => s.board) =
        makemove st.board loc
          (opponent (if st.my_colour = EMPTY then WHITE else st.my_colour))) ∧
    (cstr move ≠ passText → ∀ loc, get_loc move = some loc → WellFormed st.board →
      Playable loc → IsSide (if st.my_colour = EMPTY then WHITE else st.my_colour) →
      ∃ st1, play_move st move = some st1 ∧ WellFormed st1.board ∧
        rd st1.board loc =
          some (opponent (if st.my_colour = EMPTY then WHITE else st.my_colour))) := by
  have hmap : cstr move ≠ passText → ∀ loc, get_loc move = some loc →
      (play_move st move).map (fun s => s.board) =
        makemove st.board loc
          (opponent (if st.my_colour = EMPTY then WHITE else st.my_colour)) := by
    intro hne loc hloc
    unfold play_move
    by_cases hc : st.my_colour = EMPTY
    · simp only [if_pos hc, if_neg hne, hloc]
      cases makemove st.board loc (opponent WHITE) with
      | none => rfl
      | some b1 => rfl
    · simp only [if_neg hc, if_neg hne, hloc]
      cases makemove st.board loc (opponent st.my_colour) with
      | none => rfl
      | some b1 => rfl
  refine ⟨?_, hmap, ?_⟩
  · intro hpass
    unfold play_move
    by_cases hc : st.my_colour = EMPTY
    · simp only [if_pos hc, if_pos hpass]
      exact ⟨_, rfl, rfl⟩
    · simp only [if_neg hc, if_pos hpass]
      exact ⟨_, rfl, rfl⟩
  · intro hne loc hloc hwf hpl hside
    obtain ⟨b1, hb1, hwf1, hcell, _⟩ := makemove_spec hwf (opponent_side hside) hpl
    have h := hmap hne loc hloc
    rw [hb1] at h
    cases hp : play_move st move with
    | none => rw [hp] at h; simp at h
    | some st1 =>
      rw [hp] at h
      simp only [Option.map, Option.some.injEq] at h
      exact ⟨st1, rfl, by rw [h]; exact hwf1, by rw [h]; exact hcell⟩

/-! ## What the evaluator sums -/

theorem evaluateLoop_sum {g : Board} (hg : WellFormed g) {p : Int} (hp : IsSide p) :
    ∀ (cells : List Int) (x y : Int),
      evaluateLoop g p cells x y = some
        (((cells.filter fun c => decide (Playable c) && decide (legalp g c p = some 1)).map
            weightAt).sum + x,
         ((cells.filter fun c =>
            decide (Playable c) && decide (legalp g c (opponent p) = some 1)).map
            weightAt).sum + y) := by
  intro cells
  induction cells with
  | nil => intro x y; simp [evaluateLoop]
  | cons move rest ih =>
    intro x y
    obtain ⟨r1, h1, h01, hiff1⟩ := legalp_spec hg hp move
    obtain ⟨r2, h2, h02, hiff2⟩ := legalp_spec hg (opponent_side hp) move
    unfold evaluateLoop
    rw [h1, h2]
    simp only
    rw [ih]
    have hp1 : r1 = 1 → Playable move := fun h => (hiff1.mp (by rw [h]; decide)).1
    have hp2 : r2 = 1 → Playable move := fun h => (hiff2.mp (by rw [h]; decide)).1
    rw [List.filter_cons, List.filter_cons, h1, h2]
    rcases h01 with rfl | rfl <;> rcases h02 with rfl | rfl
    · simp
    · have := hp2 rfl
      simp [this]; ring
    · have := hp1 rfl
      simp [this]; ring
    · have := hp1 rfl
      simp [this]; constructor <;> ring

theorem evaluate_board_arg (g b1 b2 : Board) (p : Int) :
    evaluate_board g b1 p = evaluate_board g b2 p := rfl

/-- On a board without `WHITE` pieces neither side has a legal move. -/
theorem mobility_one_colour {b : Board} (hb : WellFormed b) {p : Int} (hp : IsSide p)
    (h : ∀ v ∈ b, v ≠ WHITE) : mobility b p = 0 := by
  unfold mobility
  have : (scanCells.filter fun c => decide (Playable c) && decide (legalp b c p = some 1))
      = [] := by
    rw [List.filter_eq_nil_iff]
    intro c _
    simp [legalp_one_colour hb hp h c]
  rw [this]
  rfl

theorem weight_sum_bounds (f : Int → Bool) :
    ∀ cells : List Int, (∀ c ∈ cells, 0 ≤ weightAt c) →
      0 ≤ ((cells.filter f).map weightAt).sum ∧
      ((cells.filter f).map weightAt).sum ≤ (cells.map weightAt).sum := by
  intro cells
  induction cells with
  | nil => intro _; simp
  | cons c rest ih =>
    intro h
    have hc := h c (List.mem_cons_self _ _)
    obtain ⟨h0, h1⟩ := ih fun x hx => h x (List.mem_cons_of_mem _ hx)
    rw [List.filter_cons]
    by_cases hf : f c = true
    · simp only [hf, if_true, List.map_cons, List.sum_cons]
      constructor <;> omega
    · simp only [hf, List.map_cons, List.sum_cons]
      constructor
      · exact h0
      · simp only [Bool.false_eq_true, if_false]
        omega

theorem mobility_bounds (b : Board) (p : Int) : 0 ≤ mobility b p ∧ mobility b p ≤ 368 := by
  have hw : ∀ c ∈ scanCells, 0 ≤ weightAt c := by decide
  have hs : (scanCells.map weightAt).sum = 368 := by decide
  have h := weight_sum_bounds
    (fun c => decide (Playable c) && decide (legalp b c p = some 1)) scanCells hw
  rw [hs] at h
  exact h

theorem evaluate_board_mobility {g : Board} (hg : WellFormed g) {p : Int} (hp : IsSide p)
    (b : Board) : evaluate_board g b p = some (mobility g p - mobility g (opponent p)) := by
  unfold evaluate_board mobility
  rw [evaluateLoop_sum hg hp]
  simp

theorem evaluate_board_bounds {g : Board} (hg : WellFormed g) {p : Int} (hp : IsSide p)
    {b : Board} {score : Int} (h : evaluate_board g b p = some score) :
    -368 ≤ score ∧ score ≤ 368 := by
  rw [evaluate_board_mobility hg hp] at h
  have h1 := mobility_bounds g p
  have h2 := mobility_bounds g (opponent p)
  simp only [Option.some.injEq] at h
  omega

set_option maxRecDepth 1000000 in
theorem eval_afterMove33 : evaluate_board afterMove33 afterMove33 BLACK = some (-1) := by
  decide!

theorem eval_afterMove33_white : evaluate_board afterMove33 afterMove33 WHITE = some 1 := by
  have h := evaluate_board_neg afterMove33 afterMove33
  rw [eval_afterMove33] at h
  cases hw : evaluate_board afterMove33 afterMove33 WHITE with
  | none => rw [hw] at h; simp at h
  | some v =>
    rw [hw] at h
    simp only [Option.map, Option.some.injEq] at h
    have hv : v = 1 := by omega
    rw [hv]

set_option maxRecDepth 100000 in
/-- C16 (code evaluated at the failing input): with `afterMove33` as the
process's board and a board without `WHITE` pieces passed as argument,
`evaluate_board` returns -1, the evaluation of the process's board for `BLACK`,
while on the argument neither side has a legal move and the weighted-mobility
difference is 0: the parameter `board` is never read. -/
theorem evaluate_board_ignores_argument :
    evaluate_board afterMove33 passSample.board BLACK = some (-1) ∧
    mobility passSample.board BLACK - mobility passSample.board (opponent BLACK) = 0 ∧
    evaluate_board afterMove33 passSample.board BLACK ≠
      some (mobility passSample.board BLACK - mobility passSample.board (opponent BLACK)) := by
  have hwf := passSample_wf
  have hno := passSample_one_colour
  have h1 : evaluate_board afterMove33 passSample.board BLACK = some (-1) :=
    (evaluate_board_arg _ _ _ _).trans eval_afterMove33
  have h2 : mobility passSample.board BLACK = 0 :=
    mobility_one_colour hwf (by decide) hno
  have h3 : mobility passSample.board (opponent BLACK) = 0 :=
    mobility_one_colour hwf (by decide) hno
  refine ⟨h1, by rw [h2, h3]; rfl, ?_⟩
  rw [h1, h2, h3]
  decide

/-- What `evaluate_board` computes: for every well-formed global board `g`, every
board `b` passed as argument and every side `p`, `evaluate_board(b, p)` returns
the sum of `weights[c]` over the playable cells at which `p` has a legal move on
`g`, minus the same sum for the opponent on `g`, whatever `b` holds. -/
theorem evaluate_board_global (g b : Board) (p : Int) (hg : WellFormed g) (hp : IsSide p) :
    evaluate_board g b p = some (mobility g p - mobility g (opponent p)) := by
  unfold evaluate_board mobility
  rw [evaluateLoop_sum hg hp]
  simp

set_option maxRecDepth 100000 in
/-- An instance of `evaluate_board_global`: the starting position as global
board, another board as argument. -/
theorem evaluate_board_global_witness :
    WellFormed initialise_board ∧ IsSide BLACK ∧
    evaluate_board initialise_board afterSecondMove BLACK =
      some (mobility initialise_board BLACK - mobility initialise_board (opponent BLACK)) :=
  ⟨by decide, by decide,
    evaluate_board_global initialise_board afterSecondMove BLACK (by decide) (by decide)⟩

/-! ## The search one ply above the depth limit -/

theorem minimax_terminal (st : State) (board : BoardPtr)
    (current_depth max_depth player alpha beta : Int) (inbox : List PeerInput)
    (h : current_depth ≥ max_depth) :
    minimax st board current_depth max_depth player alpha beta inbox =
      evalResult st board player inbox := by
  unfold minimax
  cases (max_depth - current_depth).toNat with
  | zero => unfold minimaxFuel; rw [if_pos h]
  | succ n => unfold minimaxFuel; rw [if_pos h]

theorem evalResult_of {st : State} {board : BoardPtr} {player v : Int}
    (inbox : List PeerInput) (h : evaluate_board st.board st.board player = some v) :
    evalResult st board player inbox = some (st, v, inbox) := by
  unfold evalResult
  have h2 : evaluate_board st.board (deref st board) player = some v := h
  rw [h2]

theorem minimaxLoop_nil
    (child : State → BoardPtr → Int → Int → List PeerInput → Option SearchResult)
    (current_depth player : Int) (st : State) (board : BoardPtr) (alpha beta : Int)
    (inbox : List PeerInput) :
    minimaxLoop child current_depth player [] st board alpha beta inbox
      = some (st, alpha, beta, inbox) := by
  unfold minimaxLoop
  rfl

/-- One sibling of the loop when the child is at the depth limit. -/
theorem leaf_step (q current_depth player i : Int) (rest : List Int) (st : State)
    (board : BoardPtr) (alpha beta : Int) (inbox : List PeerInput)
    (hg : GoodState st) (hptr : GoodPtr board) (hp : IsSide player) (hq : IsSide q)
    {mv : Int} (hmv : rd st.moves i = some mv) (hpl : Playable mv) :
    ∃ b2 score board4, makemove st.board mv player = some b2 ∧ WellFormed b2 ∧
      rd b2 mv = some player ∧ evaluate_board b2 b2 q = some score ∧
      board4.length = 100 ∧
      minimaxLoop (leafChild q) current_depth player (i :: rest) st board alpha beta inbox =
        if (if player = st.my_colour ∧ score > alpha then score else alpha) >
            (if player = opponent st.my_colour ∧ score < beta then score else beta) then
          if current_depth < 2 then
            some ((alpha_beta_sharing { st with allocs := st.allocs + 1 + 1, board := b2 }
                (if player = st.my_colour ∧ score > alpha then score else alpha)
                (if player = opponent st.my_colour ∧ score < beta then score else beta)
                (inbox.headD fun _ => none)).1,
              if player = st.my_colour ∧ score > alpha then score else alpha,
              if player = opponent st.my_colour ∧ score < beta then score else beta,
              inbox.tail)
          else
            some ({ st with allocs := st.allocs + 1 + 1, board := b2 },
              if player = st.my_colour ∧ score > alpha then score else alpha,
              if player = opponent st.my_colour ∧ score < beta then score else beta, inbox)
        else
          minimaxLoop (leafChild q) current_depth player rest
            { st with allocs := st.allocs + 1 + 1, board := b2 } (BoardPtr.block board4)
            (if player = st.my_colour ∧ score > alpha then score else alpha)
            (if player = opponent st.my_colour ∧ score < beta then score else beta) inbox := by
  obtain ⟨t, hcopy, tlen⟩ := copy_board_total st (deref_length hg hptr)
  obtain ⟨b2, hb2, wf2, hcell, _⟩ := makemove_spec hg.1 hp hpl
  obtain ⟨score, hscore⟩ := evaluate_board_total wf2 hq b2
  obtain ⟨board4, hcopy4, len4⟩ :=
    copy_board_total { st with allocs := st.allocs + 1, board := b2 } tlen
  refine ⟨b2, score, board4, hb2, wf2, hcell, hscore, len4, ?_⟩
  have hchild : leafChild q { st with allocs := st.allocs + 1, board := b2 } board alpha beta
      inbox = some ({ st with allocs := st.allocs + 1, board := b2 }, score, inbox) := by
    unfold leafChild evalResult
    have : evaluate_board ({ st with allocs := st.allocs + 1, board := b2 } : State).board
        (deref { st with allocs := st.allocs + 1, board := b2 } board) q = some score := hscore
    rw [this]
  rw [minimaxLoop.eq_2, hcopy]
  simp only
  rw [hmv]
  simp only
  rw [hb2]
  simp only
  rw [hchild]
  simp only
  rw [hcopy4]

/-- The loop one ply above the depth limit, for the root side as mover and a
window whose upper bound no evaluation reaches: no cutoff occurs, every listed
index is expanded, and each sibling's move is applied to the board the earlier
siblings left. -/
theorem leaf_loop_no_cutoff (q current_depth player : Int) (hp : IsSide player)
    (hq : IsSide q) :
    ∀ (idx : List Int) (st : State) (board : BoardPtr) (alpha beta : Int)
      (inbox : List PeerInput),
      GoodState st → GoodPtr board → player = st.my_colour → alpha ≤ beta → 368 < beta →
      (∀ i ∈ idx, HoldsMove st.moves i) →
      ∃ bfin alpha1, playAll player st.board (idx.filterMap (rd st.moves)) = some bfin ∧
        WellFormed bfin ∧ alpha1 ≤ beta ∧
        minimaxLoop (leafChild q) current_depth player idx st board alpha beta inbox =
          some ({ st with board := bfin, allocs := st.allocs + 2 * idx.length },
            alpha1, beta, inbox) := by
  intro idx
  induction idx with
  | nil =>
    intro st board alpha beta inbox hg _ _ hab _ _
    exact ⟨st.board, alpha, rfl, hg.1, hab, by rw [minimaxLoop_nil]; rfl⟩
  | cons i rest ih =>
    intro st board alpha beta inbox hg hptr hpm hab hbig hidx
    obtain ⟨mv, hmv, hpl⟩ := hidx i (List.mem_cons_self _ _)
    obtain ⟨b2, score, board4, hb2, wf2, _, hscore, len4, hstep⟩ :=
      leaf_step q current_depth player i rest st board alpha beta inbox hg hptr hp hq hmv hpl
    have hbound := evaluate_board_bounds wf2 hq hscore
    have hne : ¬ (player = opponent st.my_colour) := by
      rw [← hpm]; exact fun h => opponent_ne hp h.symm
    have hb1 : (if player = opponent st.my_colour ∧ score < beta then score else beta) = beta :=
      if_neg fun h => hne h.1
    have ha1 : (if player = st.my_colour ∧ score > alpha then score else alpha) ≤ beta := by
      split
      · omega
      · exact hab
    rw [hb1] at hstep
    rw [if_neg (not_lt.mpr ha1)] at hstep
    have hg2 : GoodState { st with allocs := st.allocs + 1 + 1, board := b2 } :=
      ⟨wf2, hg.2.1, hg.2.2⟩
    obtain ⟨bfin, alpha2, hplay, wffin, hle, hloop⟩ :=
      ih { st with allocs := st.allocs + 1 + 1, board := b2 } (BoardPtr.block board4)
        (if player = st.my_colour ∧ score > alpha then score else alpha) beta inbox hg2 len4
        hpm ha1 hbig (fun j hj => hidx j (List.mem_cons_of_mem _ hj))
    refine ⟨bfin, alpha2, ?_, wffin, hle, ?_⟩
    · rw [List.filterMap_cons, hmv]
      simp only [playAll, hb2]
      exact hplay
    · rw [hstep, hloop]
      have : st.allocs + 1 + 1 + 2 * rest.length = st.allocs + 2 * (i :: rest).length := by
        simp only [List.length_cons]; omega
      simp only [this]

theorem minimax_one_ply (st : State) (board : BoardPtr)
    (current_depth max_depth player alpha beta : Int) (inbox : List PeerInput)
    (h : current_depth + 1 = max_depth) :
    minimax st board current_depth max_depth player alpha beta inbox =
      minimaxBody (leafChild (opponent player)) st board current_depth player alpha beta
        inbox := by
  have h1 : (max_depth - current_depth).toNat = 0 + 1 := by omega
  have h2 : ¬ current_depth ≥ max_depth := by omega
  have h3 : (fun s b a be ib =>
      minimaxFuel 0 s b (current_depth + 1) max_depth (opponent player) a be ib) =
      leafChild (opponent player) := by
    funext s b a be ib
    unfold minimaxFuel leafChild
    rw [if_pos (by omega)]
  unfold minimax
  rw [h1]
  unfold minimaxFuel
  rw [if_neg h2, h3]

/-- A node at which `legalmoves(my_colour)` reports exactly one move expands
nothing: the loop `for (i = 1; i < num_moves; i++)` has no iteration, and the
node returns `alpha` or `beta` as it received it. -/
theorem minimaxBody_single_move
    (child : State → BoardPtr → Int → Int → List PeerInput → Option SearchResult)
    (st : State) (board : BoardPtr) (current_depth player alpha beta : Int)
    (inbox : List PeerInput) {ms : List Int}
    (hl : legalmoves st.board st.moves st.my_colour = some ms) (h1 : rd ms 0 = some 1) :
    minimaxBody child st board current_depth player alpha beta inbox =
      some ({ st with moves := ms }, if player = st.my_colour then alpha else beta, inbox) := by
  unfold minimaxBody
  rw [hl]
  simp only
  rw [h1]
  simp only [one_ne_zero, if_false, sub_self, Int.toNat_zero, List.range'_zero, List.map_nil,
    minimaxLoop_nil]
  split <;> rfl

set_option maxRecDepth 100000 in
theorem playAll_start :
    playAll BLACK initialise_board [34, 43, 56] = some afterSiblings := by decide

set_option maxRecDepth 100000 in
theorem wf_start : WellFormed initialise_board := by decide

/-- The body of `minimax` when `legalmoves(my_colour)` reports `n ≠ 0` moves and
the loop over `1 .. n-1` returns. -/
theorem minimaxBody_loop
    (child : State → BoardPtr → Int → Int → List PeerInput → Option SearchResult)
    (st : State) (board : BoardPtr) (current_depth player alpha beta : Int)
    (inbox : List PeerInput) {ms : List Int} {n : Int} {idx : List Int}
    (hl : legalmoves st.board st.moves st.my_colour = some ms) (hn : rd ms 0 = some n)
    (hn0 : n ≠ 0) (hidx : (List.range' 1 (n - 1).toNat).map Int.ofNat = idx)
    {st2 : State} {alpha2 beta2 : Int} {inbox2 : List PeerInput}
    (hloop : minimaxLoop child current_depth player idx { st with moves := ms } board alpha
      beta inbox = some (st2, alpha2, beta2, inbox2)) :
    minimaxBody child st board current_depth player alpha beta inbox =
      some (st2, if player = st2.my_colour then alpha2 else beta2, inbox2) := by
  unfold minimaxBody
  rw [hl]
  simp only
  rw [hn]
  simp only
  rw [if_neg hn0, hidx, hloop]
  simp only
  split <;> rfl

theorem legalmoves_searchSample :
    legalmoves searchSample.board searchSample.moves searchSample.my_colour =
      some startMoves :=
  legalmoves_start (by decide)

theorem startMoves_holds : ∀ i ∈ [(1 : Int), 2, 3], HoldsMove startMoves i := by
  intro i hi
  simp only [List.mem_cons, List.mem_singleton, List.not_mem_nil, or_false] at hi
  rcases hi with rfl | rfl | rfl
  · exact ⟨34, by decide, by decide⟩
  · exact ⟨43, by decide, by decide⟩
  · exact ⟨56, by decide, by decide⟩

theorem startMoves_cells : [(1 : Int), 2, 3].filterMap (rd startMoves) = [34, 43, 56] := by
  decide

theorem start_loop :
    ∃ alpha1, minimaxLoop (leafChild (opponent BLACK)) 0 BLACK [1, 2, 3]
        { searchSample with moves := startMoves } BoardPtr.global (-1000) 1000 [] =
      some ({ searchSample with moves := startMoves, board := afterSiblings, allocs := 6 },
        alpha1, 1000, []) := by
  obtain ⟨bfin, alpha1, hplay, _, _, hloop⟩ :=
    leaf_loop_no_cutoff (opponent BLACK) 0 BLACK (by decide) (by decide) [1, 2, 3]
      { searchSample with moves := startMoves } BoardPtr.global (-1000) 1000 []
      ⟨wf_start, by decide, by decide⟩ trivial rfl (by decide) (by decide) startMoves_holds
  have hplay2 : playAll BLACK initialise_board ([(1 : Int), 2, 3].filterMap (rd startMoves))
      = some bfin := hplay
  rw [startMoves_cells, playAll_start] at hplay2
  have hb : afterSiblings = bfin := Option.some.inj hplay2
  rw [hb]
  exact ⟨alpha1, hloop⟩

/-- The root of the search on the starting position, `BLACK` to move, depth 0 of
1, window -1000 .. 1000. -/
theorem minimax_start_outcome :
    ∃ r, minimax searchSample BoardPtr.global 0 1 BLACK (-1000) 1000 [] = some r ∧
      r.1.allocs = 6 ∧ r.1.board = afterSiblings := by
  obtain ⟨alpha1, hloop⟩ := start_loop
  rw [minimax_one_ply _ _ _ _ _ _ _ _ (by decide)]
  exact ⟨_, minimaxBody_loop _ _ _ _ _ _ _ _ legalmoves_searchSample
    (by decide : rd startMoves 0 = some 4) (by decide) (by decide) hloop, rfl, rfl⟩

set_option maxRecDepth 1000000 in
theorem legalCells_white :
    legalCells afterFirstMove WHITE scanCells = some [33, 35, 53] := by decide!

set_option maxRecDepth 1000000 in
theorem legalCells_edge : legalCells edgeBoard BLACK scanCells = some [11] := by decide!

theorem legalmoves_whiteSample :
    legalmoves whiteSample.board whiteSample.moves whiteSample.my_colour =
      some whiteMoves := by
  have h : legalmoves afterFirstMove whiteSample.moves WHITE = _ :=
    legalmoves_of_cells (by decide) legalCells_white
  exact h.trans (by decide)

theorem legalmoves_edge :
    legalmoves edgeBoard searchSample.moves BLACK = some edgeMoves :=
  (legalmoves_of_cells (by decide) legalCells_edge).trans (by decide)

set_option maxRecDepth 100000 in
theorem makemove_33 : makemove afterFirstMove 33 WHITE = some afterMove33 := by decide

theorem wf_afterFirstMove : WellFormed afterFirstMove := reachable_wf afterFirstMove_reachable

/-- C17 (code evaluated at the failing input): on the board `afterMove33`, with
`my_colour = WHITE`, the evaluation for the root side `WHITE` is 1.  Called at
the depth limit with `BLACK` to move, `minimax` returns -1, the evaluation for
`BLACK`: the score is `evaluate_board(board, player)`. -/
theorem terminal_evaluation_for_mover :
    ({ whiteSample with board := afterMove33 } : State).my_colour = WHITE ∧
    evaluate_board afterMove33 afterMove33 WHITE = some 1 ∧
    (minimax { whiteSample with board := afterMove33 } BoardPtr.global 1 1 BLACK
      (-1000) 1000 []).map (fun r => r.2.1) = some (-1) := by
  refine ⟨rfl, eval_afterMove33_white, ?_⟩
  have h : evaluate_board ({ whiteSample with board := afterMove33 } : State).board
      ({ whiteSample with board := afterMove33 } : State).board BLACK
      = some (-1) := eval_afterMove33
  rw [minimax_terminal _ _ _ _ _ _ _ _ (le_refl 1), evalResult_of [] h]
  rfl

set_option maxRecDepth 100000 in
/-- C18 (code evaluated at the failing input): on the starting position `BLACK`
has the 4 legal moves 34, 43, 56, 65.  At the root (`BLACK` to move, depth 0 of
1, window -1000 .. 1000, no cutoff) `minimax` copies the board 6 times, twice
per sibling, and leaves 34, 43 and 56 holding `BLACK` and 65 `EMPTY`: the last
legal move is not expanded.  On a board where `BLACK` has the single legal move
11, with `my_colour = BLACK`, it expands nothing, whichever side is to move, and
returns `alpha` resp. `beta` as received. -/
theorem search_skips_last_move :
    legalCells initialise_board BLACK scanCells = some [34, 43, 56, 65] ∧
    (minimax searchSample BoardPtr.global 0 1 BLACK (-1000) 1000 []).map
      (fun r => (r.1.allocs, rd r.1.board 34, rd r.1.board 43, rd r.1.board 56,
        rd r.1.board 65))
      = some (6, some BLACK, some BLACK, some BLACK, some EMPTY) ∧
    legalCells edgeBoard BLACK scanCells = some [11] ∧
    (minimax { searchSample with board := edgeBoard } BoardPtr.global 0 1 BLACK
      (-1000) 1000 []).map (fun r => (r.2.1, r.1.allocs, r.1.board))
      = some (-1000, 0, edgeBoard) ∧
    (minimax { searchSample with board := edgeBoard } BoardPtr.global 0 1 WHITE
      (-1000) 1000 []).map (fun r => (r.2.1, r.1.allocs, r.1.board))
      = some (1000, 0, edgeBoard) := by
  have hedge : legalmoves ({ searchSample with board := edgeBoard } : State).board
      ({ searchSample with board := edgeBoard } : State).moves
      ({ searchSample with board := edgeBoard } : State).my_colour = some edgeMoves :=
    legalmoves_edge
  have hone : rd edgeMoves 0 = some 1 := by decide
  refine ⟨legalCells_start, ?_, legalCells_edge, ?_, ?_⟩
  · obtain ⟨r, hr, ha, hb⟩ := minimax_start_outcome
    rw [hr]
    simp only [Option.map, ha, hb]
    decide
  · rw [minimax_one_ply _ _ _ _ _ _ _ _ (by decide),
      minimaxBody_single_move _ _ _ _ _ _ _ _ hedge hone]
    rfl
  · rw [minimax_one_ply _ _ _ _ _ _ _ _ (by decide),
      minimaxBody_single_move _ _ _ _ _ _ _ _ hedge hone]
    rfl

set_option maxRecDepth 100000 in
/-- C19 (code evaluated at the failing input): after `minimax` returns from the
root of the starting position (`BLACK` to move, depth 0 of 1) the process's
board is not the starting position: the cells 34, 43 and 56 of the three
siblings, `EMPTY` before the call, all hold `BLACK`, so the second and third
sibling were applied to a board that already held the earlier ones, and nothing
was restored. -/
theorem search_leaves_moves_on_board :
    (minimax searchSample BoardPtr.global 0 1 BLACK (-1000) 1000 []).map
      (fun r => r.1.board) = some afterSiblings ∧
    afterSiblings ≠ searchSample.board ∧
    rd searchSample.board 34 = some EMPTY ∧ rd searchSample.board 43 = some EMPTY ∧
    rd searchSample.board 56 = some EMPTY ∧
    rd afterSiblings 34 = some BLACK ∧ rd afterSiblings 43 = some BLACK ∧
    rd afterSiblings 56 = some BLACK := by
  refine ⟨?_, ?_, by decide, by decide, by decide, by decide, by decide, by decide⟩
  · obtain ⟨r, hr, _, hb⟩ := minimax_start_outcome
    rw [hr]
    simp only [Option.map, hb]
  · intro h
    have h34 : rd afterSiblings 34 = rd searchSample.board 34 := by rw [h]
    revert h34
    decide

/-! ## The cutoff test -/

/-- The loop at the root of `whiteSample` on the window -1000 .. -1: after the
first sibling `alpha = beta = -1`, and the second sibling is still expanded. -/
theorem white_loop :
    ∃ r, minimaxLoop (leafChild (opponent WHITE)) 0 WHITE [1, 2]
        { whiteSample with moves := whiteMoves } BoardPtr.global (-1000) (-1) [] = some r ∧
      r.1.allocs = 4 ∧ rd r.1.board 33 = some WHITE ∧ rd r.1.board 35 = some WHITE := by
  obtain ⟨b2, score, board4, hb2, wf2, hcell2, hscore, len4, hstep⟩ :=
    leaf_step (opponent WHITE) 0 WHITE 1 [2] { whiteSample with moves := whiteMoves }
      BoardPtr.global (-1000) (-1) [] ⟨wf_afterFirstMove, by decide, by decide⟩ trivial
      (by decide) (by decide) (by decide : rd whiteMoves 1 = some 33) (by decide)
  have hb2a : makemove afterFirstMove 33 WHITE = some b2 := hb2
  rw [makemove_33] at hb2a
  have hb : afterMove33 = b2 := Option.some.inj hb2a
  subst hb
  have hsc : evaluate_board afterMove33 afterMove33 BLACK = some score := hscore
  rw [eval_afterMove33] at hsc
  have hs : (-1 : Int) = score := Option.some.inj hsc
  subst hs
  have ha : (if WHITE = ({ whiteSample with moves := whiteMoves } : State).my_colour ∧
      (-1 : Int) > -1000 then (-1 : Int) else -1000) = -1 := by decide
  have hbe : (if WHITE = opponent ({ whiteSample with moves := whiteMoves } : State).my_colour ∧
      (-1 : Int) < -1 then (-1 : Int) else -1) = -1 := by decide
  rw [ha, hbe, if_neg (by decide)] at hstep
  have hstep2 : minimaxLoop (leafChild (opponent WHITE)) 0 WHITE [1, 2]
      { whiteSample with moves := whiteMoves } BoardPtr.global (-1000) (-1) [] =
      minimaxLoop (leafChild (opponent WHITE)) 0 WHITE [2]
        { whiteSample with moves := whiteMoves, allocs := 0 + 1 + 1, board := afterMove33 }
        (BoardPtr.block board4) (-1) (-1) [] := hstep
  obtain ⟨b3, score3, board5, hb3, wf3, hcell3, _, _, hstep3⟩ :=
    leaf_step (opponent WHITE) 0 WHITE 2 []
      { whiteSample with moves := whiteMoves, allocs := 0 + 1 + 1, board := afterMove33 }
      (BoardPtr.block board4) (-1) (-1) [] ⟨wf2, by decide, by decide⟩ len4
      (by decide) (by decide) (by decide : rd whiteMoves 2 = some 35) (by decide)
  have h33 : rd b3 33 = some WHITE := by
    obtain ⟨b3a, hb3a, _, _, hpaint⟩ := makemove_spec wf2 (by decide : IsSide WHITE)
      (by decide : Playable 35)
    have hb3b : makemove afterMove33 35 WHITE = some b3 := hb3
    rw [hb3a] at hb3b
    have : b3a = b3 := Option.some.inj hb3b
    subst this
    rcases hpaint 33 (by decide) with h | h
    · rw [h]; exact hcell2
    · exact h.1
  have hbe3 : (if WHITE = opponent
        ({ whiteSample with moves := whiteMoves, allocs := 0 + 1 + 1, board := afterMove33 } :
          State).my_colour ∧ score3 < -1
      then score3 else -1) = -1 := if_neg fun h => absurd h.1 (by decide)
  rw [hbe3] at hstep3
  rw [hstep2, hstep3]
  by_cases hc : (if WHITE =
        ({ whiteSample with moves := whiteMoves, allocs := 0 + 1 + 1, board := afterMove33 } :
          State).my_colour ∧ score3 > -1
      then score3 else -1) > -1
  · rw [if_pos hc, if_pos (show (0 : Int) < 2 by decide)]
    exact ⟨_, rfl, rfl, h33, hcell3⟩
  · rw [if_neg hc, minimaxLoop_nil]
    exact ⟨_, rfl, rfl, h33, hcell3⟩

/-- The root of the search of `whiteSample`, `WHITE` to move, depth 0 of 1, window
-1000 .. -1. -/
theorem minimax_white_outcome :
    ∃ r, minimax whiteSample BoardPtr.global 0 1 WHITE (-1000) (-1) [] = some r ∧
      r.1.allocs = 4 ∧ rd r.1.board 33 = some WHITE ∧ rd r.1.board 35 = some WHITE := by
  obtain ⟨⟨st2, a2, b2, ib2⟩, hloop, h1, h2, h3⟩ := white_loop
  rw [minimax_one_ply _ _ _ _ _ _ _ _ (by decide)]
  exact ⟨_, minimaxBody_loop _ _ _ _ _ _ _ _ legalmoves_whiteSample
    (by decide : rd whiteMoves 0 = some 3) (by decide) (by decide) hloop, h1, h2, h3⟩

set_option maxRecDepth 100000 in
/-- C20 (counterexample): `WHITE` searches the position after `BLACK`'s 34 with
the window -1000 .. -1 (depth 0 of 1); its legal moves are 33, 35, 53.  The
first sibling 33 leads to the board `afterMove33`, whose node returns -1, so
that `alpha = max(-1000, -1) = -1 = beta`.  The search goes on all the same: it
copies the board 4 times (two siblings) and places `WHITE` on 35. -/
theorem search_continues_at_equal_bounds :
    legalCells whiteSample.board WHITE scanCells = some [33, 35, 53] ∧
    makemove whiteSample.board 33 WHITE = some afterMove33 ∧
    (minimax { whiteSample with board := afterMove33, allocs := 1 } BoardPtr.global 1 1
      (opponent WHITE) (-1000) (-1) []).map (fun r => r.2.1) = some (-1) ∧
    max (-1000 : Int) (-1) = -1 ∧
    (minimax whiteSample BoardPtr.global 0 1 WHITE (-1000) (-1) []).map
      (fun r => (r.1.allocs, rd r.1.board 33, rd r.1.board 35))
      = some (4, some WHITE, some WHITE) := by
  refine ⟨legalCells_white, makemove_33, ?_, by decide, ?_⟩
  · have h : evaluate_board
        ({ whiteSample with board := afterMove33, allocs := 1 } : State).board
        ({ whiteSample with board := afterMove33, allocs := 1 } : State).board
        (opponent WHITE) = some (-1) := eval_afterMove33
    rw [minimax_terminal _ _ _ _ _ _ _ _ (le_refl 1), evalResult_of [] h]
    rfl
  · obtain ⟨r, hr, h1, h2, h3⟩ := minimax_white_outcome
    rw [hr]
    simp only [Option.map, h1, h2, h3]

/-- C20 (amended): in the loop of `minimax`, run one sibling `i`.  When that
fails, the loop fails.  Otherwise the sibling's score has tightened the window
to `(a, b)`, with `a = max(alpha, score)` for the maximizing side and
`b = min(beta, score)` for the minimizing side; if `a > b` the loop returns at
once, whatever siblings `rest` remain, and if `a ≤ b`, the case `a = b`
included, it goes on with the remaining siblings on the window `(a, b)`. -/
theorem cutoff_is_strict
    (child : State → BoardPtr → Int → Int → List PeerInput → Option SearchResult)
    (current_depth player i : Int) (rest : List Int) (st : State) (board : BoardPtr)
    (alpha beta : Int) (inbox : List PeerInput) :
    match minimaxLoop child current_depth player [i] st board alpha beta inbox with
    | none => minimaxLoop child current_depth player (i :: rest) st board alpha beta inbox
        = none
    | some (s, a, b, ib) =>
      (∃ score, a = (if player = s.my_colour then max alpha score else alpha) ∧
        b = (if player = opponent s.my_colour then min beta score else beta)) ∧
      (a > b →
        minimaxLoop child current_depth player (i :: rest) st board alpha beta inbox
          = some (s, a, b, ib)) ∧
      (a ≤ b → ∃ board4,
        minimaxLoop child current_depth player (i :: rest) st board alpha beta inbox
          = minimaxLoop child current_depth player rest s (BoardPtr.block board4) a b ib) := by
  rw [minimaxLoop.eq_2, minimaxLoop.eq_2]
  cases h1 : copy_board st (deref st board) with
  | none => rfl
  | some p1 =>
    obtain ⟨st1, temp_board⟩ := p1
    simp only
    cases h2 : rd st1.moves i with
    | none => rfl
    | some mv =>
      simp only
      cases h3 : makemove st1.board mv player with
      | none => rfl
      | some b2 =>
        simp only
        cases h4 : child { st1 with board := b2 } board alpha beta inbox with
        | none => rfl
        | some r =>
          obtain ⟨s3, score, ib3⟩ := r
          simp only
          cases h5 : copy_board s3 temp_board with
          | none => rfl
          | some p5 =>
            obtain ⟨st4, board4⟩ := p5
            simp only
            have hcol : st4.my_colour = s3.my_colour := by
              unfold copy_board at h5
              cases hcl : copyLoop temp_board ((List.range 99).map Int.ofNat) (freshBlock s3) with
              | none => rw [hcl] at h5; simp at h5
              | some t =>
                rw [hcl] at h5
                simp only [Option.some.injEq, Prod.mk.injEq] at h5
                rw [← h5.1]
            have ha : (if player = s3.my_colour ∧ score > alpha then score else alpha) =
                (if player = s3.my_colour then max alpha score else alpha) := by
              by_cases hp : player = s3.my_colour
              · simp only [hp, true_and, if_true]
                split <;> omega
              · simp [hp]
            have hb : (if player = opponent s3.my_colour ∧ score < beta then score else beta) =
                (if player = opponent s3.my_colour then min beta score else beta) := by
              by_cases hp : player = opponent s3.my_colour
              · simp only [hp, true_and, if_true]
                split <;> omega
              · simp [hp]
            have hsh : ∀ (x y : Int) (av : PeerInput),
                (alpha_beta_sharing st4 x y av).1.my_colour = s3.my_colour :=
              fun _ _ _ => hcol
            by_cases hprune : (if player = s3.my_colour ∧ score > alpha then score else alpha) >
                (if player = opponent s3.my_colour ∧ score < beta then score else beta)
            · simp only [if_pos hprune]
              by_cases hd : current_depth < 2
              · simp only [if_pos hd]
                refine ⟨⟨score, ?_, ?_⟩, ?_, fun hle => absurd hprune (not_lt.mpr hle)⟩
                · rw [hsh]; exact ha
                · rw [hsh]; exact hb
                · intro _; first | rfl | trivial
              · simp only [if_neg hd]
                refine ⟨⟨score, ?_, ?_⟩, ?_, fun hle => absurd hprune (not_lt.mpr hle)⟩
                · rw [hcol]; exact ha
                · rw [hcol]; exact hb
                · intro _; first | rfl | trivial
            · simp only [if_neg hprune]
              rw [minimaxLoop_nil]
              refine ⟨⟨score, ?_, ?_⟩, fun hgt => absurd hgt hprune, fun _ => ⟨board4, rfl⟩⟩
              · rw [hcol]; exact ha
              · rw [hcol]; exact hb

/-! ## Order and completeness of the move generator -/

theorem legalCells_spec (b : Board) (p : Int) :
    ∀ (cells found : List Int), legalCells b p cells = some found →
      found.Sublist cells ∧
      ∀ c : Int, c ∈ found ↔ c ∈ cells ∧ ∃ r, legalp b c p = some r ∧ r ≠ 0 := by
  intro cells
  induction cells with
  | nil =>
    intro found h
    unfold legalCells at h
    rw [← Option.some.inj h]
    exact ⟨List.Sublist.refl _, fun c => by simp⟩
  | cons move rest ih =>
    intro found h
    unfold legalCells at h
    cases hl : legalp b move p with
    | none => rw [hl] at h; simp at h
    | some r =>
      rw [hl] at h
      simp only at h
      cases hc : legalCells b p rest with
      | none => rw [hc] at h; simp at h
      | some f2 =>
        rw [hc] at h
        simp only at h
        obtain ⟨hsub, hmem⟩ := ih f2 hc
        have hf := Option.some.inj h
        by_cases hr : r ≠ 0
        · rw [if_pos hr] at hf
          subst hf
          refine ⟨hsub.cons₂ move, ?_⟩
          intro c
          rw [List.mem_cons, List.mem_cons, hmem]
          constructor
          · rintro (rfl | ⟨h1, h2⟩)
            · exact ⟨Or.inl rfl, r, hl, hr⟩
            · exact ⟨Or.inr h1, h2⟩
          · rintro ⟨rfl | h1, h2⟩
            · exact Or.inl rfl
            · exact Or.inr ⟨h1, h2⟩
        · rw [if_neg hr] at hf
          subst hf
          refine ⟨hsub.cons move, ?_⟩
          intro c
          rw [List.mem_cons, hmem]
          constructor
          · rintro ⟨h1, h2⟩
            exact ⟨Or.inr h1, h2⟩
          · rintro ⟨rfl | h1, r2, h2, h3⟩
            · rw [hl] at h2
              rw [Option.some.inj h2] at hr
              exact absurd h3 hr
            · exact ⟨h1, r2, h2, h3⟩

theorem storeMoves_spec :
    ∀ (found : List Int) (i : Int) (ms : List Int) (i1 : Int) (ms1 : List Int), 0 ≤ i →
      storeMoves found i ms = some (i1, ms1) →
      i1 = i + found.length ∧
      (∀ j : Nat, j < found.length → rd ms1 (i + 1 + j) = found[j]?) ∧
      (∀ k : Int, k ≤ i → rd ms1 k = rd ms k) := by
  intro found
  induction found with
  | nil =>
    intro i ms i1 ms1 _ h
    unfold storeMoves at h
    obtain ⟨h1, h2⟩ := Prod.mk.inj (Option.some.inj h)
    subst h1 h2
    exact ⟨by simp, fun j hj => by simp at hj, fun _ _ => rfl⟩
  | cons m rest ih =>
    intro i ms i1 ms1 h0 h
    unfold storeMoves at h
    cases hw : wr ms (i + 1) m with
    | none => rw [hw] at h; simp at h
    | some ms2 =>
      rw [hw] at h
      simp only at h
      obtain ⟨hi1, hget, hkeep⟩ := ih (i + 1) ms2 i1 ms1 (by omega) h
      refine ⟨by rw [hi1]; simp; ring, ?_, ?_⟩
      · intro j hj
        cases j with
        | zero =>
          have := hkeep (i + 1) (le_refl _)
          simp only [Nat.cast_zero, add_zero, List.getElem?_cons_zero]
          rw [this]
          exact rd_wr_same hw
        | succ k =>
          have := hget k (by simpa using hj)
          simp only [List.getElem?_cons_succ]
          rw [← this]
          congr 1
          push_cast
          ring
      · intro k hk
        rw [hkeep k (by omega)]
        exact rd_wr_other hw (by omega)

theorem legalmoves_inv {b : Board} {p : Int} {ms ms1 : List Int}
    (h : legalmoves b ms p = some ms1) :
    ∃ found, legalCells b p scanCells = some found ∧
      rd ms1 0 = some (found.length : Int) ∧
      ∀ j : Nat, j < found.length → rd ms1 ((j : Int) + 1) = found[j]? := by
  unfold legalmoves at h
  cases hw0 : wr ms 0 0 with
  | none => rw [hw0] at h; simp at h
  | some m0 =>
    rw [hw0] at h
    simp only at h
    rw [legalmovesLoop_eq] at h
    cases hc : legalCells b p scanCells with
    | none => rw [hc] at h; simp at h
    | some found =>
      rw [hc] at h
      simp only at h
      cases hs : storeMoves found 0 m0 with
      | none => rw [hs] at h; simp at h
      | some res =>
        obtain ⟨i1, m1⟩ := res
        rw [hs] at h
        simp only at h
        obtain ⟨hi1, hget, _⟩ := storeMoves_spec found 0 m0 i1 m1 (le_refl 0) hs
        refine ⟨found, rfl, ?_, ?_⟩
        · rw [rd_wr_same h, hi1]; simp
        · intro j hj
          rw [rd_wr_other h (by omega)]
          have := hget j hj
          rw [← this]
          congr 1
          ring

theorem mem_scanCells {c : Int} (h0 : 11 ≤ c) (h1 : c ≤ 88) : c ∈ scanCells := by
  unfold scanCells
  rw [List.mem_map]
  refine ⟨c.toNat, ?_, ?_⟩
  · rw [List.mem_range']
    exact ⟨c.toNat - 11, by omega, by omega⟩
  · simp only [Int.ofNat_eq_coe]; omega

theorem scanCells_sorted : scanCells.Pairwise (fun x y => x < y) := by decide

theorem legalp_accepts_playable {b : Board} {c p r : Int} (h : legalp b c p = some r)
    (hr : r ≠ 0) : Playable c := by
  unfold legalp at h
  rcases validp_cases c with ⟨_, hpl⟩ | ⟨hv, _⟩
  · exact hpl
  · rw [hv] at h
    simp only [if_true] at h
    exact absurd (Option.some.inj h).symm hr

/-- C15 (move generator order and completeness): whenever `legalmoves(p)`
returns, `moves[0]` holds the number `n` of cells that `legalp` accepts for `p`
and `moves[1..n]` are those cells (`found`), each once, in strictly increasing
order; any other initial `moves` array gives the same count and the same cells.
On a well-formed board, for a side and a 65-cell array, it returns. -/
theorem legalmoves_order_complete (b : Board) (p : Int) (ms : List Int) :
    (∀ ms1, legalmoves b ms p = some ms1 →
      ∃ found : List Int, found.Pairwise (fun x y => x < y) ∧
        (∀ c : Int, c ∈ found ↔ ∃ r, legalp b c p = some r ∧ r ≠ 0) ∧
        rd ms1 0 = some (found.length : Int) ∧
        (∀ j : Nat, j < found.length → rd ms1 ((j : Int) + 1) = found[j]?) ∧
        (∀ ms2 ms3, legalmoves b ms2 p = some ms3 →
          rd ms3 0 = some (found.length : Int) ∧
          ∀ j : Nat, j < found.length → rd ms3 ((j : Int) + 1) = found[j]?)) ∧
    (WellFormed b → IsSide p → ms.length = 65 → ∃ ms1, legalmoves b ms p = some ms1) := by
  constructor
  · intro ms1 h
    obtain ⟨found, hc, h0, hget⟩ := legalmoves_inv h
    obtain ⟨hsub, hmem⟩ := legalCells_spec b p scanCells found hc
    refine ⟨found, scanCells_sorted.sublist hsub, ?_, h0, hget, ?_⟩
    · intro c
      rw [hmem]
      constructor
      · rintro ⟨_, h2⟩; exact h2
      · rintro ⟨r, h2, h3⟩
        have hpl := legalp_accepts_playable h2 h3
        exact ⟨mem_scanCells hpl.1 hpl.2.1, r, h2, h3⟩
    · intro ms2 ms3 h2
      obtain ⟨found2, hc2, h02, hget2⟩ := legalmoves_inv h2
      rw [hc] at hc2
      rw [← Option.some.inj hc2] at h02 hget2
      exact ⟨h02, hget2⟩
  · intro hb hp hl
    obtain ⟨ms1, _, h, _⟩ := legalmoves_spec hb hp hl
    exact ⟨ms1, h⟩

/-! ## Rays from a cell -/

theorem playable_of_side {b : Board} (hb : WellFormed b) {i p : Int} (hp : IsSide p)
    (h : rd b i = some p) : Playable i := wf_side_cell hb hp h

theorem col_track {m d e : Int}
    (hde : ∀ x : Int, 1 ≤ x % 10 → x % 10 ≤ 8 → (x + d) % 10 = x % 10 + e)
    (hm : Playable m) (K : Nat)
    (h : ∀ j : Nat, 1 ≤ j → j ≤ K → Playable (m + j * d)) :
    ∀ j : Nat, j ≤ K → (m + j * d) % 10 = m % 10 + j * e := by
  intro j
  induction j with
  | zero => intro _; simp
  | succ j ih =>
    intro hj
    have hprev := ih (by omega)
    have hcell : 1 ≤ (m + j * d) % 10 ∧ (m + j * d) % 10 ≤ 8 := by
      by_cases hj0 : j = 0
      · subst hj0
        simp only [Nat.cast_zero, zero_mul, add_zero]
        exact ⟨hm.2.2.1, hm.2.2.2⟩
      · have := h j (by omega) (by omega)
        exact ⟨this.2.2.1, this.2.2.2⟩
    have e1 : m + ((j + 1 : Nat) : Int) * d = m + j * d + d := by push_cast; ring
    have e2 : m % 10 + ((j + 1 : Nat) : Int) * e = m % 10 + j * e + e := by push_cast; ring
    rw [e1, e2, hde _ hcell.1 hcell.2, hprev]

/-- From a playable cell at most 7 consecutive cells of a ray are playable. -/
theorem ray_len {m d : Int} (hm : Playable m) (hd : d ∈ ALLDIRECTIONS) (K : Nat)
    (h : ∀ j : Nat, 1 ≤ j → j ≤ K → Playable (m + j * d)) : K ≤ 7 := by
  by_cases hK : K = 0
  · omega
  have hlast := h K (by omega) (le_refl K)
  unfold Playable at hm hlast
  simp [ALLDIRECTIONS] at hd
  rcases hd with rfl | rfl | rfl | rfl | rfl | rfl | rfl | rfl
  · omega
  · omega
  · have := col_track (d := -9) (e := 1) (fun x _ _ => by omega) hm K h K (le_refl K)
    omega
  · have := col_track (d := -1) (e := -1) (fun x _ _ => by omega) hm K h K (le_refl K)
    omega
  · have := col_track (d := 1) (e := 1) (fun x _ _ => by omega) hm K h K (le_refl K)
    omega
  · have := col_track (d := 9) (e := -1) (fun x _ _ => by omega) hm K h K (le_refl K)
    omega
  · omega
  · omega

/-- Rays in different directions share no cell within 8 steps. -/
theorem rays_disjoint {m d1 d2 : Int} (h1 : d1 ∈ ALLDIRECTIONS) (h2 : d2 ∈ ALLDIRECTIONS)
    (hne : d1 ≠ d2) {j k : Nat} (hj1 : 1 ≤ j) (hj8 : j ≤ 8) (hk1 : 1 ≤ k) (hk8 : k ≤ 8) :
    m + j * d1 ≠ m + k * d2 := by
  simp [ALLDIRECTIONS] at h1 h2
  rcases h1 with rfl | rfl | rfl | rfl | rfl | rfl | rfl | rfl <;>
    rcases h2 with rfl | rfl | rfl | rfl | rfl | rfl | rfl | rfl <;>
    first
    | exact absurd rfl hne
    | omega

theorem bracketAt_len {b : Board} (hb : WellFormed b) {m d p : Int} (hp : IsSide p)
    (hm : Playable m) (hd : d ∈ ALLDIRECTIONS) {k : Nat} (h : BracketAt b m d p k) :
    k + 1 ≤ 7 := by
  apply ray_len hm hd (k + 1)
  intro j hj1 hj2
  by_cases hjk : j ≤ k
  · exact playable_of_side hb (opponent_side hp) (h.2.1 j hj1 hjk)
  · have hj : j = k + 1 := by omega
    subst hj
    exact playable_of_side hb hp h.2.2

theorem bracketAt_unique {b : Board} {m d p : Int} (hp : IsSide p) {k1 k2 : Nat}
    (h1 : BracketAt b m d p k1) (h2 : BracketAt b m d p k2) : k1 = k2 := by
  rcases Nat.lt_trichotomy k1 k2 with h | h | h
  · have := h2.2.1 (k1 + 1) (by omega) (by omega)
    rw [h1.2.2] at this
    exact absurd (Option.some.inj this).symm (opponent_ne hp)
  · exact h
  · have := h1.2.1 (k2 + 1) (by omega) (by omega)
    rw [h2.2.2] at this
    exact absurd (Option.some.inj this).symm (opponent_ne hp)

theorem bracketAt_transfer {x y : Board} (hx : WellFormed x) {m d p : Int} (hp : IsSide p)
    (hm : Playable m) (hd : d ∈ ALLDIRECTIONS)
    (hag : ∀ j : Nat, 1 ≤ j → j ≤ 8 → rd x (m + j * d) = rd y (m + j * d)) {k : Nat}
    (h : BracketAt x m d p k) : BracketAt y m d p k := by
  have hlen := bracketAt_len hx hp hm hd h
  refine ⟨h.1, ?_, ?_⟩
  · intro j hj1 hj2
    rw [← hag j hj1 (by omega)]
    exact h.2.1 j hj1 hj2
  · rw [← hag (k + 1) (by omega) (by omega)]
    exact h.2.2

theorem bracket_iff_at {b : Board} {m d p : Int} :
    Bracket b m d p ↔ ∃ k, BracketAt b m d p k := Iff.rfl

theorem wouldflip_at {b : Board} (hb : WellFormed b) {p : Int} (hp : IsSide p) {d : Int}
    (hd : d ∈ ALLDIRECTIONS) {m : Int} (hm0 : 11 ≤ m) (hm1 : m ≤ 88) :
    ∃ r, wouldflip b m d p = some r ∧
      ((r ≠ 0 ∧ ∃ k : Nat, BracketAt b m d p k ∧ r = m + (k + 1 : Nat) * d ∧
          r = m + d + (k : Int) * d) ∨
        (r = 0 ∧ ∀ k, ¬ BracketAt b m d p k)) := by
  obtain ⟨r, hr, hcase⟩ := wouldflip_spec hb hp hd hm0 hm1
  refine ⟨r, hr, ?_⟩
  rcases hcase with ⟨hne, hbr, n, hrn, hrun⟩ | ⟨hz, hno⟩
  · left
    refine ⟨hne, n + 1, ⟨by omega, ?_, ?_⟩, ?_, ?_⟩
    · intro j hj1 hj2
      by_cases hj : j = 1
      · subst hj
        simpa using (bracket_iff.mp hbr).1
      · have := hrun.1 (j - 2) (by omega)
        rw [← this]; congr 1
        have : ((j - 2 : Nat) : Int) = (j : Int) - 2 := by omega
        rw [this]; ring
    · rw [← hrun.2]; congr 1; push_cast; ring
    · rw [hrn]; push_cast; ring
    · rw [hrn]; push_cast; ring
  · right
    exact ⟨hz, fun k hk => hno ⟨k, hk⟩⟩

/-- Two well-formed boards that agree on the first 8 cells of a ray give the
same `wouldflip` along it. -/
theorem wouldflip_transfer {x y : Board} (hx : WellFormed x) (hy : WellFormed y) {m d p : Int}
    (hp : IsSide p) (hm : Playable m) (hd : d ∈ ALLDIRECTIONS)
    (hag : ∀ j : Nat, 1 ≤ j → j ≤ 8 → rd x (m + j * d) = rd y (m + j * d)) :
    wouldflip x m d p = wouldflip y m d p := by
  obtain ⟨rx, hrx, hcx⟩ := wouldflip_at hx hp hd hm.1 hm.2.1
  obtain ⟨ry, hry, hcy⟩ := wouldflip_at hy hp hd hm.1 hm.2.1
  rw [hrx, hry]
  congr 1
  rcases hcx with ⟨_, kx, hkx, hrxk, _⟩ | ⟨hzx, hnox⟩
  · rcases hcy with ⟨_, ky, hky, hryk, _⟩ | ⟨_, hnoy⟩
    · have := bracketAt_unique hp (bracketAt_transfer hx hp hm hd hag hkx) hky
      rw [hrxk, hryk, this]
    · exact absurd (bracketAt_transfer hx hp hm hd hag hkx) (hnoy kx)
  · rcases hcy with ⟨_, ky, hky, _, _⟩ | ⟨hzy, _⟩
    · exact absurd (bracketAt_transfer hy hp hm hd (fun j h1 h8 => (hag j h1 h8).symm) hky)
        (hnox ky)
    · rw [hzx, hzy]

theorem flipLoop_exact {p d : Int} (hd0 : d ≠ 0) :
    ∀ (n fuel : Nat) (b : Board) (c : Int), n + 1 ≤ fuel →
      (∀ j : Nat, j ≤ n → rd b (c + j * d) = some (opponent p)) →
      ∃ b1, flipLoop fuel b c d p (c + (n + 1 : Nat) * d) = some b1 ∧
        (∀ i : Int, (∃ j : Nat, j ≤ n ∧ i = c + j * d) → rd b1 i = some p) ∧
        (∀ i : Int, (¬ ∃ j : Nat, j ≤ n ∧ i = c + j * d) → rd b1 i = rd b i) := by
  intro n
  induction n with
  | zero =>
    intro fuel b c hf hcells
    obtain ⟨f, rfl⟩ : ∃ f, fuel = f + 1 := ⟨fuel - 1, by omega⟩
    have hc : rd b c = some (opponent p) := by simpa using hcells 0 (le_refl 0)
    obtain ⟨h0, h1⟩ := rd_eq_some_bounds hc
    have hw := wr_of_bounds p h0 h1
    unfold flipLoop
    rw [hw]
    simp only
    rw [if_neg (by simp)]
    refine ⟨_, rfl, ?_, ?_⟩
    · rintro i ⟨j, hj, rfl⟩
      have hj0 : j = 0 := by omega
      subst hj0
      simpa using rd_wr_same hw
    · intro i hi
      apply rd_wr_other hw
      intro hci
      exact hi ⟨0, le_refl 0, by simpa using hci.symm⟩
  | succ n ih =>
    intro fuel b c hf hcells
    obtain ⟨f, rfl⟩ : ∃ f, fuel = f + 1 := ⟨fuel - 1, by omega⟩
    have hc : rd b c = some (opponent p) := by simpa using hcells 0 (by omega)
    obtain ⟨h0, h1⟩ := rd_eq_some_bounds hc
    have hw := wr_of_bounds p h0 h1
    have hmul : ∀ t : Nat, ((t + 1 : Nat) : Int) * d ≠ 0 := by
      intro t h2
      rcases mul_eq_zero.mp h2 with h3 | h3
      · omega
      · exact hd0 h3
    unfold flipLoop
    rw [hw]
    simp only
    have hne : c + d ≠ c + ((n + 1 + 1 : Nat) : Int) * d := by
      intro heq
      apply hmul n
      push_cast at heq ⊢
      linarith
    rw [if_pos hne]
    have hcells1 : ∀ j : Nat, j ≤ n →
        rd (b.set c.toNat p) (c + d + j * d) = some (opponent p) := by
      intro j hj
      have hne2 : c ≠ c + d + j * d := by
        intro heq
        apply hmul j
        push_cast at heq ⊢
        linarith
      rw [rd_wr_other hw hne2]
      have := hcells (j + 1) (by omega)
      rw [← this]; congr 1; push_cast; ring
    obtain ⟨b2, hb2, hin, hout⟩ := ih f (b.set c.toNat p) (c + d) (by omega) hcells1
    have hbr : c + ((n + 1 + 1 : Nat) : Int) * d = c + d + ((n + 1 : Nat) : Int) * d := by
      push_cast; ring
    rw [hbr]
    refine ⟨b2, hb2, ?_, ?_⟩
    · rintro i ⟨j, hj, rfl⟩
      cases j with
      | zero =>
        have hnot : ¬ ∃ t : Nat, t ≤ n ∧ c + ((0 : Nat) : Int) * d = c + d + t * d := by
          rintro ⟨t, _, ht⟩
          apply hmul t
          push_cast at ht ⊢
          linarith
        rw [hout _ hnot]
        simpa using rd_wr_same hw
      | succ t =>
        apply hin
        exact ⟨t, by omega, by push_cast; ring⟩
    · intro i hi
      have hnot : ¬ ∃ t : Nat, t ≤ n ∧ i = c + d + t * d := by
        rintro ⟨t, ht, rfl⟩
        exact hi ⟨t + 1, by omega, by push_cast; ring⟩
      rw [hout i hnot]
      apply rd_wr_other hw
      intro hci
      exact hi ⟨0, by omega, by simpa using hci.symm⟩

theorem inRun_ne {b : Board} {m d p i : Int} (hd : d ∈ ALLDIRECTIONS)
    (h : InRun b m d p i) : i ≠ m := by
  obtain ⟨k, _, j, hj1, _, rfl⟩ := h
  intro heq
  have hd0 := (dir_bounds hd).2.2
  have h2 : (j : Int) * d = 0 := by linarith
  rcases mul_eq_zero.mp h2 with h3 | h3
  · omega
  · exact hd0 h3

/-- On a well-formed board `makeflips` returns the board with exactly the run
bracketed in its direction flipped. -/
theorem makeflips_exact {c : Board} (hc : WellFormed c) {p : Int} (hp : IsSide p) {d : Int}
    (hd : d ∈ ALLDIRECTIONS) {m : Int} (hm : Playable m) :
    ∃ c1, makeflips c m d p = some c1 ∧ WellFormed c1 ∧
      (∀ i : Int, InRun c m d p i → rd c1 i = some p) ∧
      (∀ i : Int, ¬ InRun c m d p i → rd c1 i = rd c i) := by
  obtain ⟨c1, hc1, hpaint⟩ := makeflips_spec hc hp hd hm.1 hm.2.1
  refine ⟨c1, hc1, painted_wf hp hc hpaint, ?_⟩
  obtain ⟨r, hr, hcase⟩ := wouldflip_at hc hp hd hm.1 hm.2.1
  unfold makeflips at hc1
  rw [hr] at hc1
  simp only at hc1
  rcases hcase with ⟨hne, k, hk, _, hrk⟩ | ⟨hz, hno⟩
  · rw [if_pos hne] at hc1
    obtain ⟨n, rfl⟩ : ∃ n, k = n + 1 := ⟨k - 1, by have := hk.1; omega⟩
    have hcells : ∀ j : Nat, j ≤ n → rd c (m + d + j * d) = some (opponent p) := by
      intro j hj
      have := hk.2.1 (j + 1) (by omega) (by omega)
      rw [← this]; congr 1; push_cast; ring
    have hlen := bracketAt_len hc hp hm hd hk
    obtain ⟨c2, hc2, hin, hout⟩ := flipLoop_exact (dir_bounds hd).2.2 n SCANFUEL c (m + d)
      (by unfold SCANFUEL; omega) hcells
    rw [hrk, hc2] at hc1
    have hcc : c2 = c1 := Option.some.inj hc1
    subst hcc
    constructor
    · rintro i ⟨k2, hk2, j, hj1, hj2, rfl⟩
      have := bracketAt_unique hp hk2 hk
      subst this
      apply hin
      refine ⟨j - 1, by omega, ?_⟩
      have : ((j - 1 : Nat) : Int) = (j : Int) - 1 := by omega
      rw [this]; ring
    · intro i hi
      apply hout
      rintro ⟨j, hj, rfl⟩
      exact hi ⟨n + 1, hk, j + 1, by omega, by omega, by push_cast; ring⟩
  · rw [if_neg (by simpa using hz)] at hc1
    have hcc : c = c1 := Option.some.inj hc1
    subst hcc
    constructor
    · rintro i ⟨k, hk, _⟩
      exact absurd hk (hno k)
    · intro i _
      rfl

theorem flippedIn_congr {b : Board} {m p : Int} {D1 D2 : Int → Prop} {c : Board}
    (h : ∀ x, D1 x ↔ D2 x) (hc : FlippedIn b m p D1 c) : FlippedIn b m p D2 c := by
  have e : D1 = D2 := funext fun x => propext (h x)
  rw [← e]
  exact hc

/-- A board with the runs of the directions `D` flipped agrees with the
original board on the first 8 cells of every other ray. -/
theorem flippedIn_agree {b : Board} (hb : WellFormed b) {m p : Int} (hp : IsSide p)
    (hm : Playable m) {D : Int → Prop} (hD : ∀ x, D x → x ∈ ALLDIRECTIONS) {c : Board}
    (hc : FlippedIn b m p D c) {d : Int} (hd : d ∈ ALLDIRECTIONS) (hnd : ¬ D d) :
    ∀ j : Nat, 1 ≤ j → j ≤ 8 → rd c (m + j * d) = rd b (m + j * d) := by
  intro j hj1 hj8
  have hne : m + (j : Int) * d ≠ m := by
    intro heq
    have h2 : (j : Int) * d = 0 := by linarith
    rcases mul_eq_zero.mp h2 with h3 | h3
    · omega
    · exact (dir_bounds hd).2.2 h3
  apply (hc.2 _ hne).2
  rintro ⟨d2, hd2, k, hk, j2, hj21, hj22, heq⟩
  have hlen := bracketAt_len hb hp hm (hD d2 hd2) hk
  have hdd : d ≠ d2 := fun h => hnd (h ▸ hd2)
  exact rays_disjoint hd (hD d2 hd2) hdd hj1 hj8 hj21 (by omega) heq

theorem inRun_transfer {x y : Board} (hx : WellFormed x) {m d p : Int} (hp : IsSide p)
    (hm : Playable m) (hd : d ∈ ALLDIRECTIONS)
    (hag : ∀ j : Nat, 1 ≤ j → j ≤ 8 → rd x (m + j * d) = rd y (m + j * d)) {i : Int}
    (h : InRun x m d p i) : InRun y m d p i := by
  obtain ⟨k, hk, hj⟩ := h
  exact ⟨k, bracketAt_transfer hx hp hm hd hag hk, hj⟩

theorem makemoveLoop_exact {b : Board} (hb : WellFormed b) {p : Int} (hp : IsSide p)
    {m : Int} (hm : Playable m) :
    ∀ (ds : List Int) (D : Int → Prop) (c : Board), (∀ d ∈ ds, d ∈ ALLDIRECTIONS) →
      ds.Nodup → (∀ d ∈ ds, ¬ D d) → (∀ x, D x → x ∈ ALLDIRECTIONS) → WellFormed c →
      FlippedIn b m p D c →
      ∃ c1, makemoveLoop m p ds c = some c1 ∧ WellFormed c1 ∧
        FlippedIn b m p (fun x => D x ∨ x ∈ ds) c1 := by
  intro ds
  induction ds with
  | nil =>
    intro D c _ _ _ _ hc hfl
    exact ⟨c, rfl, hc, flippedIn_congr (fun x => by simp) hfl⟩
  | cons d rest ih =>
    intro D c hds hnodup hnot hD hc hfl
    have hd := hds d (List.mem_cons_self d rest)
    have hnd := hnot d (List.mem_cons_self d rest)
    have hag := flippedIn_agree hb hp hm hD hfl hd hnd
    obtain ⟨c1, hc1, hwf1, hin, hout⟩ := makeflips_exact hc hp hd hm
    have hfl1 : FlippedIn b m p (fun x => D x ∨ x = d) c1 := by
      constructor
      · have hnr : ¬ InRun c m d p m := fun h => inRun_ne hd h rfl
        rw [hout m hnr]
        exact hfl.1
      · intro i hi
        constructor
        · rintro ⟨d2, hd2 | hd2, hrun⟩
          · have hci := (hfl.2 i hi).1 ⟨d2, hd2, hrun⟩
            by_cases hr : InRun c m d p i
            · exact hin i hr
            · rw [hout i hr]; exact hci
          · subst hd2
            exact hin i (inRun_transfer hb hp hm hd (fun j h1 h8 => (hag j h1 h8).symm) hrun)
        · intro hno
          have hr : ¬ InRun c m d p i := by
            intro hr
            exact hno ⟨d, Or.inr rfl, inRun_transfer hc hp hm hd hag hr⟩
          rw [hout i hr]
          apply (hfl.2 i hi).2
          rintro ⟨d2, hd2, hrun⟩
          exact hno ⟨d2, Or.inl hd2, hrun⟩
    obtain ⟨c2, hc2, hwf2, hfl2⟩ := ih (fun x => D x ∨ x = d) c1
      (fun x hx => hds x (List.mem_cons_of_mem d hx)) (List.nodup_cons.mp hnodup).2
      (by
        intro x hx hDx
        rcases hDx with h | h
        · exact hnot x (List.mem_cons_of_mem d hx) h
        · subst h
          exact (List.nodup_cons.mp hnodup).1 hx)
      (by
        intro x hx
        rcases hx with h | h
        · exact hD x h
        · subst h; exact hd)
      hwf1 hfl1
    unfold makemoveLoop
    rw [hc1]
    refine ⟨c2, hc2, hwf2, flippedIn_congr ?_ hfl2⟩
    intro x
    simp only [List.mem_cons]
    tauto

theorem wf_place {b : Board} (hb : WellFormed b) {p : Int} (hp : IsSide p) {m : Int}
    (hm : Playable m) :
    ∃ b0, wr b m p = some b0 ∧ WellFormed b0 ∧ FlippedIn b m p (fun _ => False) b0 := by
  have h0 : 0 ≤ m := by unfold Playable at hm; omega
  have h1 : m.toNat < b.length := by rw [hb.1]; unfold Playable at hm; omega
  have hw := wr_of_bounds p h0 h1
  refine ⟨_, hw, ?_, rd_wr_same hw, ?_⟩
  · apply wf_of_cells (by rw [List.length_set]; exact hb.1)
    intro i hi0 hi1
    by_cases hi : m = i
    · subst hi
      rw [if_neg (playable_not_border hm), rd_wr_same hw]
      rcases hp with rfl | rfl
      · exact Or.inr (Or.inl rfl)
      · exact Or.inr (Or.inr rfl)
    · rw [rd_wr_other hw hi]
      exact wf_cells hb i hi0 hi1
  · intro i hi
    constructor
    · rintro ⟨_, hf, _⟩
      exact absurd hf id
    · intro _
      exact rd_wr_other hw (Ne.symm hi)

theorem directions_nodup : ALLDIRECTIONS.Nodup := by decide

/-- C11 (move application flips exactly the bracketed runs): on a well-formed
board, for a side `p` and a move `m` that `legalp` accepts, `makemove(m, p)`
returns a board on which cell `m` holds `p`, every cell in a run that `m`
brackets in one of the 8 directions on the pre-move board holds `p`, and every
other cell holds its former value; and before each direction `d` is processed
(after the directions `pre`), `wouldflip` in direction `d` returns on the
current board what it returns on the pre-move board. -/
theorem makemove_flips_runs (b : Board) (m p r : Int) (hb : WellFormed b) (hp : IsSide p)
    (hl : legalp b m p = some r) (hr : r ≠ 0) :
    ∃ b1, makemove b m p = some b1 ∧ rd b1 m = some p ∧
      (∀ i : Int, (∃ d ∈ ALLDIRECTIONS, InRun b m d p i) → rd b1 i = some p) ∧
      (∀ i : Int, i ≠ m → (¬ ∃ d ∈ ALLDIRECTIONS, InRun b m d p i) → rd b1 i = rd b i) ∧
      (∀ (pre : List Int) (d : Int) (post : List Int), ALLDIRECTIONS = pre ++ d :: post →
        ∃ b0 c, wr b m p = some b0 ∧ makemoveLoop m p pre b0 = some c ∧
          wouldflip c m d p = wouldflip b m d p) := by
  have hm : Playable m := legalp_accepts_playable hl hr
  obtain ⟨b0, hb0, hwf0, hfl0⟩ := wf_place hb hp hm
  obtain ⟨b1, hb1, _, hfl1⟩ := makemoveLoop_exact hb hp hm ALLDIRECTIONS (fun _ => False) b0
    (fun d hd => hd) directions_nodup (fun _ _ hf => hf) (fun _ hf => absurd hf id) hwf0 hfl0
  refine ⟨b1, ?_, hfl1.1, ?_, ?_, ?_⟩
  · unfold makemove
    rw [hb0]
    exact hb1
  · rintro i ⟨d, hd, hrun⟩
    exact (hfl1.2 i (inRun_ne hd hrun)).1 ⟨d, Or.inr hd, hrun⟩
  · intro i hi hno
    apply (hfl1.2 i hi).2
    rintro ⟨d, hd | hd, hrun⟩
    · exact hd
    · exact hno ⟨d, hd, hrun⟩
  · intro pre d post hsplit
    have hnd : (pre ++ d :: post).Nodup := hsplit ▸ directions_nodup
    have hmem : ∀ x ∈ pre, x ∈ ALLDIRECTIONS := by
      intro x hx
      rw [hsplit]
      exact List.mem_append_left _ hx
    have hd : d ∈ ALLDIRECTIONS := by
      rw [hsplit]
      exact List.mem_append_right _ (List.mem_cons_self d post)
    have hdpre : d ∉ pre := by
      intro hx
      have := (List.nodup_append.mp hnd).2.2
      exact this hx (List.mem_cons_self d post)
    obtain ⟨c, hc, hwfc, hflc⟩ := makemoveLoop_exact hb hp hm pre (fun _ => False) b0
      hmem (List.nodup_append.mp hnd).1 (fun _ _ hf => hf) (fun _ hf => absurd hf id) hwf0 hfl0
    refine ⟨b0, c, hb0, hc, ?_⟩
    apply wouldflip_transfer hwfc hb hp hm hd
    apply flippedIn_agree hb hp hm _ hflc hd
    · rintro (hf | hx)
      · exact hf
      · exact hdpre hx
    · rintro x (hf | hx)
      · exact absurd hf id
      · exact hmem x hx

set_option maxRecDepth 100000 in
/-- Witness of C11: `BLACK` plays 34 on the starting position. -/
theorem makemove_flips_runs_witness :
    WellFormed initialise_board ∧ IsSide BLACK ∧ legalp initialise_board 34 BLACK = some 1 ∧
    (1 : Int) ≠ 0 ∧
    ∃ b1, makemove initialise_board 34 BLACK = some b1 ∧ rd b1 34 = some BLACK ∧
      (∀ i : Int, (∃ d ∈ ALLDIRECTIONS, InRun initialise_board 34 d BLACK i) →
        rd b1 i = some BLACK) ∧
      (∀ i : Int, i ≠ 34 → (¬ ∃ d ∈ ALLDIRECTIONS, InRun initialise_board 34 d BLACK i) →
        rd b1 i = rd initialise_board i) ∧
      (∀ (pre : List Int) (d : Int) (post : List Int), ALLDIRECTIONS = pre ++ d :: post →
        ∃ b0 c, wr initialise_board 34 BLACK = some b0 ∧
          makemoveLoop 34 BLACK pre b0 = some c ∧
          wouldflip c 34 d BLACK = wouldflip initialise_board 34 d BLACK) :=
  ⟨by decide, by decide, by decide, by decide,
    makemove_flips_runs initialise_board 34 BLACK 1 (by decide) (by decide) (by decide)
      (by decide)⟩

/-! ## The range of the scores -/

theorem copy_board_frame {st st1 : State} {b t : Board} (h : copy_board st b = some (st1, t)) :
    st1 = { st with allocs := st.allocs + 1 } := by
  unfold copy_board at h
  split at h
  · exact absurd h (by simp)
  · simp only [Option.some.injEq, Prod.mk.injEq] at h
    exact h.1.symm

theorem evaluateLoop_range (g : Board) (p : Int) :
    ∀ (cells : List Int) (x y x1 y1 : Int), (∀ c ∈ cells, 0 ≤ weightAt c) →
      evaluateLoop g p cells x y = some (x1, y1) →
      x ≤ x1 ∧ x1 ≤ x + (cells.map weightAt).sum ∧
      y ≤ y1 ∧ y1 ≤ y + (cells.map weightAt).sum := by
  intro cells
  induction cells with
  | nil =>
    intro x y x1 y1 _ h
    simp only [evaluateLoop, Option.some.injEq, Prod.mk.injEq] at h
    obtain ⟨rfl, rfl⟩ := h
    simp
  | cons c rest ih =>
    intro x y x1 y1 hw h
    have hc := hw c (List.mem_cons_self _ _)
    unfold evaluateLoop at h
    split at h
    · exact absurd h (by simp)
    · rename_i r1 _
      split at h
      · exact absurd h (by simp)
      · rename_i r2 _
        have := ih _ _ _ _ (fun k hk => hw k (List.mem_cons_of_mem _ hk)) h
        simp only [List.map_cons, List.sum_cons]
        have hx : x ≤ (if r1 ≠ 0 then weightAt c + x else x) ∧
            (if r1 ≠ 0 then weightAt c + x else x) ≤ x + weightAt c := by
          split <;> omega
        have hy : y ≤ (if r2 ≠ 0 then weightAt c + y else y) ∧
            (if r2 ≠ 0 then weightAt c + y else y) ≤ y + weightAt c := by
          split <;> omega
        omega

/-- Whatever board the process holds, a value `evaluate_board` returns lies in
`-368 .. 368`, 368 being the sum of the weights. -/
theorem evaluate_board_range {g b : Board} {p v : Int} (h : evaluate_board g b p = some v) :
    -368 ≤ v ∧ v ≤ 368 := by
  have hw : ∀ c ∈ scanCells, 0 ≤ weightAt c := by decide
  have hs : (scanCells.map weightAt).sum = 368 := by decide
  unfold evaluate_board at h
  split at h
  · exact absurd h (by simp)
  · rename_i x1 y1 he
    have := evaluateLoop_range g p scanCells 0 0 x1 y1 hw he
    rw [hs] at this
    simp only [Option.some.injEq] at h
    omega

theorem evalResult_range {st s1 : State} {board : BoardPtr} {p v : Int}
    {inbox ib1 : List PeerInput} (h : evalResult st board p inbox = some (s1, v, ib1)) :
    s1 = st ∧ -368 ≤ v ∧ v ≤ 368 := by
  unfold evalResult at h
  split at h
  · exact absurd h (by simp)
  · rename_i v1 he
    simp only [Option.some.injEq, Prod.mk.injEq] at h
    obtain ⟨rfl, rfl, _⟩ := h
    exact ⟨rfl, evaluate_board_range he⟩

/-- The loop of `minimax` keeps `alpha` and `beta` inside every range `L .. U`
that holds the window it starts from and the scores of its children, and it
leaves `size` and `rank` alone. -/
theorem minimaxLoop_range
    (child : State → BoardPtr → Int → Int → List PeerInput → Option SearchResult)
    (L U : Int)
    (hchild : ∀ s b a be ib s1 v ib1, child s b a be ib = some (s1, v, ib1) →
      L ≤ a → a ≤ U → L ≤ be → be ≤ U →
      L ≤ v ∧ v ≤ U ∧ s1.size = s.size ∧ s1.rank = s.rank)
    (current_depth player : Int) :
    ∀ (idx : List Int) (st : State) (board : BoardPtr) (alpha beta : Int)
      (inbox : List PeerInput) (s1 : State) (a1 b1 : Int) (ib1 : List PeerInput),
      minimaxLoop child current_depth player idx st board alpha beta inbox
        = some (s1, a1, b1, ib1) →
      L ≤ alpha → alpha ≤ U → L ≤ beta → beta ≤ U →
      L ≤ a1 ∧ a1 ≤ U ∧ L ≤ b1 ∧ b1 ≤ U ∧ s1.size = st.size ∧ s1.rank = st.rank := by
  intro idx
  induction idx with
  | nil =>
    intro st board alpha beta inbox s1 a1 b1 ib1 h ha1 ha2 hb1 hb2
    rw [minimaxLoop_nil] at h
    simp only [Option.some.injEq, Prod.mk.injEq] at h
    obtain ⟨rfl, rfl, rfl, _⟩ := h
    exact ⟨ha1, ha2, hb1, hb2, rfl, rfl⟩
  | cons i rest ih =>
    intro st board alpha beta inbox s1 a1 b1 ib1 h ha1 ha2 hb1 hb2
    rw [minimaxLoop.eq_2] at h
    split at h
    · exact absurd h (by simp)
    · rename_i st1 temp_board hc1
      have hst1 := copy_board_frame hc1
      subst hst1
      split at h
      · exact absurd h (by simp)
      · rename_i mv _
        split at h
        · exact absurd h (by simp)
        · rename_i b2 _
          split at h
          · exact absurd h (by simp)
          · rename_i st3 score ib3 hch
            obtain ⟨hs1, hs2, hsz, hrk⟩ := hchild _ _ _ _ _ _ _ _ hch ha1 ha2 hb1 hb2
            have hA : L ≤ (if player = st3.my_colour ∧ score > alpha then score else alpha) ∧
                (if player = st3.my_colour ∧ score > alpha then score else alpha) ≤ U := by
              split <;> exact ⟨by assumption, by assumption⟩
            have hB : L ≤ (if player = opponent st3.my_colour ∧ score < beta then score
                  else beta) ∧
                (if player = opponent st3.my_colour ∧ score < beta then score else beta)
                  ≤ U := by
              split <;> exact ⟨by assumption, by assumption⟩
            simp only at h
            generalize (if player = st3.my_colour ∧ score > alpha then score else alpha) = A1
              at h hA
            generalize (if player = opponent st3.my_colour ∧ score < beta then score
              else beta) = B1 at h hB
            cases hc4 : copy_board st3 temp_board with
            | none => rw [hc4] at h; exact absurd h (by simp)
            | some r4 =>
              obtain ⟨st4, board4⟩ := r4
              rw [hc4] at h
              simp only at h
              have hst4 := copy_board_frame hc4
              subst hst4
              split at h
              · split at h
                · simp only [Option.some.injEq, Prod.mk.injEq] at h
                  obtain ⟨rfl, rfl, rfl, _⟩ := h
                  exact ⟨hA.1, hA.2, hB.1, hB.2, hsz, hrk⟩
                · simp only [Option.some.injEq, Prod.mk.injEq] at h
                  obtain ⟨rfl, rfl, rfl, _⟩ := h
                  exact ⟨hA.1, hA.2, hB.1, hB.2, hsz, hrk⟩
              · obtain ⟨r1, r2, r3, r4, r5, r6⟩ := ih _ _ _ _ _ _ _ _ _ h hA.1 hA.2 hB.1 hB.2
                exact ⟨r1, r2, r3, r4, r5.trans hsz, r6.trans hrk⟩

theorem minimaxBody_range
    (child : State → BoardPtr → Int → Int → List PeerInput → Option SearchResult)
    (L U : Int) (hL : L ≤ -368) (hU : 368 ≤ U)
    (hchild : ∀ s b a be ib s1 v ib1, child s b a be ib = some (s1, v, ib1) →
      L ≤ a → a ≤ U → L ≤ be → be ≤ U →
      L ≤ v ∧ v ≤ U ∧ s1.size = s.size ∧ s1.rank = s.rank)
    {st s1 : State} {board : BoardPtr} {current_depth player alpha beta v : Int}
    {inbox ib1 : List PeerInput}
    (h : minimaxBody child st board current_depth player alpha beta inbox = some (s1, v, ib1))
    (ha1 : L ≤ alpha) (ha2 : alpha ≤ U) (hb1 : L ≤ beta) (hb2 : beta ≤ U) :
    L ≤ v ∧ v ≤ U ∧ s1.size = st.size ∧ s1.rank = st.rank := by
  unfold minimaxBody at h
  split at h
  · exact absurd h (by simp)
  · rename_i moves1 _
    simp only at h
    split at h
    · exact absurd h (by simp)
    · rename_i n _
      split at h
      · obtain ⟨rfl, h1, h2⟩ := evalResult_range h
        exact ⟨by omega, by omega, rfl, rfl⟩
      · split at h
        · exact absurd h (by simp)
        · rename_i st2 alpha2 beta2 inbox2 hloop
          obtain ⟨r1, r2, r3, r4, r5, r6⟩ :=
            minimaxLoop_range child L U hchild current_depth player _ _ _ _ _ _ _ _ _ _ hloop
              ha1 ha2 hb1 hb2
          split at h
          · simp only [Option.some.injEq, Prod.mk.injEq] at h
            obtain ⟨rfl, rfl, _⟩ := h
            exact ⟨r1, r2, r5, r6⟩
          · simp only [Option.some.injEq, Prod.mk.injEq] at h
            obtain ⟨rfl, rfl, _⟩ := h
            exact ⟨r3, r4, r5, r6⟩

theorem minimaxFuel_range (L U : Int) (hL : L ≤ -368) (hU : 368 ≤ U) :
    ∀ (fuel : Nat) (st : State) (board : BoardPtr)
      (current_depth max_depth player alpha beta : Int) (inbox : List PeerInput)
      (s1 : State) (v : Int) (ib1 : List PeerInput),
      minimaxFuel fuel st board current_depth max_depth player alpha beta inbox
        = some (s1, v, ib1) →
      L ≤ alpha → alpha ≤ U → L ≤ beta → beta ≤ U →
      L ≤ v ∧ v ≤ U ∧ s1.size = st.size ∧ s1.rank = st.rank := by
  intro fuel
  induction fuel with
  | zero =>
    intro st board current_depth max_depth player alpha beta inbox s1 v ib1 h _ _ _ _
    unfold minimaxFuel at h
    split at h
    · obtain ⟨rfl, h1, h2⟩ := evalResult_range h
      exact ⟨by omega, by omega, rfl, rfl⟩
    · exact absurd h (by simp)
  | succ fuel ih =>
    intro st board current_depth max_depth player alpha beta inbox s1 v ib1 h ha1 ha2 hb1 hb2
    unfold minimaxFuel at h
    split at h
    · obtain ⟨rfl, h1, h2⟩ := evalResult_range h
      exact ⟨by omega, by omega, rfl, rfl⟩
    · exact minimaxBody_range _ L U hL hU
        (fun s b a be ib s1 v ib1 hc => ih s b _ _ _ a be ib s1 v ib1 hc) h ha1 ha2 hb1 hb2

/-- A score `minimax` returns lies in every range `L .. U` that holds the
window and `-368 .. 368`; the call leaves `size` and `rank` alone. -/
theorem minimax_range (L U : Int) (hL : L ≤ -368) (hU : 368 ≤ U) {st s1 : State}
    {board : BoardPtr} {current_depth max_depth player alpha beta v : Int}
    {inbox ib1 : List PeerInput}
    (h : minimax st board current_depth max_depth player alpha beta inbox = some (s1, v, ib1))
    (ha1 : L ≤ alpha) (ha2 : alpha ≤ U) (hb1 : L ≤ beta) (hb2 : beta ≤ U) :
    L ≤ v ∧ v ≤ U ∧ s1.size = st.size ∧ s1.rank = st.rank :=
  minimaxFuel_range L U hL hU _ _ _ _ _ _ _ _ _ _ _ _ h ha1 ha2 hb1 hb2

/-! ## The worker's search -/

/-- From a good state `iterative_minimax`'s loop returns, with a score inside
every range `L .. U` that holds the window, `-368 .. 368` and the initial
`best_score`. -/
theorem iterativeLoop_total (L U : Int) (hL : L ≤ -368) (hU : 368 ≤ U) {board : BoardPtr}
    (hptr : GoodPtr board) (current_depth : Int) {player : Int} (hp : IsSide player)
    {alpha beta : Int} (ha1 : L ≤ alpha) (ha2 : alpha ≤ U) (hb1 : L ≤ beta) (hb2 : beta ≤ U) :
    ∀ (depths : List Int) (st : State) (best : Int) (inbox : List PeerInput),
      GoodState st → L ≤ best → best ≤ U →
      ∃ s1 v ib1,
        iterativeLoop board current_depth player alpha beta depths st best inbox
          = some (s1, v, ib1) ∧
        GoodState s1 ∧ s1.my_colour = st.my_colour ∧ s1.size = st.size ∧
        s1.rank = st.rank ∧ L ≤ v ∧ v ≤ U := by
  intro depths
  induction depths with
  | nil =>
    intro st best inbox hg h1 h2
    exact ⟨st, best, inbox, rfl, hg, rfl, rfl, rfl, h1, h2⟩
  | cons depth rest ih =>
    intro st best inbox hg _ _
    obtain ⟨s1, v, ib1, hm, hg1, hc1, _⟩ :=
      minimaxFuel_total (depth - current_depth).toNat st board current_depth depth player
        alpha beta inbox hg hptr hp (Int.self_le_toNat _)
    have hm2 : minimax st board current_depth depth player alpha beta inbox
        = some (s1, v, ib1) := hm
    obtain ⟨r1, r2, r3, r4⟩ := minimax_range L U hL hU hm2 ha1 ha2 hb1 hb2
    obtain ⟨s2, v2, ib2, hl, hg2, hc2, hs2, hk2, q1, q2⟩ := ih s1 v ib1 hg1 r1 r2
    refine ⟨s2, v2, ib2, ?_, hg2, hc2.trans hc1, hs2.trans r3, hk2.trans r4, q1, q2⟩
    unfold iterativeLoop
    rw [hm2]
    exact hl

/-- From a good state `iterative_minimax` with the window `ALPHA .. BETA` returns
a score in `-1000 .. 1000`. -/
theorem iterative_minimax_total {st : State} (hg : GoodState st) (board : BoardPtr)
    (hptr : GoodPtr board) (current_depth max_depth : Int) {player : Int} (hp : IsSide player)
    (inbox : List PeerInput) :
    ∃ s1 v ib1,
      iterative_minimax st board current_depth max_depth player ALPHA BETA inbox
        = some (s1, v, ib1) ∧
      GoodState s1 ∧ s1.my_colour = st.my_colour ∧ s1.size = st.size ∧
      s1.rank = st.rank ∧ -1000 ≤ v ∧ v ≤ 1000 :=
  iterativeLoop_total (-1000) 1000 (by decide) (by decide) hptr current_depth hp
    (by decide) (by decide) (by decide) (by decide) _ st (-ALPHA) inbox hg (by decide)
    (by decide)

theorem workerLoop_nil (st : State) (temp_score temp_move : Int) (inbox : List PeerInput) :
    workerLoop [] st temp_score temp_move inbox = some (st, temp_score, temp_move, inbox) := by
  unfold workerLoop
  rfl

/-- A pass of the worker's loop that searches one move: the search returns a
score in `-1000 .. 1000`, which beats every `temp_score` below -1000, and
`temp_move` becomes the move read from `legal_moves[j]`. -/
theorem workerLoop_single {st : State} (hg : GoodState st) {j mv : Int}
    (hmv : rd st.moves j = some mv) (temp_score temp_move : Int) (hts : temp_score < -1000)
    (inbox : List PeerInput) :
    ∃ st2 score ib2,
      workerLoop [j] st temp_score temp_move inbox = some (st2, score, mv, ib2) ∧
      -1000 ≤ score ∧ score ≤ 1000 ∧ st2.board.length = 100 ∧ st2.moves.length = 65 ∧
      st2.my_colour = st.my_colour ∧ st2.size = st.size ∧ st2.rank = st.rank := by
  obtain ⟨t, hcopy, tlen⟩ := copy_board_total st hg.1.1
  have hg1 : GoodState { st with allocs := st.allocs + 1 } := hg
  obtain ⟨s2, v, ib2, hit, hg2, hc2, hs2, hk2, hv1, hv2⟩ :=
    iterative_minimax_total hg1 BoardPtr.global trivial 0 MAX_DEPTH hg.2.2 inbox
  obtain ⟨board3, hcopy3, len3⟩ := copy_board_total s2 tlen
  refine ⟨{ s2 with allocs := s2.allocs + 1, board := board3 }, v, ib2, ?_, hv1, hv2, len3,
    hg2.2.1, hc2, hs2, hk2⟩
  rw [workerLoop.eq_2, hmv]
  simp only
  rw [hcopy]
  simp only
  rw [hit]
  simp only
  rw [hcopy3]
  simp only
  have hgt : v > temp_score := by omega
  rw [workerLoop_nil, if_pos hgt, if_pos hgt]

/-! ## The worker's passes -/

theorem mpiRecv_full {buf msg : List Int} (hm : msg.length = 100) (hb : buf.length = 100) :
    mpiRecv buf msg = some msg := by
  unfold mpiRecv
  rw [if_pos ⟨by rw [hm]; decide, by omega⟩, List.drop_eq_nil_of_le (by omega),
    List.append_nil]

theorem worker_text (temp_move : Int) {my_move : List Char} {bufsize : Nat}
    (h4 : 4 ≤ my_move.length) (hbuf : bufsize ≤ my_move.length) :
    ∃ my_move1, (if temp_move > -1 then get_move_string temp_move my_move
        else strncpy my_move PASS bufsize) = some my_move1 ∧
      my_move1.length = my_move.length := by
  split
  · unfold get_move_string
    simp only [if_pos h4]
    exact ⟨_, rfl, by simp⟩
  · unfold strncpy
    rw [if_pos hbuf]
    refine ⟨_, rfl, ?_⟩
    simp only [List.length_append, List.length_take, List.length_replicate, List.length_drop]
    omega

/-- One pass of the worker's loop, step by step. -/
theorem run_worker_round_eq (bufsize : Nat) (st : State) (w : Worker) (msg : List Int)
    (tag : Int) (inbox : List PeerInput) {board0 moves1 c d js : List Int} {n dr cr : Int}
    {st2 : State} {temp_score temp_move : Int} {inbox2 : List PeerInput}
    {my_move1 : List Char}
    (hrecv : mpiRecv st.board msg = some board0)
    (hleg : legalmoves board0 st.moves st.my_colour = some moves1)
    (hn : rd moves1 0 = some n)
    (hpart : partition st.size n w.process_counts w.process_displacements = some (c, d))
    (hd : rd d st.rank = some dr) (hc : rd c st.rank = some cr)
    (hjs : ((List.range (dr + cr - (if st.rank = 1 then dr + 1 else dr)).toNat).map
      fun (k : Nat) => (if st.rank = 1 then dr + 1 else dr) + (k : Int)) = js)
    (hloop : workerLoop js { st with board := board0, moves := moves1 } (-10000) w.temp_move
      inbox = some (st2, temp_score, temp_move, inbox2))
    (htext : (if temp_move > -1 then get_move_string temp_move w.my_move
        else strncpy w.my_move PASS bufsize) = some my_move1) :
    run_worker_round bufsize st w msg tag inbox =
      some (st2,
        { temp_move := temp_move
          my_move := my_move1
          process_counts := c
          process_displacements := d },
        (if tag = COMPUTE then some (temp_move, temp_score) else none), inbox2) := by
  unfold run_worker_round
  rw [hrecv]
  simp only
  rw [hleg]
  simp only
  rw [hn]
  simp only
  rw [hpart]
  simp only
  rw [hd, hc]
  simp only
  rw [hjs, hloop]
  simp only
  rw [htext]

theorem workerRounds_nil (bufsize : Nat) (st : State) (w : Worker) (inbox : List PeerInput) :
    workerRounds bufsize [] st w inbox = some (st, w, []) := by
  unfold workerRounds
  rfl

theorem workerRounds_cons (bufsize : Nat) (msg : List Int) (tag : Int)
    (rest : List (List Int × Int)) (st : State) (w : Worker) (inbox : List PeerInput)
    {st1 st2 : State} {w1 w2 : Worker} {report : Int × Int} {inbox1 : List PeerInput}
    {reports : List (Int × Int)}
    (h1 : run_worker_round bufsize st w msg tag inbox = some (st1, w1, some report, inbox1))
    (h2 : workerRounds bufsize rest st1 w1 inbox1 = some (st2, w2, reports)) :
    workerRounds bufsize ((msg, tag) :: rest) st w inbox = some (st2, w2, report :: reports) := by
  rw [workerRounds.eq_2, h1]
  simp only
  rw [h2]

theorem rd_stamp_zero {l : List Int} (hl : 0 < l.length) :
    rd ((l.set 0 0).set 0 0) 0 = some 0 := by
  unfold rd
  rw [if_pos (le_refl 0)]
  simp [hl]

/-- A pass of the worker's loop in which `legalmoves` finds no move: nothing is
searched, and with the tag `COMPUTE` the report is the `temp_move` the pass
started with, next to the score -10000. -/
theorem run_worker_round_idle (bufsize : Nat) (st : State) (w : Worker) (msg : List Int)
    (tag : Int) (inbox : List PeerInput) {c d : List Int} {dr cr : Int}
    (hb : st.board.length = 100) (hwf : WellFormed msg) (hno : ∀ v ∈ msg, v ≠ WHITE)
    (hside : IsSide st.my_colour) (hl : 0 < st.moves.length)
    (hpart : partition st.size 0 w.process_counts w.process_displacements = some (c, d))
    (hd : rd d st.rank = some dr) (hc : rd c st.rank = some cr)
    (hidle : dr + cr - (if st.rank = 1 then dr + 1 else dr) ≤ 0)
    (h4 : 4 ≤ w.my_move.length) (hbuf : bufsize ≤ w.my_move.length) :
    ∃ my_move1, my_move1.length = w.my_move.length ∧
      run_worker_round bufsize st w msg tag inbox =
        some ({ st with board := msg, moves := (st.moves.set 0 0).set 0 0 },
          { temp_move := w.temp_move
            my_move := my_move1
            process_counts := c
            process_displacements := d },
          (if tag = COMPUTE then some (w.temp_move, -10000) else none), inbox) := by
  obtain ⟨my_move1, htext, hlen⟩ := worker_text w.temp_move h4 hbuf
  refine ⟨my_move1, hlen, ?_⟩
  have hjs : ((List.range (dr + cr - (if st.rank = 1 then dr + 1 else dr)).toNat).map
      fun (k : Nat) => (if st.rank = 1 then dr + 1 else dr) + (k : Int)) = [] := by
    rw [Int.toNat_eq_zero.mpr hidle]
    rfl
  exact run_worker_round_eq bufsize st w msg tag inbox (mpiRecv_full hwf.1 hb)
    (legalmoves_one_colour hwf hside hno hl) (rd_stamp_zero hl) hpart hd hc hjs
    (workerLoop_nil _ _ _ _) htext

/-- A pass of the worker's loop on the starting position for rank 1 of 3, whose
share is the single index 1: the report is the move 34 with a score in
`-1000 .. 1000`, which stays in `temp_move`. -/
theorem run_worker_round_start (bufsize : Nat) (st : State) (w : Worker) (tag : Int)
    (inbox : List PeerInput) {c d : List Int}
    (hb : st.board.length = 100) (hcol : st.my_colour = BLACK) (hl : st.moves.length = 65)
    (hsize : st.size = 3) (hrank : st.rank = 1)
    (hpart : partition 3 4 w.process_counts w.process_displacements = some (c, d))
    (hd : rd d 1 = some 0) (hc : rd c 1 = some 2)
    (h4 : 4 ≤ w.my_move.length) (hbuf : bufsize ≤ w.my_move.length) :
    ∃ st2 score my_move1 inbox2,
      run_worker_round bufsize st w initialise_board tag inbox =
        some (st2,
          { temp_move := 34
            my_move := my_move1
            process_counts := c
            process_displacements := d },
          (if tag = COMPUTE then some (34, score) else none), inbox2) ∧
      -1000 ≤ score ∧ score ≤ 1000 ∧ my_move1.length = w.my_move.length ∧
      st2.board.length = 100 ∧ st2.moves.length = 65 ∧ st2.my_colour = BLACK ∧
      st2.size = 3 ∧ st2.rank = 1 := by
  obtain ⟨ms, hleg, hcount, hcell, hlen⟩ : ∃ ms,
      legalmoves initialise_board st.moves st.my_colour = some ms ∧ rd ms 0 = some 4 ∧
      rd ms 1 = some 34 ∧ ms.length = 65 := by
    refine ⟨_, by rw [hcol]; exact legalmoves_start hl, ?_, ?_, by simp [hl]⟩
    · unfold rd
      rw [if_pos (by decide)]
      simp [hl]
    · unfold rd
      rw [if_pos (by decide)]
      simp [hl]
  have hg : GoodState { st with board := initialise_board, moves := ms } :=
    ⟨wf_start, hlen, by rw [hcol]; decide⟩
  obtain ⟨st2, score, ib2, hloop, hs1, hs2, hb2, hl2, hc2, hz2, hr2⟩ :=
    workerLoop_single hg hcell (-10000) w.temp_move (by decide) inbox
  obtain ⟨my_move1, htext, hlen1⟩ := worker_text 34 h4 hbuf
  refine ⟨st2, score, my_move1, ib2, ?_, hs1, hs2, hlen1, hb2, hl2, hc2.trans hcol,
    hz2.trans hsize, hr2.trans hrank⟩
  exact run_worker_round_eq bufsize st w initialise_board tag inbox
    (mpiRecv_full wf_start.1 hb) hleg hcount (by rw [hsize]; exact hpart)
    (by rw [hrank]; exact hd) (by rw [hrank]; exact hc) (by rw [hrank]; rfl) hloop htext

theorem run_worker_reports (bufsize : Nat) (st : State) (counts0 displs0 : List Int)
    (msgs : List (List Int × Int)) (inbox : List PeerInput) {st2 : State} {w2 : Worker}
    {reports : List (Int × Int)}
    (h : workerRounds bufsize msgs
      { st with
        board := initialise_board
        my_colour := if st.my_colour = EMPTY then BLACK else st.my_colour }
      { temp_move := -1
        my_move := List.replicate bufsize NUL
        process_counts := counts0
        process_displacements := displs0 } inbox = some (st2, w2, reports)) :
    (run_worker bufsize st counts0 displs0 msgs inbox).map (fun r => r.2) = some reports := by
  unfold run_worker
  simp only
  rw [h]
  rfl

/-- The worker whose first pass finds no legal move reports the pass sentinel
`(-1, -10000)`. -/
theorem run_worker_idle_first (bufsize : Nat) (st : State) (counts0 displs0 msg : List Int)
    (inbox : List PeerInput) {c d : List Int} {dr cr : Int}
    (hwf : WellFormed msg) (hno : ∀ v ∈ msg, v ≠ WHITE)
    (hside : IsSide (if st.my_colour = EMPTY then BLACK else st.my_colour))
    (hl : 0 < st.moves.length)
    (hpart : partition st.size 0 counts0 displs0 = some (c, d))
    (hd : rd d st.rank = some dr) (hc : rd c st.rank = some cr)
    (hidle : dr + cr - (if st.rank = 1 then dr + 1 else dr) ≤ 0) (h4 : 4 ≤ bufsize) :
    (run_worker bufsize st counts0 displs0 [(msg, COMPUTE)] inbox).map (fun r => r.2)
      = some [(-1, -10000)] := by
  obtain ⟨my_move1, _, hround⟩ := run_worker_round_idle bufsize
    { st with
      board := initialise_board
      my_colour := if st.my_colour = EMPTY then BLACK else st.my_colour }
    { temp_move := -1
      my_move := List.replicate bufsize NUL
      process_counts := counts0
      process_displacements := displs0 } msg COMPUTE inbox wf_start.1 hwf hno hside hl hpart hd
    hc hidle (by simpa using h4) (by simp)
  rw [if_pos rfl] at hround
  exact run_worker_reports bufsize st counts0 displs0 _ inbox
    (workerRounds_cons bufsize msg COMPUTE [] _ _ inbox hround (workerRounds_nil _ _ _ _))

/-- The worker of rank 1 of 3 whose first pass searches the starting position
and whose second pass finds no legal move: the second report carries the move
34 of the first pass, next to the score -10000. -/
theorem run_worker_idle_later (bufsize : Nat) (st : State) (counts0 displs0 msg : List Int)
    (inbox : List PeerInput) {c d c2 d2 : List Int} {dr cr : Int}
    (hcol : (if st.my_colour = EMPTY then BLACK else st.my_colour) = BLACK)
    (hl : st.moves.length = 65) (hsize : st.size = 3) (hrank : st.rank = 1)
    (hpart : partition 3 4 counts0 displs0 = some (c, d))
    (hd : rd d 1 = some 0) (hc : rd c 1 = some 2)
    (hwf : WellFormed msg) (hno : ∀ v ∈ msg, v ≠ WHITE)
    (hpart2 : partition 3 0 c d = some (c2, d2))
    (hd2 : rd d2 1 = some dr) (hc2 : rd c2 1 = some cr) (hidle : dr + cr - (dr + 1) ≤ 0)
    (h4 : 4 ≤ bufsize) :
    ∃ score, -1000 ≤ score ∧ score ≤ 1000 ∧
      (run_worker bufsize st counts0 displs0 [(initialise_board, COMPUTE), (msg, COMPUTE)]
        inbox).map (fun r => r.2) = some [(34, score), (34, -10000)] := by
  obtain ⟨st2, score, my_move1, inbox2, hround1, hs1, hs2, hlen1, hb2, hl2, hcol2, hsz2, hrk2⟩ :=
    run_worker_round_start bufsize
      { st with
        board := initialise_board
        my_colour := if st.my_colour = EMPTY then BLACK else st.my_colour }
      { temp_move := -1
        my_move := List.replicate bufsize NUL
        process_counts := counts0
        process_displacements := displs0 } COMPUTE inbox wf_start.1 hcol hl hsize hrank hpart hd
      hc (by simpa using h4) (by simp)
  have hlen : my_move1.length = bufsize := by simpa using hlen1
  obtain ⟨my_move2, _, hround2⟩ := run_worker_round_idle bufsize st2
    { temp_move := 34
      my_move := my_move1
      process_counts := c
      process_displacements := d } msg COMPUTE inbox2 hb2 hwf hno
    (by rw [hcol2]; decide) (by rw [hl2]; decide) (by rw [hsz2]; exact hpart2)
    (by rw [hrk2]; exact hd2) (by rw [hrk2]; exact hc2)
    (by rw [hrk2, if_pos rfl]; exact hidle) (by rw [hlen]; exact h4) (by rw [hlen])
  rw [if_pos rfl] at hround1 hround2
  exact ⟨score, hs1, hs2, run_worker_reports bufsize st counts0 displs0 _ inbox
    (workerRounds_cons bufsize initialise_board COMPUTE _ _ _ inbox hround1
      (workerRounds_cons bufsize msg COMPUTE [] _ _ inbox2 hround2
        (workerRounds_nil _ _ _ _)))⟩

/-- C21 (code evaluated at the failing input): the worker of rank 1 of 3
processes, with a 6-character move buffer and no peer messages.  When its
first pass receives a board on which `BLACK` has no legal move, it searches no
move and reports the pass sentinel `(-1, -10000)`.  When its first pass
receives the starting position (its share is the index 1, the move 34) and its
second pass a board on which `BLACK` has no legal move, the second pass
searches no move either, yet its report is `(34, -10000)`: `temp_score` is
reset at the top of every pass, `temp_move` only once before the loop.  A score
a search returns lies in `-1000 .. 1000`. -/
theorem idle_round_reports_old_move :
    (run_worker 6 workerSample [0, 0, 0, 0] [0, 0, 0, 0] [(passSample.board, COMPUTE)]
      []).map (fun r => r.2) = some [(-1, -10000)] ∧
    (∃ score, -1000 ≤ score ∧ score ≤ 1000 ∧
      (run_worker 6 workerSample [0, 0, 0, 0] [0, 0, 0, 0]
        [(initialise_board, COMPUTE), (passSample.board, COMPUTE)] []).map (fun r => r.2)
        = some [(34, score), (34, -10000)]) ∧
    (∀ moves : List Int, 0 < moves.length →
      ((legalmoves passSample.board moves BLACK).bind fun ms => rd ms 0) = some 0) ∧
    run_worker_indices 3 1 4 [0, 0, 0, 0] [0, 0, 0, 0] = some [1] ∧
    partition 3 4 [0, 0, 0, 0] [0, 0, 0, 0] = some ([1, 2, 2, 0], [0, 0, 2, 0]) ∧
    run_worker_indices 3 1 0 [1, 2, 2, 0] [0, 0, 2, 0] = some [] ∧
    run_worker_indices 3 1 0 [0, 0, 0, 0] [0, 0, 0, 0] = some [] := by
  refine ⟨?_, ?_, ?_, by decide, by decide, by decide, by decide⟩
  · exact run_worker_idle_first 6 workerSample [0, 0, 0, 0] [0, 0, 0, 0] passSample.board []
      (c := [1, 0, 0, 0]) (d := [0, 0, 0, 0]) passSample_wf passSample_one_colour (by decide)
      (by decide) (by decide) (by decide : rd [0, 0, 0, 0] workerSample.rank = some 0)
      (by decide : rd [1, 0, 0, 0] workerSample.rank = some 0) (by decide) (by decide)
  · exact run_worker_idle_later 6 workerSample [0, 0, 0, 0] [0, 0, 0, 0] passSample.board []
      (c := [1, 2, 2, 0]) (d := [0, 0, 2, 0]) (by decide) (by decide) (by decide) (by decide)
      (by decide) (by decide) (by decide) passSample_wf passSample_one_colour
      (by decide : partition 3 0 [1, 2, 2, 0] [0, 0, 2, 0] = some ([2, 0, 0, 0], [0, 0, 0, 0]))
      (by decide : rd [0, 0, 0, 0] 1 = some 0) (by decide : rd [2, 0, 0, 0] 1 = some 0)
      (by decide) (by decide)
  · intro moves hl
    rw [legalmoves_one_colour passSample_wf (by decide) passSample_one_colour hl]
    exact rd_stamp_zero hl

/-! ## What `copy_board` copies -/

theorem freshBlock_length (st : State) : (freshBlock st).length = 100 := by
  simp [freshBlock, BOARDSIZE]

theorem freshBlock_cell (st : State) {i : Nat} (hi : i < 100) :
    rd (freshBlock st) (i : Int) = some ((st.heap st.allocs).getD i 0) := by
  unfold rd
  rw [if_pos (by omega)]
  simp [freshBlock, BOARDSIZE, hi]

/-- The loop of `copy_board` writes the cells of `cells` and no other. -/
theorem copyLoop_cells (board : Board) (hb : board.length = 100) :
    ∀ (cells : List Int) (t : Board), (∀ i ∈ cells, 0 ≤ i ∧ i < 100) → t.length = 100 →
      ∃ t1, copyLoop board cells t = some t1 ∧ t1.length = 100 ∧
        ∀ j : Int, (j ∈ cells → rd t1 j = rd board j) ∧ (j ∉ cells → rd t1 j = rd t j) := by
  intro cells
  induction cells with
  | nil =>
    intro t _ ht
    exact ⟨t, rfl, ht, fun j => ⟨fun h => absurd h (List.not_mem_nil _), fun _ => rfl⟩⟩
  | cons i rest ih =>
    intro t hc ht
    obtain ⟨h0, h1⟩ := hc i (List.mem_cons_self _ _)
    obtain ⟨v, hv⟩ := rd_of_bounds (a := board) h0 (by rw [hb]; omega)
    have hw := wr_of_bounds (a := t) v h0 (by rw [ht]; omega)
    obtain ⟨t1, ht1, hlen, hcells⟩ := ih (t.set i.toNat v)
      (fun j hj => hc j (List.mem_cons_of_mem _ hj)) (by rw [List.length_set]; exact ht)
    refine ⟨t1, ?_, hlen, ?_⟩
    · unfold copyLoop
      rw [hv]
      simp only
      rw [hw]
      exact ht1
    · intro j
      constructor
      · intro hj
        by_cases hjr : j ∈ rest
        · exact (hcells j).1 hjr
        · have hji : j = i := by
            rcases List.mem_cons.mp hj with h | h
            · exact h
            · exact absurd h hjr
          subst hji
          rw [(hcells j).2 hjr, rd_wr_same hw, hv]
      · intro hj
        have hji : i ≠ j := fun h => hj (h ▸ List.mem_cons_self _ _)
        have hjr : j ∉ rest := fun h => hj (List.mem_cons_of_mem _ h)
        rw [(hcells j).2 hjr, rd_wr_other hw hji]

/-- The function `copy_board` returns a block of 100 cells whose cells `0 .. 98`
are the argument's; cell 99 keeps what `malloc` handed out. -/
theorem copy_board_cells (st : State) {board : Board} (hb : board.length = 100) :
    ∃ t, copy_board st board = some ({ st with allocs := st.allocs + 1 }, t) ∧
      t.length = 100 ∧ (∀ j : Int, 0 ≤ j → j < 99 → rd t j = rd board j) ∧
      rd t 99 = some ((st.heap st.allocs).getD 99 0) := by
  have hmem : ∀ j : Int, j ∈ (List.range 99).map Int.ofNat ↔ 0 ≤ j ∧ j < 99 := by
    intro j
    simp only [List.mem_map, List.mem_range]
    constructor
    · rintro ⟨k, hk, rfl⟩
      simp only [Int.ofNat_eq_coe]
      omega
    · rintro ⟨h0, h1⟩
      exact ⟨j.toNat, by omega, by simp only [Int.ofNat_eq_coe]; omega⟩
  obtain ⟨t, ht, hlen, hcells⟩ := copyLoop_cells board hb ((List.range 99).map Int.ofNat)
    (freshBlock st) (fun i hi => by have := (hmem i).mp hi; omega) (freshBlock_length st)
  refine ⟨t, ?_, hlen, fun j h0 h1 => (hcells j).1 ((hmem j).mpr ⟨h0, h1⟩), ?_⟩
  · unfold copy_board
    rw [ht]
  · rw [(hcells 99).2 (fun h => by have := (hmem 99).mp h; omega)]
    exact freshBlock_cell st (by decide : 99 < 100)

/-- C22 (code evaluated at the failing input): for every board of 100 cells
`copy_board` returns a block of 100 cells whose cells `0 .. 98` are the
argument's, while cell 99 keeps what `malloc` handed out
(`for (i = 0; i < 99; i++)`).  On the starting position, with a block of zeros
from `malloc`, cell 99 of the copy is `EMPTY` where the argument holds
`OUTER`. -/
theorem copy_board_misses_last_cell :
    (∀ (st : State) (board : Board), board.length = 100 →
      ∃ t, copy_board st board = some ({ st with allocs := st.allocs + 1 }, t) ∧
        t.length = 100 ∧ (∀ j : Int, 0 ≤ j → j < 99 → rd t j = rd board j) ∧
        rd t 99 = some ((st.heap st.allocs).getD 99 0)) ∧
    ∃ t, (copy_board searchSample initialise_board).map (fun r => r.2) = some t ∧
      rd t 99 = some EMPTY ∧ rd initialise_board 99 = some OUTER ∧
      rd t 99 ≠ rd initialise_board 99 := by
  refine ⟨fun st board hb => copy_board_cells st hb, ?_⟩
  obtain ⟨t, ht, _, _, h99⟩ := copy_board_cells searchSample wf_start.1
  have h1 : rd t 99 = some EMPTY := h99
  have h2 : rd initialise_board 99 = some OUTER := by decide
  refine ⟨t, by rw [ht]; rfl, h1, h2, ?_⟩
  rw [h1, h2]
  decide

/-! ## The sentinel border -/

theorem wf_bordered {b : Board} (hb : WellFormed b) : Bordered b := by
  refine ⟨hb.1, fun i hi hbd => ?_⟩
  have := hb.2 i hi
  rw [if_pos hbd] at this
  exact this

/-- With the sentinel border a cell holding a piece is a playable cell. -/
theorem bordered_side_cell {b : Board} (hb : Bordered b) {i p : Int} (hp : IsSide p)
    (h : rd b i = some p) : Playable i := by
  obtain ⟨h0, h1⟩ := rd_eq_some_bounds h
  rw [hb.1] at h1
  unfold rd at h
  rw [if_pos h0] at h
  by_cases hbd : isBorder i.toNat
  · have hc := hb.2 i.toNat h1 hbd
    rw [h] at hc
    exact absurd (Option.some.inj hc) (side_ne_outer hp)
  · unfold isBorder at hbd
    unfold Playable
    omega

/-- With the sentinel border `findbracketingpiece` returns from every cell of
the board: 0, or the end of a run of opponent cells. -/
theorem bordered_fbp {b : Board} (hb : Bordered b) {p : Int} (hp : IsSide p) {d : Int}
    (hd : d ∈ ALLDIRECTIONS) :
    ∀ (fuel : Nat) (sq : Int), 0 ≤ sq → sq < 100 →
      (0 < d → 100 - sq ≤ fuel) → (d < 0 → sq + 1 ≤ fuel) →
      ∃ r, findbracketingpiece fuel b sq d p = some r ∧
        (r = 0 ∨ ∃ n : Nat, r = sq + n * d ∧ Run b sq d p n) := by
  have hdb := dir_bounds hd
  intro fuel
  induction fuel with
  | zero =>
    intro sq h0 h1 hpos hneg
    exfalso
    rcases lt_or_gt_of_ne hdb.2.2 with h | h
    · have := hneg h; omega
    · have := hpos h; omega
  | succ fuel ih =>
    intro sq h0 h1 hpos hneg
    obtain ⟨v, hv⟩ := rd_of_bounds (a := b) h0 (by rw [hb.1]; omega)
    unfold findbracketingpiece
    rw [hv]
    simp only
    by_cases hvo : v = opponent p
    · rw [if_pos hvo]
      subst hvo
      have hpl := bordered_side_cell hb (opponent_side hp) hv
      unfold Playable at hpl
      obtain ⟨r, hr, hcase⟩ := ih (sq + d) (by omega) (by omega)
        (fun h => by have := hpos h; omega) (fun h => by have := hneg h; omega)
      refine ⟨r, hr, ?_⟩
      rcases hcase with hz | ⟨n, hrn, hrun⟩
      · exact Or.inl hz
      · right
        refine ⟨n + 1, ?_, run_succ.mpr ⟨hv, hrun⟩⟩
        rw [hrn]; push_cast; ring
    · rw [if_neg hvo]
      by_cases hvp : v = p
      · rw [if_pos hvp]
        subst hvp
        exact ⟨sq, rfl, Or.inr ⟨0, by simp, run_zero.mpr hv⟩⟩
      · rw [if_neg hvp]
        exact ⟨0, rfl, Or.inl rfl⟩

/-- C23 (sentinel border): on every board of 100 cells whose 36 border cells hold
`OUTER` (every well-formed board is one), for every playable cell `move`, every
direction of `ALLDIRECTIONS` and every side `p`, `wouldflip` returns: the scan
ends within its fuel and every read falls inside the 100 cells, a read outside
making the result `none`.  Its value is 0 or the index of a playable cell that
holds `p` and is reached from `move` by stepping in the direction over `k ≥ 1`
opponent cells only. -/
theorem wouldflip_safe (b : Board) (move d p : Int) (hb : Bordered b) (hm : Playable move)
    (hd : d ∈ ALLDIRECTIONS) (hp : IsSide p) :
    (∀ b1, WellFormed b1 → Bordered b1) ∧
    ∃ r, wouldflip b move d p = some r ∧
      (r = 0 ∨
        (Playable r ∧ rd b r = some p ∧
          ∃ k : Nat, 1 ≤ k ∧ r = move + (k + 1 : Nat) * d ∧
            ∀ j : Nat, 1 ≤ j → j ≤ k → rd b (move + j * d) = some (opponent p))) := by
  refine ⟨fun _ h => wf_bordered h, ?_⟩
  have hdb := dir_bounds hd
  unfold Playable at hm
  obtain ⟨v, hv⟩ := rd_of_bounds (a := b) (i := move + d) (by omega) (by rw [hb.1]; omega)
  unfold wouldflip
  rw [hv]
  simp only
  by_cases hvo : v = opponent p
  · rw [if_pos hvo]
    subst hvo
    have hpl := bordered_side_cell hb (opponent_side hp) hv
    unfold Playable at hpl
    obtain ⟨r, hr, hcase⟩ := bordered_fbp hb hp hd SCANFUEL (move + d + d) (by omega) (by omega)
      (fun _ => by unfold SCANFUEL; omega) (fun _ => by unfold SCANFUEL; omega)
    refine ⟨r, hr, ?_⟩
    rcases hcase with hz | ⟨n, hrn, hrun, hend⟩
    · exact Or.inl hz
    · right
      have hrk : r = move + ((n + 1 + 1 : Nat) : Int) * d := by
        rw [hrn]; push_cast; ring
      have hcell : rd b r = some p := by
        rw [hrn]; exact hend
      refine ⟨bordered_side_cell hb hp hcell, hcell, n + 1, by omega, hrk, ?_⟩
      intro j hj1 hj2
      by_cases hj : j = 1
      · subst hj
        simpa using hv
      · have := hrun (j - 2) (by omega)
        rw [← this]
        congr 1
        have : ((j - 2 : Nat) : Int) = (j : Int) - 2 := by omega
        rw [this]; ring
  · rw [if_neg hvo]
    exact ⟨0, rfl, Or.inl rfl⟩

set_option maxRecDepth 100000 in
/-- Witness of C23: the starting position, the move 34 of `BLACK`, direction 10:
the scan steps over `WHITE` on 44 and returns 54. -/
theorem wouldflip_safe_witness :
    Bordered initialise_board ∧ Playable 34 ∧ (10 : Int) ∈ ALLDIRECTIONS ∧ IsSide BLACK ∧
    wouldflip initialise_board 34 10 BLACK = some 54 ∧
    (∀ b1, WellFormed b1 → Bordered b1) ∧
    ∃ r, wouldflip initialise_board 34 10 BLACK = some r ∧
      (r = 0 ∨
        (Playable r ∧ rd initialise_board r = some BLACK ∧
          ∃ k : Nat, 1 ≤ k ∧ r = 34 + (k + 1 : Nat) * 10 ∧
            ∀ j : Nat, 1 ≤ j → j ≤ k →
              rd initialise_board (34 + j * 10) = some (opponent BLACK))) :=
  ⟨wf_bordered wf_start, by decide, by decide, by decide, by decide,
    wouldflip_safe initialise_board 34 10 BLACK (wf_bordered wf_start) (by decide) (by decide)
      (by decide)⟩

end Othello
